import Mathlib

/-!
Verification of the Net puzzle core (net.c) and the Decanting puzzle
(decanting.c) of this repository, by shallow embedding into Lean.

Conventions used throughout:

* C `unsigned char` bitmasks become `Nat`, with the source's bit constants
  (`R = 0x01`, `U = 0x02`, `L = 0x04`, `D = 0x08`, `LOCKED = 0x10`,
  `ACTIVE = 0x20`).
* The tile and barrier arrays become `List Nat` indexed by `y * width + x`,
  exactly as the C `index` macro does.
* `tree234` (whose implementation lives outside this repository) is modelled
  as a sorted, duplicate-free list ordered by `xyd_cmp`'s lexicographic
  order; `delpos234 i` is removal of the `i`-th element in that order,
  `add234` is ordered insertion, `find234`/`del234` is removal by key.
* The random source `random_upto` (random.c, also outside this repository)
  is modelled from the spec: a deterministic stream of draws, one value per
  call, reduced modulo the requested bound.
* C `float` probability arithmetic is modelled exactly over `ℚ`; the C
  `(int)` cast on a non-negative value is `Int.toNat ∘ Int.floor`.
-/

namespace Net

/-- Direction bit `R = 0x01` (net.c line 26). -/
def R : Nat := 0x01
/-- Direction bit `U = 0x02` (net.c line 27). -/
def U : Nat := 0x02
/-- Direction bit `L = 0x04` (net.c line 28). -/
def L : Nat := 0x04
/-- Direction bit `D = 0x08` (net.c line 29). -/
def D : Nat := 0x08
/-- `LOCKED = 0x10` flag (net.c line 30). -/
def LOCKED : Nat := 0x10
/-- `ACTIVE = 0x20` flag (net.c line 31). -/
def ACTIVE : Nat := 0x20

/-- Anticlockwise rotation of a 4-bit mask: the source macro
`A(x) = (((x) & 0x07) << 1) | (((x) & 0x08) >> 3)`. -/
def A (x : Nat) : Nat := ((x &&& 0x07) <<< 1) ||| ((x &&& 0x08) >>> 3)

/-- Clockwise rotation: `C(x) = (((x) & 0x0E) >> 1) | (((x) & 0x01) << 3)`. -/
def C (x : Nat) : Nat := ((x &&& 0x0E) >>> 1) ||| ((x &&& 0x01) <<< 3)

/-- Flip (180 degrees): `F(x) = (((x) & 0x0C) >> 2) | (((x) & 0x03) << 2)`. -/
def F (x : Nat) : Nat := ((x &&& 0x0C) >>> 2) ||| ((x &&& 0x03) <<< 2)

/-- General rotate, the source macro `ROT(x, n)` (net.c lines 42-44). -/
def ROT (x n : Nat) : Nat :=
  if n % 4 = 0 then x
  else if n % 4 = 1 then A x
  else if n % 4 = 2 then F x
  else C x

/-- X displacement of a direction: `X(x) = ((x) == R ? +1 : (x) == L ? -1 : 0)`. -/
def Xd (x : Nat) : Int := if x = R then 1 else if x = L then -1 else 0

/-- Y displacement of a direction: `Y(x) = ((x) == D ? +1 : (x) == U ? -1 : 0)`. -/
def Yd (x : Nat) : Int := if x = D then 1 else if x = U then -1 else 0

/-- Bit count of the low four bits, the source macro `COUNT` (net.c 51-52). -/
def COUNT (x : Nat) : Nat :=
  ((x &&& 0x08) >>> 3) + ((x &&& 0x04) >>> 2) + ((x &&& 0x02) >>> 1) + (x &&& 0x01)

/-- The four direction bits in the order the source's
`for (d = 1; d < 0x10; d <<= 1)` loops visit them. -/
def dirs : List Nat := [R, U, L, D]

/-- A value is a direction when it is one of the four one-hot bits. -/
def isDir (d : Nat) : Prop := d = R ∨ d = U ∨ d = L ∨ d = D

instance (d : Nat) : Decidable (isDir d) := by unfold isDir; infer_instance

/-- The game state of net.c (lines 79-83): grid dimensions, centre
coordinates, wrapping flag, completion flag, last rotation direction, and
the per-cell tile and barrier mask arrays (indexed by `y * width + x`). -/
structure GState where
  width : Nat
  height : Nat
  cx : Nat
  cy : Nat
  wrapping : Bool
  completed : Bool
  last_rotate_dir : Int
  tiles : List Nat
  barriers : List Nat
deriving Repr, DecidableEq

/-- The `OFFSET` macro (net.c lines 85-87): toroidal coordinate translation
`x2 = (x1 + width + X(dir)) % width`, `y2 = (y1 + height + Y(dir)) % height`. -/
def offs (w h x y d : Nat) : Nat × Nat :=
  ((((x : Int) + (w : Int) + Xd d) % (w : Int)).toNat,
   (((y : Int) + (h : Int) + Yd d) % (h : Int)).toNat)

/-- One coordinate of the `OFFSET` computation. -/
def wrapAdd (w x : Nat) (e : Int) : Nat := (((x : Int) + (w : Int) + e) % (w : Int)).toNat

/-- Array indexing as in the `index` macro: `a[y * width + x]`. -/
def idx (w x y : Nat) : Nat := y * w + x

/-- `tile(state, x, y)` (net.c line 90). -/
def tile (st : GState) (x y : Nat) : Nat := st.tiles.getD (idx st.width x y) 0

/-- `barrier(state, x, y)` (net.c line 91). -/
def barrier (st : GState) (x y : Nat) : Nat := st.barriers.getD (idx st.width x y) 0

/-- A direction bit is set in a mask. -/
def bitSet (d t : Nat) : Prop := t &&& d ≠ 0

instance (d t : Nat) : Decidable (bitSet d t) := by unfold bitSet; infer_instance

/-- An `(x, y, direction)` triple, the `struct xyd` of net.c (lines 93-95). -/
structure Xyd where
  x : Nat
  y : Nat
  direction : Nat
deriving Repr, DecidableEq

/-- The strict order induced by `xyd_cmp` (net.c lines 97-113): lexicographic
on `x`, then `y`, then `direction`. -/
def xydLt (a b : Xyd) : Prop :=
  a.x < b.x ∨ (a.x = b.x ∧ (a.y < b.y ∨ (a.y = b.y ∧ a.direction < b.direction)))

instance (a b : Xyd) : Decidable (xydLt a b) := by unfold xydLt; infer_instance

/-- `add234`: insertion into the sorted set; an already-present element is
not duplicated.  (tree234.c is not part of this repository; this is the
sorted-set semantics its interface documents.) -/
def insert234 (e : Xyd) : List Xyd → List Xyd
  | [] => [e]
  | a :: rest =>
    if xydLt e a then e :: a :: rest
    else if e = a then a :: rest
    else a :: insert234 e rest

/-- `find234` + `del234`: remove the element equal to the key, if present. -/
def del234 (e : Xyd) (l : List Xyd) : List Xyd := l.erase e

/-- The random stream.  Modelled from the spec: `random_source(seed) ->
stream of uniform(0, n)` "must be deterministic given the same seed and same
sequence of draw sizes" (random.c is not part of this repository).  The seed
determines the raw stream `f`; each `random_upto` call consumes one raw
value and reduces it modulo the requested bound. -/
structure RandomState where
  f : Nat → Nat
  i : Nat

/-- One draw: `random_upto(rs, n)` returns a value below `n` (for `n > 0`)
and advances the stream. -/
def random_upto (rs : RandomState) (n : Nat) : Nat × RandomState :=
  (rs.f rs.i % n, ⟨rs.f, rs.i + 1⟩)

/-- `a[y*w + x]` read with default 0. -/
def getArr (w : Nat) (a : List Nat) (x y : Nat) : Nat := a.getD (idx w x y) 0

/-- `a[y*w + x] = v`. -/
def setArr (w : Nat) (a : List Nat) (x y v : Nat) : List Nat := a.set (idx w x y) v

/-- The game parameters of net.c (lines 72-77).  `barrier_probability` is a
C float; it is modelled exactly as a rational. -/
structure GameParams where
  width : Nat
  height : Nat
  wrapping : Bool
  barrier_probability : Rat

/-- The working state of the grid-construction loop of `new_game`
(net.c lines 309-421): the tile array, the `possibilities` tree and the
random state. -/
structure GenSt where
  tiles : List Nat
  poss : List Xyd
  rs : RandomState

/-- Extraction of a random possibility (net.c lines 314-322):
`i = random_upto(rs, count234(possibilities)); xyd = delpos234(possibilities, i)`.
Returns the extracted element, the remaining list and the random state. -/
def pickPoss (st : GenSt) : Xyd × List Xyd × RandomState :=
  let picked := random_upto st.rs st.poss.length
  (st.poss.getD picked.1 ⟨0, 0, 0⟩, st.poss.eraseIdx picked.1, picked.2)

/-- Making the connection (net.c lines 335-337): set the outgoing bit on
the source tile and the reciprocal bit on the target tile. -/
def connect (w : Nat) (tiles : List Nat) (x1 y1 x2 y2 d1 : Nat) : List Nat :=
  let tiles1 := setArr w tiles x1 y1 (getArr w tiles x1 y1 ||| d1)
  setArr w tiles1 x2 y2 (getArr w tiles1 x2 y2 ||| F d1)

/-- T-piece pruning (net.c lines 343-360): if the source tile now has three
bits, remove its fourth direction from the possibilities if present. -/
def pruneT (w : Nat) (tiles : List Nat) (x1 y1 : Nat) (p : List Xyd) : List Xyd :=
  if COUNT (getArr w tiles x1 y1) = 3 then
    del234 ⟨x1, y1, 0x0F ^^^ getArr w tiles x1 y1⟩ p
  else p

/-- Loop avoidance (net.c lines 366-387): remove every possibility pointing
into the just-reached tile. -/
def pruneInto (w h : Nat) (x2 y2 : Nat) (p : List Xyd) : List Xyd :=
  dirs.foldl (fun p d =>
    let c3 := offs w h x2 y2 d
    del234 ⟨c3.1, c3.2, F d⟩ p) p

/-- New possibilities out of the just-reached tile (net.c lines 393-420),
skipping the direction we came from, grid boundaries when non-wrapping, and
already-used targets. -/
def addStep (w h : Nat) (wrapping : Bool) (tiles : List Nat) (x2 y2 d2 : Nat)
    (p : List Xyd) (d : Nat) : List Xyd :=
  if d = d2 then p
  else if wrapping = false ∧
      ((d = U ∧ y2 = 0) ∨ (d = D ∧ y2 = h - 1) ∨
       (d = L ∧ x2 = 0) ∨ (d = R ∧ x2 = w - 1)) then p
  else if getArr w tiles (offs w h x2 y2 d).1 (offs w h x2 y2 d).2 ≠ 0 then p
  else insert234 ⟨x2, y2, d⟩ p

/-- The conditions under which the loop at net.c lines 393-420 adds the
possibility `(x2, y2, d)`. -/
def addCond (w h : Nat) (wrapping : Bool) (tiles : List Nat) (x2 y2 d2 d : Nat) : Prop :=
  d ≠ d2 ∧
  ¬(wrapping = false ∧
      ((d = U ∧ y2 = 0) ∨ (d = D ∧ y2 = h - 1) ∨
       (d = L ∧ x2 = 0) ∨ (d = R ∧ x2 = w - 1))) ∧
  getArr w tiles (offs w h x2 y2 d).1 (offs w h x2 y2 d).2 = 0

def addOut (w h : Nat) (wrapping : Bool) (tiles : List Nat) (x2 y2 d2 : Nat)
    (p : List Xyd) : List Xyd :=
  dirs.foldl (addStep w h wrapping tiles x2 y2 d2) p

/-- One iteration of the `while (count234(possibilities) > 0)` loop of
`new_game` (net.c lines 309-421): extract a random possibility, make the
connection, prune a completed T-piece's fourth direction, drop the
possibilities pointing into the newly reached tile, and add the new
possibilities leading out of it. -/
def genStep (w h : Nat) (wrapping : Bool) (st : GenSt) : GenSt :=
  if st.poss = [] then st
  else
    let pk := pickPoss st
    let xyd := pk.1
    let c2 := offs w h xyd.x xyd.y xyd.direction
    let tiles2 := connect w st.tiles xyd.x xyd.y c2.1 c2.2 xyd.direction
    let poss2 := pruneT w tiles2 xyd.x xyd.y pk.2.1
    let poss3 := pruneInto w h c2.1 c2.2 poss2
    let poss4 := addOut w h wrapping tiles2 c2.1 c2.2 (F xyd.direction) poss3
    ⟨tiles2, poss4, pk.2.2⟩

/-- The construction loop, with explicit fuel; it stops as the source does
when the possibilities tree is empty. -/
def genLoop (w h : Nat) (wrapping : Bool) : Nat → GenSt → GenSt
  | 0, st => st
  | fuel + 1, st =>
    if st.poss = [] then st else genLoop w h wrapping fuel (genStep w h wrapping st)

/-- The initial possibilities: the up-to-four edges leaving the centre
(net.c lines 300-307, with the source's bounds conditions). -/
def initPoss (w h cx cy : Nat) : List Xyd :=
  let p0 : List Xyd := []
  let p1 := if cx + 1 < w then insert234 ⟨cx, cy, R⟩ p0 else p0
  let p2 := if 1 ≤ cy then insert234 ⟨cx, cy, U⟩ p1 else p1
  let p3 := if 1 ≤ cx then insert234 ⟨cx, cy, L⟩ p2 else p2
  if cy + 1 < h then insert234 ⟨cx, cy, D⟩ p3 else p3

/-- The grid-construction phase of `new_game`: zero tiles, initial centre
possibilities, then the loop run to completion (`w * h` iterations of fuel
always suffice, and the loop stops early once the tree is empty). -/
def generate (params : GameParams) (f : Nat → Nat) : GenSt :=
  let w := params.width
  let h := params.height
  genLoop w h params.wrapping (w * h)
    ⟨List.replicate (w * h) 0, initPoss w h (w / 2) (h / 2), ⟨f, 0⟩⟩

/-- The possible barrier locations (net.c lines 429-440): every absent `R`
or `D` connection whose far side is in the grid or wraps. -/
def barrierCands (w h : Nat) (wrapping : Bool) (tiles : List Nat) : List Xyd :=
  (List.range h).foldl (fun p y =>
    (List.range w).foldl (fun p x =>
      let p1 :=
        if getArr w tiles x y &&& R = 0 ∧ (wrapping = true ∨ x + 1 < w) then
          insert234 ⟨x, y, R⟩ p
        else p
      if getArr w tiles x y &&& D = 0 ∧ (wrapping = true ∨ y + 1 < h) then
        insert234 ⟨x, y, D⟩ p1
      else p1) p) []

/-- The shuffle (net.c lines 445-451): every tile gets a uniformly random
number of quarter-turns, row by row. -/
def shuffle (w h : Nat) (tiles : List Nat) (rs : RandomState) : List Nat × RandomState :=
  (List.range h).foldl (fun acc y =>
    (List.range w).foldl (fun acc x =>
      let drawn := random_upto acc.2 4
      (setArr w acc.1 x y (ROT (getArr w acc.1 x y) drawn.1), drawn.2)) acc)
    (tiles, rs)

/-- The result of the barrier-placement loop: the chosen edges in choice
order, the remaining candidates, the barriers array and the random state. -/
structure BarRes where
  placed : List Xyd
  cands : List Xyd
  bars : List Nat
  rs : RandomState

/-- The barrier-placement loop (net.c lines 470-495): `nbarriers` times,
extract a random remaining candidate and set both half-edge barrier bits. -/
def barLoop (w h : Nat) : Nat → List Xyd → List Nat → RandomState → List Xyd → BarRes
  | 0, cands, bars, rs, placed => ⟨placed, cands, bars, rs⟩
  | n + 1, cands, bars, rs, placed =>
    let picked := random_upto rs cands.length
    let i := picked.1
    let rs1 := picked.2
    let xyd := cands.getD i ⟨0, 0, 0⟩
    let cands1 := cands.eraseIdx i
    let c2 := offs w h xyd.x xyd.y xyd.direction
    let d2 := F xyd.direction
    let bars1 := setArr w bars xyd.x xyd.y (getArr w bars xyd.x xyd.y ||| xyd.direction)
    let bars2 := setArr w bars1 c2.1 c2.2 (getArr w bars1 c2.1 c2.2 ||| d2)
    barLoop w h n cands1 bars2 rs1 (placed ++ [xyd])

/-- Is the integer coordinate pair inside the grid?  Used by the barrier
corner pass, which works in plain (non-wrapping) coordinates. -/
def inGridI (w h : Nat) (x y : Int) : Prop := 0 ≤ x ∧ x < w ∧ 0 ≤ y ∧ y < h

instance (w h : Nat) (x y : Int) : Decidable (inGridI w h x y) := by
  unfold inGridI; infer_instance

/-- One direction of the barrier corner pass body (net.c lines 517-553). -/
def cornerStep (w h : Nat) (x y dir : Nat) (bars : List Nat) : List Nat :=
  if bars.getD (idx w x y) 0 &&& dir = 0 then bars
  else
    let dir2 := A dir
    let x1 : Int := (x : Int) + Xd dir
    let y1 : Int := (y : Int) + Yd dir
    let x2 : Int := (x : Int) + Xd dir2
    let y2 : Int := (y : Int) + Yd dir2
    let corner :=
      (bars.getD (idx w x y) 0 &&& dir2 ≠ 0) ∨
      (inGridI w h x1 y1 ∧ getArr w bars x1.toNat y1.toNat &&& dir2 ≠ 0) ∨
      (inGridI w h x2 y2 ∧ getArr w bars x2.toNat y2.toNat &&& dir ≠ 0)
    if corner then
      let b0 := setArr w bars x y (getArr w bars x y ||| (dir <<< 4))
      let b1 :=
        if inGridI w h x1 y1 then
          setArr w b0 x1.toNat y1.toNat (getArr w b0 x1.toNat y1.toNat ||| (A dir <<< 4))
        else b0
      let b2 :=
        if inGridI w h x2 y2 then
          setArr w b1 x2.toNat y2.toNat (getArr w b1 x2.toNat y2.toNat ||| (C dir <<< 4))
        else b1
      let x3 : Int := (x : Int) + Xd dir + Xd dir2
      let y3 : Int := (y : Int) + Yd dir + Yd dir2
      if inGridI w h x3 y3 then
        setArr w b2 x3.toNat y3.toNat (getArr w b2 x3.toNat y3.toNat ||| (F dir <<< 4))
      else b2
    else bars

/-- The barrier corner-decoration pass (net.c lines 513-555). -/
def cornerPhase (w h : Nat) (bars : List Nat) : List Nat :=
  (List.range h).foldl (fun b y =>
    (List.range w).foldl (fun b x =>
      dirs.foldl (fun b dir => cornerStep w h x y dir b) b) b) bars

/-- The pre-seeded border barriers of a non-wrapping game (net.c 240-249). -/
def borderBarriers (w h : Nat) (wrapping : Bool) : List Nat :=
  let bars0 := List.replicate (w * h) 0
  if wrapping = true then bars0
  else
    let barsX := (List.range w).foldl (fun b x =>
      let b1 := setArr w b x 0 (getArr w b x 0 ||| U)
      setArr w b1 x (h - 1) (getArr w b1 x (h - 1) ||| D)) bars0
    (List.range h).foldl (fun b y =>
      let b1 := setArr w b 0 y (getArr w b 0 y ||| L)
      setArr w b1 (w - 1) y (getArr w b1 (w - 1) y ||| R)) barsX

/-- All intermediate results of `new_game` (net.c lines 211-560), exposed so
that individual phases can be reasoned about. -/
structure Pipeline where
  preTiles : List Nat
  postRs : RandomState
  cands : List Xyd
  shuffled : List Nat
  nbarriers : Nat
  bres : BarRes
  state : GState

/-- `new_game` as a pipeline: border barriers, grid construction, barrier
candidate enumeration, shuffle, barrier placement, corner decoration. -/
def pipeline (params : GameParams) (f : Nat → Nat) : Pipeline :=
  let w := params.width
  let h := params.height
  let bars1 := borderBarriers w h params.wrapping
  let gen := generate params f
  let cands := barrierCands w h params.wrapping gen.tiles
  let shuffled := shuffle w h gen.tiles gen.rs
  let nbarriers := (⌊params.barrier_probability * (cands.length : Rat)⌋).toNat
  let bres := barLoop w h nbarriers cands bars1 shuffled.2 []
  { preTiles := gen.tiles
    postRs := gen.rs
    cands := cands
    shuffled := shuffled.1
    nbarriers := nbarriers
    bres := bres
    state :=
      { width := w, height := h, cx := w / 2, cy := h / 2,
        wrapping := params.wrapping, completed := false, last_rotate_dir := 1,
        tiles := shuffled.1, barriers := cornerPhase w h bres.bars } }

/-- `new_game(params, seed)` (net.c lines 211-560), the seed standing for
its derived raw random stream. -/
def new_game (params : GameParams) (f : Nat → Nat) : GState :=
  (pipeline params f).state


/-- `TILE_SIZE` (net.c line 54). -/
def TILE_SIZE : Nat := 32
/-- `TILE_BORDER` (net.c line 55). -/
def TILE_BORDER : Nat := 1
/-- `WINDOW_OFFSET` (net.c line 56). -/
def WINDOW_OFFSET : Nat := 16

/-- The body of the flood-fill loop of `compute_active` (net.c lines
617-642), with explicit fuel standing for the source's loop-until-empty;
`delpos234(todo, 0)` pops the least element, the head of the sorted list. -/
def caLoop (st : GState) : Nat → List Nat → List Xyd → List Nat
  | 0, active, _ => active
  | fuel + 1, active, todo =>
    match todo with
    | [] => active
    | t :: rest =>
      let x1 := t.x
      let y1 := t.y
      let next := dirs.foldl (fun (acc : List Nat × List Xyd) d1 =>
        let c2 := offs st.width st.height x1 y1 d1
        let d2 := F d1
        if tile st x1 y1 &&& d1 ≠ 0 ∧ tile st c2.1 c2.2 &&& d2 ≠ 0 ∧
            barrier st x1 y1 &&& d1 = 0 ∧ getArr st.width acc.1 c2.1 c2.2 = 0 then
          (setArr st.width acc.1 c2.1 c2.2 ACTIVE, insert234 ⟨c2.1, c2.2, 0⟩ acc.2)
        else acc) (active, rest)
      caLoop st fuel next.1 next.2

/-- `compute_active` (net.c lines 600-648): breadth-first flood fill of the
`ACTIVE` flag from the centre across connected, unbarriered edges. -/
def compute_active (st : GState) : List Nat :=
  let active0 := List.replicate (st.width * st.height) 0
  let active1 := setArr st.width active0 st.cx st.cy ACTIVE
  caLoop st (st.width * st.height) active1 (insert234 ⟨st.cx, st.cy, 0⟩ [])

/-- Mouse buttons.  `LEFT_BUTTON`/`MIDDLE_BUTTON`/`RIGHT_BUTTON` come from
the host's puzzles.h, outside this repository; `other` stands for every
remaining button code `make_move` can receive. -/
inductive Button where
  | left
  | middle
  | right
  | other
deriving Repr, DecidableEq

/-- `make_move` (net.c lines 653-741).  Returns `none` where the source
returns `NULL` (no new state), otherwise the duplicated-and-updated state. -/
def make_move (st : GState) (px py : Int) (button : Button) : Option GState :=
  if button ≠ Button.left ∧ button ≠ Button.middle ∧ button ≠ Button.right then
    none
  else
    let x : Int := px - (WINDOW_OFFSET + TILE_BORDER : Nat)
    let y : Int := py - (WINDOW_OFFSET + TILE_BORDER : Nat)
    if x < 0 ∨ y < 0 then none
    else
      let tx := x.toNat / TILE_SIZE
      let ty := y.toNat / TILE_SIZE
      if tx ≥ st.width ∨ ty ≥ st.height then none
      else if tx % TILE_SIZE ≥ TILE_SIZE - TILE_BORDER ∨
          ty % TILE_SIZE ≥ TILE_SIZE - TILE_BORDER then none
      else if button = Button.middle then
        some { st with tiles := setArr st.width st.tiles tx ty (tile st tx ty ^^^ LOCKED) }
      else if tile st tx ty &&& LOCKED ≠ 0 then none
      else
        let orig := tile st tx ty
        let st1 :=
          if button = Button.left then
            { st with tiles := setArr st.width st.tiles tx ty (A orig),
                      last_rotate_dir := 1 }
          else
            { st with tiles := setArr st.width st.tiles tx ty (C orig),
                      last_rotate_dir := -1 }
        let active := compute_active st1
        let complete := ∀ x1 < st1.width, ∀ y1 < st1.height,
          getArr st1.width active x1 y1 ≠ 0
        some (if complete then { st1 with completed := true } else st1)

end Net

namespace Decanting

/-- The game parameters of decanting.c (lines 55-60). -/
structure DParams where
  ncolours : Nat
  ntubes : Nat
  nlayers : Nat
  hiddenlayers : Bool
deriving Repr, DecidableEq

/-- `validate_params` (decanting.c lines 245-256) accepts exactly these. -/
def validParams (p : DParams) : Prop :=
  2 ≤ p.ncolours ∧ 2 ≤ p.nlayers ∧ 3 ≤ p.ntubes ∧
  p.ncolours ≤ 12 ∧ p.nlayers ≤ 8 ∧ p.ntubes ≤ 16 ∧ p.ncolours < p.ntubes

instance (p : DParams) : Decidable (validParams p) := by
  unfold validParams; infer_instance

/-- The hex digit table `HEX` (decanting.c line 53). -/
def HEX : List Char := "0123456789abcdef".toList

/-- `game_desc` (decanting.c lines 258-271): per tube, the non-empty layers
from top to bottom as hex digits, tubes separated by commas (the final
comma becomes the terminator). -/
def game_desc (nlayers : Nat) (tubes : List (List Int)) : String :=
  String.mk
    ((tubes.map (fun tube =>
      ((List.range nlayers).reverse.filterMap (fun layer =>
        if tube.getD layer (-1) ≠ -1 then
          some (HEX.getD (tube.getD layer (-1)).toNat ' ')
        else none)) ++ [','])).flatten.dropLast)

/-- The tube array `new_game_desc` fills before describing it (decanting.c
lines 290-299): tubes `0 ≤ t < ncolours` hold `nlayers` layers of colour
`t`; the remaining tubes are empty (`-1`). -/
def genTubes (p : DParams) : List (List Int) :=
  (List.range p.ntubes).map (fun t =>
    (List.range p.nlayers).map (fun _ => if t < p.ncolours then (t : Int) else -1))

/-- The description the generator path of `new_game_desc` produces. -/
def generatedDesc (p : DParams) : String := game_desc p.nlayers (genTubes p)

/-- The hard-coded description returned for `ncolours == 12 && nlayers == 4`
(decanting.c lines 281-288). -/
def fixedDesc : String := "11a8,9437,b672,2632,856a,aba5,067b,0370,8194,495b,8059,2314"

/-- `new_game_desc` (decanting.c lines 273-304).  The `random_state`
argument is unused by the source (the generator path performs no
shuffling), so it is omitted here. -/
def new_game_desc (p : DParams) : String :=
  if p.ncolours = 12 ∧ p.nlayers = 4 then fixedDesc
  else generatedDesc p

end Decanting

namespace Net

/-- The tile mask of a cell, as a pair-indexed view of the array. -/
def tileAt (w : Nat) (tiles : List Nat) (c : Nat × Nat) : Nat := getArr w tiles c.1 c.2

/-- The neighbour of a cell in a direction, via the `OFFSET` macro. -/
def nbr (w h : Nat) (c : Nat × Nat) (d : Nat) : Nat × Nat := offs w h c.1 c.2 d

/-- A cell's coordinates are within the grid. -/
def inGrid (w h : Nat) (c : Nat × Nat) : Prop := c.1 < w ∧ c.2 < h

/-- Moving from `c` in direction `d` stays inside the grid without
wrapping round an edge. -/
def stepOk (w h : Nat) (c : Nat × Nat) (d : Nat) : Prop :=
  (d = R → c.1 + 1 < w) ∧ (d = L → 1 ≤ c.1) ∧ (d = U → 1 ≤ c.2) ∧ (d = D → c.2 + 1 < h)

/-- A direction is usable from a cell: always on the torus, and only
without wrapping past an edge on a bounded grid. -/
def validDir (w h : Nat) (wrapping : Bool) (c : Nat × Nat) (d : Nat) : Prop :=
  wrapping = true ∨ stepOk w h c d

/-- The centre cell `(width / 2, height / 2)` (net.c lines 227-228). -/
def center (w h : Nat) : Nat × Nat := (w / 2, h / 2)

/-- During construction a cell is in use once its mask is non-zero; the
centre counts as in use from the start. -/
def placed (w h : Nat) (tiles : List Nat) (c : Nat × Nat) : Prop :=
  tileAt w tiles c ≠ 0 ∨ c = center w h

/-- The direction `d` out of the centre fails the initial bounds checks of
net.c lines 300-307 (which are applied even to wrapping games). -/
def initSkip (w h : Nat) (d : Nat) : Prop :=
  (d = R ∧ ¬(w / 2 + 1 < w)) ∨ (d = U ∧ ¬(1 ≤ h / 2)) ∨
  (d = L ∧ ¬(1 ≤ w / 2)) ∨ (d = D ∧ ¬(h / 2 + 1 < h))

/-- A construction ledger, newest connection first: each entry is the newly
reached cell together with the direction back to the cell it was reached
from.  `birthsOk` states that each entry reaches a fresh non-centre cell
from a previously reached cell (or the centre). -/
def birthsOk (w h : Nat) : List ((Nat × Nat) × Nat) → Prop
  | [] => True
  | e :: rest => birthsOk w h rest ∧ isDir e.2 ∧ inGrid w h e.1 ∧
      nbr w h e.1 e.2 ≠ e.1 ∧ e.1 ≠ center w h ∧ e.1 ∉ rest.map Prod.fst ∧
      (nbr w h e.1 e.2 = center w h ∨ nbr w h e.1 e.2 ∈ rest.map Prod.fst)

/-- The tiles' connection bits are exactly the two half-edges of each
ledger entry. -/
def bitChar (w h : Nat) (tiles : List Nat) (bs : List ((Nat × Nat) × Nat)) : Prop :=
  ∀ c, inGrid w h c → ∀ d, isDir d →
    (bitSet d (tileAt w tiles c) ↔ ((c, d) ∈ bs ∨ (nbr w h c d, F d) ∈ bs))

/-- Placement time of a cell: 0 for the centre (and unknown cells), and
later entries of the newest-first ledger get smaller times. -/
def timeOf (bs : List ((Nat × Nat) × Nat)) (c : Nat × Nat) : Nat :=
  bs.length - (bs.map Prod.fst).indexOf c

/-- All cells of the grid, row by row. -/
def gridCells (w h : Nat) : List (Nat × Nat) :=
  (List.range h).flatMap (fun y => (List.range w).map (fun x => (x, y)))

instance (w h : Nat) (tiles : List Nat) (c : Nat × Nat) :
    Decidable (placed w h tiles c) := by unfold placed; infer_instance

/-- The number of cells in use. -/
def placedCount (w h : Nat) (tiles : List Nat) : Nat :=
  (gridCells w h).countP (fun c => decide (placed w h tiles c))

/-- The invariant of the grid-construction loop. -/
structure GenInv (w h : Nat) (wrapping : Bool) (st : GenSt) : Prop where
  tlen : st.tiles.length = w * h
  tlt : ∀ t ∈ st.tiles, t < 16
  psort : st.poss.Pairwise xydLt
  pdir : ∀ e ∈ st.poss, isDir e.direction
  pgrid : ∀ e ∈ st.poss, inGrid w h (e.x, e.y)
  pvalid : ∀ e ∈ st.poss, validDir w h wrapping (e.x, e.y) e.direction
  psrc : ∀ e ∈ st.poss, placed w h st.tiles (e.x, e.y)
  ptgt : ∀ e ∈ st.poss, ¬placed w h st.tiles (nbr w h (e.x, e.y) e.direction)
  offgrid : wrapping = false → ∀ c, inGrid w h c → ∀ d, isDir d →
    bitSet d (tileAt w st.tiles c) → stepOk w h c d
  cnt3 : ∀ c, inGrid w h c → COUNT (tileAt w st.tiles c) ≤ 3
  t3np : ∀ c, inGrid w h c → COUNT (tileAt w st.tiles c) = 3 →
    (⟨c.1, c.2, 0x0F ^^^ tileAt w st.tiles c⟩ : Xyd) ∉ st.poss
  fence : ∀ c, inGrid w h c → ∀ d, isDir d → placed w h st.tiles c →
    validDir w h wrapping c d → ¬placed w h st.tiles (nbr w h c d) →
    ((⟨c.1, c.2, d⟩ : Xyd) ∈ st.poss ∨ tileAt w st.tiles c = 0x0F ^^^ d ∨
      (c = center w h ∧ initSkip w h d))
  births : ∃ bs : List ((Nat × Nat) × Nat),
    birthsOk w h bs ∧ bitChar w h st.tiles bs ∧
    (∀ c, inGrid w h c →
      (placed w h st.tiles c ↔ (c = center w h ∨ c ∈ bs.map Prod.fst))) ∧
    (st.tiles.map COUNT).sum = 2 * bs.length

/-- One hop of the connection graph: a set bit of `c` leads to its
neighbour. -/
def connStep (w h : Nat) (tiles : List Nat) (c c' : Nat × Nat) : Prop :=
  ∃ d, isDir d ∧ bitSet d (tileAt w tiles c) ∧ c' = nbr w h c d

/-- Reachability along set connection bits. -/
def reachable (w h : Nat) (tiles : List Nat) : (Nat × Nat) → (Nat × Nat) → Prop :=
  Relation.ReflTransGen (connStep w h tiles)

/-- Position of a cell in the construction ledger (newest first). -/
def tIdx : List ((Nat × Nat) × Nat) → (Nat × Nat) → Nat
  | [], _ => 0
  | e :: rest, c => if e.1 = c then 0 else tIdx rest c + 1

/-- A path of single steps through the grid that never wraps round an
edge. -/
def pathOk (w h : Nat) : (Nat × Nat) → List Nat → (Nat × Nat) → Prop
  | c, [], c' => c = c'
  | c, d :: ds, c' => isDir d ∧ stepOk w h c d ∧ pathOk w h (nbr w h c d) ds c'

/-- A usable edge from a cell in use to a cell not yet in use. -/
def boundaryEdge (w h : Nat) (wrapping : Bool) (tiles : List Nat)
    (p : Nat × Nat) (d : Nat) : Prop :=
  inGrid w h p ∧ isDir d ∧ placed w h tiles p ∧ validDir w h wrapping p d ∧
    ¬placed w h tiles (nbr w h p d)

/-- One transition of the wall-following machine.  A state `(p, d, false)`
is a boundary edge; a state `(s, d, true)` is the middle of a corner turn,
about to traverse the edge from `s` in direction `d`. -/
def mstep (w h : Nat) (tiles : List Nat) : (Nat × Nat) × Nat × Bool →
    (Nat × Nat) × Nat × Bool
  | (p, d, false) =>
      if placed w h tiles (nbr w h (nbr w h p (A d)) d) then (nbr w h p (A d), d, true)
      else (nbr w h p (A d), d, false)
  | (s, d, true) => (nbr w h s d, F (A d), false)

/-- The connection-graph edge traversed on leaving a machine state. -/
def emitE : (Nat × Nat) × Nat × Bool → (Nat × Nat) × Nat
  | (p, d, false) => (p, A d)
  | (s, d, _) => (s, d)

/-- The run of the wall-following machine. -/
def mrun (w h : Nat) (tiles : List Nat) (m0 : (Nat × Nat) × Nat × Bool) :
    Nat → (Nat × Nat) × Nat × Bool
  | 0 => m0
  | k + 1 => mstep w h tiles (mrun w h tiles m0 k)

/-- One direction's worth of the flood-fill body: mark and enqueue the
neighbour if connected both ways, unblocked, and not yet marked. -/
def caStep (st : GState) (x1 y1 : Nat) (acc : List Nat × List Xyd) (d1 : Nat) :
    List Nat × List Xyd :=
  let c2 := offs st.width st.height x1 y1 d1
  let d2 := F d1
  if tile st x1 y1 &&& d1 ≠ 0 ∧ tile st c2.1 c2.2 &&& d2 ≠ 0 ∧
      barrier st x1 y1 &&& d1 = 0 ∧ getArr st.width acc.1 c2.1 c2.2 = 0 then
    (setArr st.width acc.1 c2.1 c2.2 ACTIVE, insert234 ⟨c2.1, c2.2, 0⟩ acc.2)
  else acc

/-- The number of grid cells a flood-fill array leaves unmarked. -/
def unmarked (w h : Nat) (a : List Nat) : Nat :=
  (gridCells w h).countP (fun c => decide (getArr w a c.1 c.2 = 0))

/-- The game state as it stands after generation but before the shuffle and
before any barrier has been placed: fresh tiles, only the border walls of a
non-wrapping grid. -/
def preState (q : GameParams) (f : Nat → Nat) : GState :=
  { width := q.width, height := q.height, cx := q.width / 2, cy := q.height / 2,
    wrapping := q.wrapping, completed := false, last_rotate_dir := 1,
    tiles := (pipeline q f).preTiles,
    barriers := borderBarriers q.width q.height q.wrapping }

/-- The wall-following machine's invariant: an ordinary state carries a
boundary edge, a mid-turn state is about to reach one. -/
def minv (w h : Nat) (wrapping : Bool) (tiles : List Nat) :
    (Nat × Nat) × Nat × Bool → Prop
  | (p, d, false) => boundaryEdge w h wrapping tiles p d
  | (s, d, true) => isDir d ∧ inGrid w h s ∧
      boundaryEdge w h wrapping tiles (nbr w h s d) (F (A d))

/-- A periodic, chained, non-backtracking walk along set connection bits:
what a cycle in the connection graph looks like. -/
def closedWalk (w h : Nat) (tiles : List Nat) (n : Nat)
    (E : Nat → (Nat × Nat) × Nat) : Prop :=
  0 < n ∧ (∀ k, E k = E (k % n)) ∧
  (∀ k, inGrid w h (E k).1 ∧ isDir (E k).2) ∧
  (∀ k, bitSet (E k).2 (tileAt w tiles (E k).1)) ∧
  (∀ k, (E (k + 1)).1 = nbr w h (E k).1 (E k).2) ∧
  (∀ k, (E (k + 1)).2 ≠ F (E k).2)

end Net

-- ========================= THEOREMS =========================

namespace Net

theorem isDir_R : isDir R := Or.inl rfl
theorem isDir_U : isDir U := Or.inr (Or.inl rfl)
theorem isDir_L : isDir L := Or.inr (Or.inr (Or.inl rfl))
theorem isDir_D : isDir D := Or.inr (Or.inr (Or.inr rfl))

theorem mem_dirs_iff {d : Nat} : d ∈ dirs ↔ isDir d := by
  simp [dirs, isDir, R, U, L, D, or_assoc]


theorem Xd_cases {d : Nat} (hd : isDir d) : Xd d = 1 ∨ Xd d = -1 ∨ Xd d = 0 := by
  rcases hd with h | h | h | h <;> subst h <;> simp [Xd, R, U, L, D]

theorem Yd_cases {d : Nat} (hd : isDir d) : Yd d = 1 ∨ Yd d = -1 ∨ Yd d = 0 := by
  rcases hd with h | h | h | h <;> subst h <;> simp [Yd, R, U, L, D]

theorem isDir_F {d : Nat} (hd : isDir d) : isDir (F d) := by
  rcases hd with h | h | h | h <;> subst h <;> decide

theorem isDir_A {d : Nat} (hd : isDir d) : isDir (A d) := by
  rcases hd with h | h | h | h <;> subst h <;> decide

theorem F_F {d : Nat} (hd : isDir d) : F (F d) = d := by
  rcases hd with h | h | h | h <;> subst h <;> decide

theorem Xd_F {d : Nat} (hd : isDir d) : Xd (F d) = -Xd d := by
  rcases hd with h | h | h | h <;> subst h <;> decide

theorem Yd_F {d : Nat} (hd : isDir d) : Yd (F d) = -Yd d := by
  rcases hd with h | h | h | h <;> subst h <;> decide

theorem offs_fst_lt {w h x y d : Nat} (hw : 0 < w) : (offs w h x y d).1 < w := by
  have hw' : (0 : Int) < (w : Int) := by exact_mod_cast hw
  have := Int.emod_lt_of_pos ((x : Int) + (w : Int) + Xd d) hw'
  have hnn := Int.emod_nonneg ((x : Int) + (w : Int) + Xd d) (ne_of_gt hw')
  simp only [offs]
  omega

theorem offs_snd_lt {w h x y d : Nat} (hh : 0 < h) : (offs w h x y d).2 < h := by
  have hh' : (0 : Int) < (h : Int) := by exact_mod_cast hh
  have := Int.emod_lt_of_pos ((y : Int) + (h : Int) + Yd d) hh'
  have hnn := Int.emod_nonneg ((y : Int) + (h : Int) + Yd d) (ne_of_gt hh')
  simp only [offs]
  omega

theorem int_shift_mod (w a b : Int) : ((a % w) + b) % w = (a + b) % w := by
  conv_lhs => rw [Int.add_emod, Int.emod_emod_of_dvd _ (dvd_refl w), ← Int.add_emod]

/-- Following a direction and then its flip returns to the original cell. -/
theorem offs_offs_F {w h x y d : Nat} (hd : isDir d) (hw : 0 < w) (hh : 0 < h)
    (hx : x < w) (hy : y < h) :
    offs w h (offs w h x y d).1 (offs w h x y d).2 (F d) = (x, y) := by
  have hw' : (0 : Int) < (w : Int) := by exact_mod_cast hw
  have hh' : (0 : Int) < (h : Int) := by exact_mod_cast hh
  have hxnn := Int.emod_nonneg ((x : Int) + (w : Int) + Xd d) (ne_of_gt hw')
  have hynn := Int.emod_nonneg ((y : Int) + (h : Int) + Yd d) (ne_of_gt hh')
  simp only [offs, Prod.mk.injEq]
  constructor
  · rw [Int.toNat_of_nonneg hxnn, Xd_F hd, add_assoc, int_shift_mod _ _ _]
    have : (x : Int) + (w : Int) + Xd d + ((w : Int) + -Xd d) =
        (x : Int) + 2 * (w : Int) := by ring
    rw [this, Int.add_mul_emod_self,
      Int.emod_eq_of_lt (by positivity) (by exact_mod_cast hx)]
    exact Int.toNat_ofNat x
  · rw [Int.toNat_of_nonneg hynn, Yd_F hd, add_assoc, int_shift_mod _ _ _]
    have : (y : Int) + (h : Int) + Yd d + ((h : Int) + -Yd d) =
        (y : Int) + 2 * (h : Int) := by ring
    rw [this, Int.add_mul_emod_self,
      Int.emod_eq_of_lt (by positivity) (by exact_mod_cast hy)]
    exact Int.toNat_ofNat y


theorem getD_eq_get? (l : List Nat) (i d : Nat) : l.getD i d = (l.get? i).getD d := by
  simp [List.getD_eq_getElem?_getD, List.get?_eq_getElem?]

/-- Writing value `v` anywhere preserves a cell already holding `v`. -/
theorem getArr_setArr_same_val {w : Nat} {a : List Nat} {x y p q v : Nat}
    (h : getArr w a x y = v) : getArr w (setArr w a p q v) x y = v := by
  unfold getArr setArr at *
  by_cases hij : idx w p q = idx w x y
  · rw [hij]
    rw [hij] at *
    rcases Nat.lt_or_ge (idx w x y) a.length with hlt | hge
    · rw [getD_eq_get?, List.get?_set_eq_of_lt _ hlt]; rfl
    · rw [List.set_eq_of_length_le hge]; exact h
  · rw [getD_eq_get?, List.get?_set_ne _ _ hij, ← getD_eq_get?]; exact h

/-- Index arithmetic: an in-grid cell's index is within a `w * h` array. -/
theorem idx_lt_size {w h x y : Nat} (hx : x < w) (hy : y < h) : idx w x y < w * h := by
  unfold idx
  calc y * w + x < y * w + w := by omega
  _ = (y + 1) * w := by ring
  _ ≤ h * w := Nat.mul_le_mul_right w hy
  _ = w * h := Nat.mul_comm h w

/-- The flood-fill loop never unmarks a cell holding value `v`. -/
theorem caLoop_preserves (st : GState) {x y v : Nat} :
    ∀ fuel active todo, getArr st.width active x y = v → v ≠ 0 →
      getArr st.width (caLoop st fuel active todo) x y = v := by
  intro fuel
  induction fuel with
  | zero => intro active todo h _; exact h
  | succ n ih =>
    intro active todo h hv
    rw [caLoop.eq_def]
    cases todo with
    | nil => exact h
    | cons t rest =>
      simp only
      apply ih _ _ _ hv
      have main : ∀ (l : List Nat) (acc : List Nat × List Xyd),
          getArr st.width acc.1 x y = v →
          getArr st.width (l.foldl (fun (acc : List Nat × List Xyd) d1 =>
            let c2 := offs st.width st.height t.x t.y d1
            let d2 := F d1
            if tile st t.x t.y &&& d1 ≠ 0 ∧ tile st c2.1 c2.2 &&& d2 ≠ 0 ∧
                barrier st t.x t.y &&& d1 = 0 ∧ getArr st.width acc.1 c2.1 c2.2 = 0 then
              (setArr st.width acc.1 c2.1 c2.2 ACTIVE, insert234 ⟨c2.1, c2.2, 0⟩ acc.2)
            else acc) acc).1 x y = v := by
        intro l
        induction l with
        | nil => intro acc h1; exact h1
        | cons d ds ihl =>
          intro acc h1
          simp only [List.foldl_cons]
          apply ihl
          by_cases hc : tile st t.x t.y &&& d ≠ 0 ∧
              tile st (offs st.width st.height t.x t.y d).1
                (offs st.width st.height t.x t.y d).2 &&& F d ≠ 0 ∧
              barrier st t.x t.y &&& d = 0 ∧
              getArr st.width acc.1 (offs st.width st.height t.x t.y d).1
                (offs st.width st.height t.x t.y d).2 = 0
          · simp only [if_pos hc]
            have : v = ACTIVE ∨ v ≠ ACTIVE := em _
            rcases this with hveq | hvne
            · subst hveq; exact getArr_setArr_same_val h1
            · -- v differs from ACTIVE: the written cell held 0 ≠ v, so it is not ours
              have hne : idx st.width (offs st.width st.height t.x t.y d).1
                  (offs st.width st.height t.x t.y d).2 ≠ idx st.width x y := by
                intro heq
                apply hv
                have hz := hc.2.2.2
                unfold getArr at hz h1
                rw [heq] at hz
                rw [← h1, hz]
              unfold getArr setArr
              rw [getD_eq_get?, List.get?_set_ne _ _ hne, ← getD_eq_get?]
              exact h1
          · simp only [if_neg hc]; exact h1
      exact main dirs (active, rest) h

/-- A `getD`-read value different from the default is an element. -/
theorem mem_of_getD_ne {l : List Nat} {i v : Nat} (h : l.getD i 0 = v) (hv : v ≠ 0) :
    ∃ u ∈ l, u ≠ 0 := by
  rw [getD_eq_get?] at h
  cases hg : l.get? i with
  | none => rw [hg] at h; simp at h; exact absurd h.symm hv
  | some u =>
    rw [hg] at h
    simp at h
    exact ⟨u, List.get?_mem hg, by rw [h]; exact hv⟩


/-- C8: For every 4-bit connection mask, rotating it by 4 quarter-turns in
either direction — four successive applications of the anticlockwise
rotation `A`, or four of the clockwise rotation `C` — returns the original
mask value. -/
theorem claim_C8_four_quarter_turns :
    ∀ m : Fin 16, A (A (A (A m.val))) = m.val ∧ C (C (C (C m.val))) = m.val := by
  decide

/-- C10: `compute_active` marks the centre cell active regardless of the
centre tile's connection mask or any barriers (it is marked before the
flood-fill loop and marks are never cleared), so the solver output never
reports zero active cells. -/
theorem claim_C10_center_always_active (st : GState)
    (hx : st.cx < st.width) (hy : st.cy < st.height) :
    getArr st.width (compute_active st) st.cx st.cy = ACTIVE ∧
    (compute_active st).any (fun v => v != 0) = true := by
  have h1 : getArr st.width
      (setArr st.width (List.replicate (st.width * st.height) 0) st.cx st.cy ACTIVE)
      st.cx st.cy = ACTIVE := by
    unfold getArr setArr
    rw [getD_eq_get?, List.get?_set_eq_of_lt]
    · rfl
    · rw [List.length_replicate]; exact idx_lt_size hx hy
  have h2 : getArr st.width (compute_active st) st.cx st.cy = ACTIVE := by
    unfold compute_active
    exact caLoop_preserves st _ _ _ h1 (by decide)
  refine ⟨h2, ?_⟩
  unfold getArr at h2
  obtain ⟨v, hv, hne⟩ := mem_of_getD_ne h2 (by decide)
  exact List.any_eq_true.mpr ⟨v, hv, by simpa using hne⟩

/-- C10 witness: the claim instantiated on a concrete one-cell state. -/
theorem claim_C10_center_always_active_witness :
    getArr 1 (compute_active ⟨1, 1, 0, 0, false, false, 1, [0], [0]⟩) 0 0 = ACTIVE ∧
    (compute_active ⟨1, 1, 0, 0, false, false, 1, [0], [0]⟩).any (fun v => v != 0) = true :=
  claim_C10_center_always_active ⟨1, 1, 0, 0, false, false, 1, [0], [0]⟩
    (by decide) (by decide)

/-- C7 (code bug): `make_move` fails to reject clicks on tile border
padding.  The guard at net.c line 677 tests `tx % TILE_SIZE` — the tile
index — instead of `x % TILE_SIZE`, the pixel offset within the tile, so
it can only fire for tile indices ≡ 31 (mod 32) and padding clicks fall
through to the rotation path.  Concretely, pixel (48, 17) on a 1x2 game has
x - (WINDOW_OFFSET + TILE_BORDER) = 31 and 31 % 32 = 31 ≥ TILE_SIZE -
TILE_BORDER, i.e. it lies on the border strip: the spec requires a no-op
"no move" result, but the code rotates tile (0, 0) from mask 1 to mask 2. -/
theorem claim_C7_border_padding_click_rotates :
    make_move ⟨1, 2, 0, 1, false, false, 1, [1, 2], [0, 0]⟩ 48 17 Button.left ≠ none ∧
    (make_move ⟨1, 2, 0, 1, false, false, 1, [1, 2], [0, 0]⟩ 48 17 Button.left).map
      GState.tiles = some [2, 2] := by
  constructor
  · decide
  · decide

end Net

namespace Decanting

/-- C9: `new_game_desc` with the exact combination `ncolours = 12` and
`nlayers = 4` returns a fixed hard-coded description, which differs from
what its own generator would produce; for every other valid parameter
combination the description is the generator's, a pure function of the
parameters. -/
theorem claim_C9_decanting_hardcoded (p : DParams) (hv : validParams p) :
    ((p.ncolours = 12 ∧ p.nlayers = 4) →
      new_game_desc p = fixedDesc ∧ new_game_desc p ≠ generatedDesc p) ∧
    (¬(p.ncolours = 12 ∧ p.nlayers = 4) → new_game_desc p = generatedDesc p) := by
  obtain ⟨nc, nt, nl, hid⟩ := p
  obtain ⟨-, -, -, h12, -, h16, hlt⟩ := hv
  constructor
  · rintro ⟨h1, h2⟩
    simp only at h1 h2
    subst h1; subst h2
    refine ⟨by simp [new_game_desc], ?_⟩
    have hnt1 : 13 ≤ nt := by simpa using hlt
    have hnt2 : nt ≤ 16 := by simpa using h16
    cases hid <;> interval_cases nt <;> decide
  · intro hno
    simp only [new_game_desc, if_neg hno]

/-- C9 witness: the hard-coded branch taken at ncolours 12, nlayers 4. -/
theorem claim_C9_decanting_hardcoded_witness :
    new_game_desc ⟨12, 14, 4, false⟩ = fixedDesc ∧
    new_game_desc ⟨12, 14, 4, false⟩ ≠ generatedDesc ⟨12, 14, 4, false⟩ :=
  (claim_C9_decanting_hardcoded ⟨12, 14, 4, false⟩ (by decide)).1 ⟨rfl, rfl⟩

end Decanting

namespace Net

theorem barLoop_placed_append (w h : Nat) :
    ∀ (n : Nat) (cands : List Xyd) (bars : List Nat) (rs : RandomState) (acc : List Xyd),
      (barLoop w h n cands bars rs acc).placed =
        acc ++ (barLoop w h n cands bars rs []).placed := by
  intro n
  induction n with
  | zero => intro cands bars rs acc; simp [barLoop]
  | succ m ih =>
    intro cands bars rs acc
    simp only [barLoop]
    rw [ih]
    conv_rhs => rw [ih]
    simp

theorem barLoop_placed_length (w h : Nat) :
    ∀ (n : Nat) (cands : List Xyd) (bars : List Nat) (rs : RandomState),
      (barLoop w h n cands bars rs []).placed.length = n := by
  intro n
  induction n with
  | zero => intro cands bars rs; simp [barLoop]
  | succ m ih =>
    intro cands bars rs
    simp only [barLoop]
    rw [barLoop_placed_append]
    simp [ih]

theorem barLoop_placed_extends (w h : Nat) :
    ∀ (n m : Nat), n ≤ m →
      ∀ (cands : List Xyd) (bars : List Nat) (rs : RandomState) (acc : List Xyd),
        ∃ t, (barLoop w h m cands bars rs acc).placed =
          (barLoop w h n cands bars rs acc).placed ++ t := by
  intro n
  induction n with
  | zero =>
    intro m _ cands bars rs acc
    refine ⟨(barLoop w h m cands bars rs []).placed, ?_⟩
    rw [show (barLoop w h 0 cands bars rs acc).placed = acc from rfl]
    exact barLoop_placed_append w h m cands bars rs acc
  | succ k ih =>
    intro m hm cands bars rs acc
    cases m with
    | zero => omega
    | succ m2 =>
      rw [barLoop, barLoop]
      exact ih m2 (by omega) _ _ _ _

/-- The barrier loop appends exactly `nbarriers` chosen edges. -/
theorem pipeline_placed_length (q : GameParams) (f : Nat → Nat) :
    (pipeline q f).bres.placed.length = (pipeline q f).nbarriers := by
  have hb : (pipeline q f).bres =
      barLoop q.width q.height ((pipeline q f).nbarriers) ((pipeline q f).cands)
        (borderBarriers q.width q.height q.wrapping)
        (shuffle q.width q.height (generate q f).tiles (generate q f).rs).2 [] := rfl
  rw [hb, barLoop_placed_length]

/-- C4: For a fixed seed (raw random stream) and fixed width, height and
wrapping, two generation runs that differ only in `barrier_probability`
produce the same pre-shuffle maze and the same post-shuffle tile array: the
random draws for generation and shuffling all happen before
`barrier_probability` is first read. -/
theorem claim_C4_tiles_independent_of_barrier_probability
    (q1 q2 : GameParams) (f : Nat → Nat)
    (hw : q1.width = q2.width) (hh : q1.height = q2.height)
    (hr : q1.wrapping = q2.wrapping) :
    (pipeline q1 f).preTiles = (pipeline q2 f).preTiles ∧
    (new_game q1 f).tiles = (new_game q2 f).tiles := by
  obtain ⟨w1, h1, r1, b1⟩ := q1
  obtain ⟨w2, h2, r2, b2⟩ := q2
  simp only at hw hh hr
  subst hw; subst hh; subst hr
  exact ⟨rfl, rfl⟩

/-- C4 witness: a concrete pair of runs differing only in probability. -/
theorem claim_C4_tiles_independent_witness :
    (pipeline ⟨2, 2, false, 0⟩ (fun _ => 0)).preTiles =
      (pipeline ⟨2, 2, false, 1⟩ (fun _ => 0)).preTiles ∧
    (new_game ⟨2, 2, false, 0⟩ (fun _ => 0)).tiles =
      (new_game ⟨2, 2, false, 1⟩ (fun _ => 0)).tiles :=
  claim_C4_tiles_independent_of_barrier_probability _ _ _ rfl rfl rfl

/-- C3: For a fixed seed and fixed dimensions and wrapping, every barrier
edge placed at probability `p1` is also placed at any probability
`p2 > p1`: the placement loop draws from the same shrinking candidate pool
in the same random stream, so the `p2` run replays the `p1` run's choices
and then continues. -/
theorem claim_C3_barrier_superset (q1 q2 : GameParams) (f : Nat → Nat)
    (hw : q1.width = q2.width) (hh : q1.height = q2.height)
    (hr : q1.wrapping = q2.wrapping)
    (hp : q1.barrier_probability < q2.barrier_probability) :
    ∀ e ∈ (pipeline q1 f).bres.placed, e ∈ (pipeline q2 f).bres.placed := by
  obtain ⟨w, h, r, a⟩ := q1
  obtain ⟨w2, h2, r2, b⟩ := q2
  simp only at hw hh hr hp
  subst hw; subst hh; subst hr
  intro e he
  simp only [pipeline] at he ⊢
  have hmono : (⌊a * ((barrierCands w h r (generate ⟨w, h, r, a⟩ f).tiles).length : Rat)⌋).toNat ≤
      (⌊b * ((barrierCands w h r (generate ⟨w, h, r, a⟩ f).tiles).length : Rat)⌋).toNat := by
    apply Int.toNat_le_toNat
    apply Int.floor_le_floor
    exact mul_le_mul_of_nonneg_right (le_of_lt hp) (Nat.cast_nonneg _)
  have hgen : generate ⟨w, h, r, b⟩ f = generate ⟨w, h, r, a⟩ f := rfl
  rw [hgen]
  obtain ⟨t, ht⟩ := barLoop_placed_extends w h _ _ hmono
    (barrierCands w h r (generate ⟨w, h, r, a⟩ f).tiles)
    (borderBarriers w h r)
    (shuffle w h (generate ⟨w, h, r, a⟩ f).tiles (generate ⟨w, h, r, a⟩ f).rs).2 []
  rw [ht]
  exact List.mem_append_left _ he

/-- C3 witness: a barrier edge chosen at probability 1/2 on a fixed 3x3
seed is among those chosen at probability 1. -/
theorem claim_C3_barrier_superset_witness :
    (⟨0, 1, 1⟩ : Xyd) ∈ (pipeline ⟨3, 3, false, 1⟩ (fun _ => 0)).bres.placed := by
  apply claim_C3_barrier_superset ⟨3, 3, false, (1 : Rat)/2⟩ ⟨3, 3, false, 1⟩ (fun _ => 0)
    rfl rfl rfl (by norm_num)
  have hc : (pipeline ⟨3, 3, false, (1 : Rat)/2⟩ (fun _ => 0)).cands.length = 4 := by decide
  have hnb : (pipeline ⟨3, 3, false, (1 : Rat)/2⟩ (fun _ => 0)).nbarriers = 2 := by
    have h1 : (pipeline ⟨3, 3, false, (1 : Rat)/2⟩ (fun _ => 0)).nbarriers =
        (⌊((1 : Rat)/2) *
          ((pipeline ⟨3, 3, false, (1 : Rat)/2⟩ (fun _ => 0)).cands.length : Rat)⌋).toNat := rfl
    rw [h1, hc]
    have h2 : ⌊((1 : Rat)/2) * ((4 : Nat) : Rat)⌋ = 2 := by norm_num
    rw [h2]
    rfl
  have hb : (pipeline ⟨3, 3, false, (1 : Rat)/2⟩ (fun _ => 0)).bres =
      barLoop 3 3 ((pipeline ⟨3, 3, false, (1 : Rat)/2⟩ (fun _ => 0)).nbarriers)
        ((pipeline ⟨3, 3, false, (1 : Rat)/2⟩ (fun _ => 0)).cands)
        (borderBarriers 3 3 false)
        (shuffle 3 3 (generate ⟨3, 3, false, (1 : Rat)/2⟩ (fun _ => 0)).tiles
          (generate ⟨3, 3, false, (1 : Rat)/2⟩ (fun _ => 0)).rs).2 [] := rfl
  rw [hb, hnb]
  decide

/-- C5 counterexample: the claim says the barrier count is
`round(probability × |candidates|)`, but the source truncates
(`(int)(params->barrier_probability * count234(barriers))`).  On a 2x2
non-wrapping grid there is exactly 1 candidate edge; at probability 1/2
the code places 0 barriers while `round(1/2) = 1`. -/
theorem claim_C5_count_not_rounded :
    (pipeline ⟨2, 2, false, (1 : Rat)/2⟩ (fun _ => 0)).bres.placed.length ≠
      (round (((1 : Rat)/2) *
        ((pipeline ⟨2, 2, false, (1 : Rat)/2⟩ (fun _ => 0)).cands.length : Rat))).toNat := by
  have hc : (pipeline ⟨2, 2, false, (1 : Rat)/2⟩ (fun _ => 0)).cands.length = 1 := by decide
  have hlen := pipeline_placed_length ⟨2, 2, false, (1 : Rat)/2⟩ (fun _ => 0)
  have hnb : (pipeline ⟨2, 2, false, (1 : Rat)/2⟩ (fun _ => 0)).nbarriers =
      (⌊((1 : Rat)/2) *
        ((pipeline ⟨2, 2, false, (1 : Rat)/2⟩ (fun _ => 0)).cands.length : Rat)⌋).toNat := rfl
  rw [hlen, hnb, hc]
  have h0 : (⌊((1 : Rat)/2) * ((1 : Nat) : Rat)⌋).toNat = 0 := by
    have : ⌊((1 : Rat)/2) * ((1 : Nat) : Rat)⌋ = 0 := by norm_num
    rw [this]
    rfl
  have h1 : (round (((1 : Rat)/2) * ((1 : Nat) : Rat))).toNat = 1 := by
    have : round (((1 : Rat)/2) * ((1 : Nat) : Rat)) = 1 := by norm_num [round_eq]
    rw [this]
    rfl
  rw [h0, h1]
  decide

/-- C5 (amended): for `barrier_probability` in [0, 1], the number of barrier
edges placed equals the truncation (floor) of `barrier_probability ×
|candidates|`, which is never negative and never exceeds the candidate
count. -/
theorem claim_C5_barrier_count_floor (q : GameParams) (f : Nat → Nat)
    (h0 : 0 ≤ q.barrier_probability) (h1 : q.barrier_probability ≤ 1) :
    (pipeline q f).bres.placed.length =
      (⌊q.barrier_probability * ((pipeline q f).cands.length : Rat)⌋).toNat ∧
    0 ≤ ⌊q.barrier_probability * ((pipeline q f).cands.length : Rat)⌋ ∧
    (pipeline q f).bres.placed.length ≤ (pipeline q f).cands.length := by
  have hlen : (pipeline q f).bres.placed.length = (pipeline q f).nbarriers :=
    pipeline_placed_length q f
  have hfloor0 : 0 ≤ ⌊q.barrier_probability * ((pipeline q f).cands.length : Rat)⌋ :=
    Int.floor_nonneg.mpr (mul_nonneg h0 (Nat.cast_nonneg _))
  refine ⟨?_, hfloor0, ?_⟩
  · rw [hlen]; rfl
  · rw [hlen]
    have hle : ⌊q.barrier_probability * ((pipeline q f).cands.length : Rat)⌋ ≤
        ((pipeline q f).cands.length : Int) := by
      have : q.barrier_probability * ((pipeline q f).cands.length : Rat) ≤
          ((pipeline q f).cands.length : Rat) := by
        calc q.barrier_probability * ((pipeline q f).cands.length : Rat) ≤
            1 * ((pipeline q f).cands.length : Rat) :=
              mul_le_mul_of_nonneg_right h1 (Nat.cast_nonneg _)
        _ = ((pipeline q f).cands.length : Rat) := one_mul _
      calc ⌊q.barrier_probability * ((pipeline q f).cands.length : Rat)⌋ ≤
          ⌊((pipeline q f).cands.length : Rat)⌋ := Int.floor_le_floor this
      _ = ((pipeline q f).cands.length : Int) := Int.floor_natCast _
    have : (pipeline q f).nbarriers =
        (⌊q.barrier_probability * ((pipeline q f).cands.length : Rat)⌋).toNat := rfl
    rw [this]
    omega

/-- C5 witness: on a fixed 3x3 run at probability 1/2, two of the four
candidate edges are placed. -/
theorem claim_C5_barrier_count_floor_witness :
    (pipeline ⟨3, 3, false, (1 : Rat)/2⟩ (fun _ => 0)).bres.placed.length =
      (⌊((1 : Rat)/2) *
        (((pipeline ⟨3, 3, false, (1 : Rat)/2⟩ (fun _ => 0)).cands.length : Nat) : Rat)⌋).toNat ∧
    0 ≤ ⌊((1 : Rat)/2) *
        (((pipeline ⟨3, 3, false, (1 : Rat)/2⟩ (fun _ => 0)).cands.length : Nat) : Rat)⌋ ∧
    (pipeline ⟨3, 3, false, (1 : Rat)/2⟩ (fun _ => 0)).bres.placed.length ≤
      (pipeline ⟨3, 3, false, (1 : Rat)/2⟩ (fun _ => 0)).cands.length :=
  claim_C5_barrier_count_floor ⟨3, 3, false, (1 : Rat)/2⟩ (fun _ => 0)
    (by norm_num) (by norm_num)

end Net

namespace Net

theorem offs_eq_wrapAdd (w h x y d : Nat) :
    offs w h x y d = (wrapAdd w x (Xd d), wrapAdd h y (Yd d)) := rfl

theorem wrapAdd_lt {w : Nat} (hw : 0 < w) (x : Nat) (e : Int) : wrapAdd w x e < w := by
  have hw' : (0 : Int) < (w : Int) := by exact_mod_cast hw
  have h1 := Int.emod_lt_of_pos ((x : Int) + (w : Int) + e) hw'
  have h2 := Int.emod_nonneg ((x : Int) + (w : Int) + e) (ne_of_gt hw')
  unfold wrapAdd
  omega

theorem wrapAdd_cast {w : Nat} (hw : 0 < w) (x : Nat) (e : Int) :
    ((wrapAdd w x e : Nat) : Int) = ((x : Int) + (w : Int) + e) % (w : Int) := by
  have hw' : (0 : Int) < (w : Int) := by exact_mod_cast hw
  exact Int.toNat_of_nonneg (Int.emod_nonneg _ (ne_of_gt hw'))

theorem wrapAdd_wrapAdd {w : Nat} (hw : 0 < w) (x : Nat) (e1 e2 : Int) :
    wrapAdd w (wrapAdd w x e1) e2 = wrapAdd w x (e1 + e2) := by
  have key : (((wrapAdd w x e1 : Nat) : Int) + (w : Int) + e2) % (w : Int) =
      ((x : Int) + (w : Int) + (e1 + e2)) % (w : Int) := by
    rw [wrapAdd_cast hw, add_assoc, int_shift_mod]
    have : (x : Int) + (w : Int) + e1 + ((w : Int) + e2) =
        ((x : Int) + (w : Int) + (e1 + e2)) + (1 : Int) * (w : Int) := by ring
    rw [this, Int.add_mul_emod_self]
  exact congrArg Int.toNat key

theorem wrapAdd_zero {w : Nat} (hw : 0 < w) {x : Nat} (hx : x < w) : wrapAdd w x 0 = x := by
  have hw' : (0 : Int) < (w : Int) := by exact_mod_cast hw
  unfold wrapAdd
  have : (x : Int) + (w : Int) + 0 = (x : Int) + 1 * (w : Int) := by ring
  rw [this, Int.add_mul_emod_self, Int.emod_eq_of_lt (by positivity) (by exact_mod_cast hx)]
  exact Int.toNat_ofNat x

theorem wrapAdd_one {w : Nat} {x : Nat} (hx : x + 1 < w) : wrapAdd w x 1 = x + 1 := by
  have hw' : (0 : Int) < (w : Int) := by exact_mod_cast Nat.lt_of_le_of_lt (Nat.zero_le _) hx
  unfold wrapAdd
  have : (x : Int) + (w : Int) + 1 = ((x : Int) + 1) + 1 * (w : Int) := by ring
  rw [this, Int.add_mul_emod_self,
    Int.emod_eq_of_lt (by positivity) (by exact_mod_cast hx)]
  omega

theorem wrapAdd_neg_one {w : Nat} {x : Nat} (hx : 1 ≤ x) (hxw : x < w) :
    wrapAdd w x (-1) = x - 1 := by
  have hw' : (0 : Int) < (w : Int) := by exact_mod_cast Nat.lt_of_le_of_lt (Nat.zero_le _) hxw
  unfold wrapAdd
  have : (x : Int) + (w : Int) + (-1) = ((x : Int) - 1) + 1 * (w : Int) := by ring
  rw [this, Int.add_mul_emod_self, Int.emod_eq_of_lt (by omega) (by omega)]
  omega

theorem nbr_inGrid {w h : Nat} (hw : 0 < w) (hh : 0 < h) (c : Nat × Nat) (d : Nat) :
    inGrid w h (nbr w h c d) := by
  unfold nbr inGrid
  rw [offs_eq_wrapAdd]
  exact ⟨wrapAdd_lt hw _ _, wrapAdd_lt hh _ _⟩

theorem nbr_nbr_F {w h : Nat} {c : Nat × Nat} {d : Nat} (hd : isDir d)
    (hw : 0 < w) (hh : 0 < h) (hc : inGrid w h c) :
    nbr w h (nbr w h c d) (F d) = c := by
  unfold nbr
  rw [offs_offs_F hd hw hh hc.1 hc.2]

theorem nbr_comm {w h : Nat} (hw : 0 < w) (hh : 0 < h) (c : Nat × Nat) (d e : Nat) :
    nbr w h (nbr w h c d) e = nbr w h (nbr w h c e) d := by
  unfold nbr
  rw [offs_eq_wrapAdd, offs_eq_wrapAdd, offs_eq_wrapAdd, offs_eq_wrapAdd]
  simp only
  rw [wrapAdd_wrapAdd hw, wrapAdd_wrapAdd hh, wrapAdd_wrapAdd hw, wrapAdd_wrapAdd hh,
    add_comm (Xd d) (Xd e), add_comm (Yd d) (Yd e)]

end Net

namespace Net

theorem xydLt_irrefl (a : Xyd) : ¬xydLt a a := by
  unfold xydLt; omega

theorem xydLt_trans {a b c : Xyd} (h1 : xydLt a b) (h2 : xydLt b c) : xydLt a c := by
  unfold xydLt at *; omega

theorem xydLt_total (a b : Xyd) : xydLt a b ∨ a = b ∨ xydLt b a := by
  obtain ⟨ax, ay, ad⟩ := a
  obtain ⟨bx, by2, bd⟩ := b
  simp only [xydLt, Xyd.mk.injEq]
  omega

theorem mem_insert234 {e a : Xyd} : ∀ {l : List Xyd}, a ∈ insert234 e l ↔ a = e ∨ a ∈ l := by
  intro l
  induction l with
  | nil => simp [insert234]
  | cons hd rest ih =>
    unfold insert234
    by_cases h1 : xydLt e hd
    · rw [if_pos h1]
      simp
    · rw [if_neg h1]
      by_cases h2 : e = hd
      · rw [if_pos h2]
        subst h2
        constructor
        · intro h; exact Or.inr h
        · rintro (h | h)
          · subst h; exact List.mem_cons_self _ _
          · exact h
      · rw [if_neg h2]
        simp only [List.mem_cons, ih]
        tauto

theorem pairwise_insert234 {e : Xyd} : ∀ {l : List Xyd},
    l.Pairwise xydLt → (insert234 e l).Pairwise xydLt := by
  intro l
  induction l with
  | nil => intro _; simp [insert234]
  | cons hd rest ih =>
    intro hp
    rw [List.pairwise_cons] at hp
    unfold insert234
    by_cases h1 : xydLt e hd
    · rw [if_pos h1, List.pairwise_cons]
      constructor
      · intro b hb
        rcases List.mem_cons.mp hb with h | h
        · subst h; exact h1
        · exact xydLt_trans h1 (hp.1 b h)
      · rw [List.pairwise_cons]; exact hp
    · rw [if_neg h1]
      by_cases h2 : e = hd
      · rw [if_pos h2, List.pairwise_cons]
        exact hp
      · rw [if_neg h2, List.pairwise_cons]
        constructor
        · intro b hb
          rcases mem_insert234.mp hb with h | h
          · subst h
            rcases xydLt_total b hd with h | h | h
            · exact absurd h h1
            · exact absurd h h2
            · exact h
          · exact hp.1 b h
        · exact ih hp.2

theorem length_insert234_le {e : Xyd} : ∀ {l : List Xyd},
    (insert234 e l).length ≤ l.length + 1 := by
  intro l
  induction l with
  | nil => simp [insert234]
  | cons hd rest ih =>
    unfold insert234
    by_cases h1 : xydLt e hd
    · rw [if_pos h1]
      simp
    · rw [if_neg h1]
      by_cases h2 : e = hd
      · rw [if_pos h2]
        simp
      · rw [if_neg h2]
        simp only [List.length_cons]
        omega

theorem mem_eraseIdx_iff_of_nodup : ∀ {l : List Xyd}, l.Nodup → ∀ {i : Nat},
    (hi : i < l.length) → ∀ {a : Xyd},
    (a ∈ l.eraseIdx i ↔ a ∈ l ∧ a ≠ l.get ⟨i, hi⟩) := by
  intro l
  induction l with
  | nil => intro _ i hi; simp at hi
  | cons hd rest ih =>
    intro hn i hi a
    rw [List.nodup_cons] at hn
    cases i with
    | zero =>
      simp only [List.eraseIdx_cons_zero, List.get]
      constructor
      · intro h
        refine ⟨List.mem_cons_of_mem _ h, ?_⟩
        intro he; subst he; exact hn.1 h
      · rintro ⟨h1, h2⟩
        rcases List.mem_cons.mp h1 with h | h
        · exact absurd h h2
        · exact h
    | succ j =>
      simp only [List.eraseIdx_cons_succ, List.mem_cons, List.get]
      rw [List.length_cons] at hi
      rw [ih hn.2 (by omega)]
      constructor
      · rintro (h | ⟨h1, h2⟩)
        · subst h
          refine ⟨Or.inl rfl, ?_⟩
          intro he
          apply hn.1
          rw [he]
          exact List.get_mem rest _ _
        · exact ⟨Or.inr h1, h2⟩
      · rintro ⟨h1 | h1, h2⟩
        · exact Or.inl h1
        · exact Or.inr ⟨h1, h2⟩

theorem getD_eq_get {l : List Xyd} {i : Nat} (hi : i < l.length) (dflt : Xyd) :
    l.getD i dflt = l.get ⟨i, hi⟩ := by
  rw [List.getD_eq_getElem l dflt hi]
  rfl

end Net

namespace Net

theorem bit_or_self : ∀ t < 16, ∀ d ∈ dirs, bitSet d (t ||| d) := by decide

theorem bit_or_other : ∀ t < 16, ∀ d ∈ dirs, ∀ e ∈ dirs, e ≠ d →
    (bitSet e (t ||| d) ↔ bitSet e t) := by decide

theorem or_dir_lt_16 : ∀ t < 16, ∀ d ∈ dirs, t ||| d < 16 := by decide

theorem or_dir_ne_zero : ∀ t < 16, ∀ d ∈ dirs, t ||| d ≠ 0 := by decide

theorem count_or_succ : ∀ t < 16, ∀ d ∈ dirs, ¬bitSet d t →
    COUNT (t ||| d) = COUNT t + 1 := by decide

theorem count3_missing : ∀ t < 16, COUNT t = 3 →
    (0x0F ^^^ t) ∈ dirs ∧ ¬bitSet (0x0F ^^^ t) t ∧
    ∀ d ∈ dirs, d ≠ 0x0F ^^^ t → bitSet d t := by decide

theorem count3_eq_xor : ∀ t < 16, COUNT t = 3 → ∀ d ∈ dirs, ¬bitSet d t →
    t = 0x0F ^^^ d := by decide

theorem ne_15_of_count_le_3 : ∀ t < 16, COUNT t ≤ 3 → t ≠ 15 := by decide

theorem fence_tile_bits : ∀ d ∈ dirs, ∀ e ∈ dirs,
    (bitSet e (0x0F ^^^ d) ↔ e ≠ d) := by decide

theorem fence_tile_count : ∀ d ∈ dirs, COUNT (0x0F ^^^ d) = 3 := by decide

theorem fence_tile_ne_zero : ∀ d ∈ dirs, (0x0F ^^^ d : Nat) ≠ 0 := by decide

theorem exists_dir_of_ne_zero : ∀ t < 16, t ≠ 0 → ∃ d ∈ dirs, bitSet d t := by decide

theorem dir_lt_16 : ∀ d ∈ dirs, d < 16 := by decide

theorem F_ne_self : ∀ d ∈ dirs, F d ≠ d := by decide

theorem A_ne_self : ∀ d ∈ dirs, A d ≠ d := by decide

theorem A_ne_F : ∀ d ∈ dirs, A d ≠ F d := by decide

theorem A_mem_dirs : ∀ d ∈ dirs, A d ∈ dirs := by decide

theorem F_mem_dirs : ∀ d ∈ dirs, F d ∈ dirs := by decide

theorem A_F_A : ∀ d ∈ dirs, A (F (A d)) = d := by decide

theorem F_inj_dirs : ∀ d ∈ dirs, ∀ e ∈ dirs, F d = F e → d = e := by decide

theorem not_bitSet_zero : ∀ d ∈ dirs, ¬bitSet d 0 := by decide

theorem count_zero : COUNT 0 = 0 := rfl

/-- `getArr` after `setArr` at the same in-range cell index. -/
theorem getArr_setArr_self {w : Nat} {a : List Nat} {x y v : Nat}
    (h : idx w x y < a.length) : getArr w (setArr w a x y v) x y = v := by
  unfold getArr setArr
  rw [getD_eq_get?, List.get?_set_eq_of_lt _ h]
  rfl

/-- `getArr` after `setArr` at a different cell index. -/
theorem getArr_setArr_other {w : Nat} {a : List Nat} {x y p q v : Nat}
    (h : idx w p q ≠ idx w x y) : getArr w (setArr w a p q v) x y = getArr w a x y := by
  unfold getArr setArr
  rw [getD_eq_get?, List.get?_set_ne _ _ h, ← getD_eq_get?]

/-- Distinct in-grid cells have distinct array indices. -/
theorem idx_inj_xy {w : Nat} {x y x' y' : Nat} (hx : x < w) (hx' : x' < w)
    (hne : (x, y) ≠ ((x', y') : Nat × Nat)) : idx w x y ≠ idx w x' y' := by
  intro he
  unfold idx at he
  have key : ∀ a b a' b' : Nat, a < w → b < b' → b * w + a < b' * w + a' := by
    intro a b a' b' ha hbb
    have h1 : (b + 1) * w ≤ b' * w := Nat.mul_le_mul_right w hbb
    have h2 : b * w + a < (b + 1) * w := by rw [Nat.add_mul]; omega
    omega
  rcases Nat.lt_trichotomy y y' with hlt | heq | hgt
  · exact absurd he (Nat.ne_of_lt (key x y x' y' hx hlt))
  · subst heq
    have : x = x' := by omega
    exact hne (by rw [this])
  · exact absurd he.symm (Nat.ne_of_lt (key x' y' x y hx' hgt))

theorem idx_inj {w h : Nat} {c c' : Nat × Nat} (hc : inGrid w h c) (hc' : inGrid w h c')
    (hne : c ≠ c') : idx w c.1 c.2 ≠ idx w c'.1 c'.2 := by
  apply idx_inj_xy hc.1 hc'.1
  simpa using hne

end Net

namespace Net

theorem mem_gridCells {w h : Nat} {c : Nat × Nat} : c ∈ gridCells w h ↔ inGrid w h c := by
  unfold gridCells inGrid
  simp only [List.mem_flatMap, List.mem_map, List.mem_range]
  constructor
  · rintro ⟨y, hy, x, hx, rfl⟩
    exact ⟨hx, hy⟩
  · rintro ⟨h1, h2⟩
    exact ⟨c.2, h2, c.1, h1, rfl⟩

theorem gridCells_nodup {w h : Nat} : (gridCells w h).Nodup := by
  unfold gridCells
  rw [List.nodup_bind]
  constructor
  · intro y _
    exact (List.nodup_range w).map (fun a b hab => by simpa using hab)
  · have hp : (List.range h).Pairwise (fun a b => a ≠ b) :=
      (List.pairwise_lt_range h).imp (fun hab => Nat.ne_of_lt hab)
    refine hp.imp ?_
    intro a b hab
    intro c hc1 hc2
    simp only [List.mem_map, List.mem_range] at hc1 hc2
    obtain ⟨x1, _, rfl⟩ := hc1
    obtain ⟨x2, _, he⟩ := hc2
    exact hab (by simpa using (congrArg Prod.snd he).symm)

theorem length_gridCells {w h : Nat} : (gridCells w h).length = w * h := by
  unfold gridCells
  rw [List.length_flatMap]
  show ((List.range h).map (fun y => ((List.range w).map (fun x => (x, y))).length)).sum = w * h
  simp [List.map_const]
  exact Nat.mul_comm h w

theorem countP_flip_one {α : Type} {p q : α → Bool} {a : α} :
    ∀ {l : List α}, l.Nodup → a ∈ l → p a = false → q a = true →
    (∀ b ∈ l, b ≠ a → p b = q b) → l.countP q = l.countP p + 1 := by
  intro l
  induction l with
  | nil => intro _ ha; simp at ha
  | cons hd rest ih =>
    intro hn ha hpa hqa hother
    rw [List.nodup_cons] at hn
    rcases List.mem_cons.mp ha with rfl | hmem
    · have heq : rest.countP q = rest.countP p := by
        apply List.countP_congr
        intro b hb
        rw [hother b (List.mem_cons_of_mem _ hb) (fun he => hn.1 (he ▸ hb))]
      rw [List.countP_cons, List.countP_cons, hpa, hqa, heq]
      simp
    · have hne : hd ≠ a := fun he => hn.1 (he ▸ hmem)
      have hhd := hother hd (List.mem_cons_self _ _) hne
      rw [List.countP_cons, List.countP_cons, ← hhd,
        ih hn.2 hmem hpa hqa (fun b hb hbne => hother b (List.mem_cons_of_mem _ hb) hbne)]
      omega

theorem getArr_lt_16 {w : Nat} {a : List Nat} (hlt : ∀ t ∈ a, t < 16) (x y : Nat) :
    getArr w a x y < 16 := by
  unfold getArr
  rw [getD_eq_get?]
  cases hg : a.get? (idx w x y) with
  | none => simp
  | some t => exact hlt t (List.get?_mem hg)

theorem tileAt_lt_16 {w h : Nat} {tiles : List Nat} (hlt : ∀ t ∈ tiles, t < 16)
    (c : Nat × Nat) : tileAt w tiles c < 16 := getArr_lt_16 hlt _ _

end Net

namespace Net

theorem connect_length {w : Nat} {tiles : List Nat} {x1 y1 x2 y2 d1 : Nat} :
    (connect w tiles x1 y1 x2 y2 d1).length = tiles.length := by
  unfold connect setArr
  simp

theorem tileAt_connect_src {w h : Nat} {tiles : List Nat} {c1 c2 : Nat × Nat} {d1 : Nat}
    (hlen : tiles.length = w * h) (h1 : inGrid w h c1) (h2 : inGrid w h c2)
    (hne : c1 ≠ c2) :
    tileAt w (connect w tiles c1.1 c1.2 c2.1 c2.2 d1) c1 = tileAt w tiles c1 ||| d1 := by
  unfold connect tileAt
  rw [getArr_setArr_other (idx_inj h2 h1 (Ne.symm hne)),
    getArr_setArr_self (by rw [hlen]; exact idx_lt_size h1.1 h1.2)]

theorem tileAt_connect_tgt {w h : Nat} {tiles : List Nat} {c1 c2 : Nat × Nat} {d1 : Nat}
    (hlen : tiles.length = w * h) (h1 : inGrid w h c1) (h2 : inGrid w h c2)
    (hne : c1 ≠ c2) :
    tileAt w (connect w tiles c1.1 c1.2 c2.1 c2.2 d1) c2 = tileAt w tiles c2 ||| F d1 := by
  unfold connect tileAt
  rw [getArr_setArr_self (by
    unfold setArr
    rw [List.length_set, hlen]
    exact idx_lt_size h2.1 h2.2)]
  rw [getArr_setArr_other (idx_inj h1 h2 hne)]

theorem tileAt_connect_other {w h : Nat} {tiles : List Nat} {c1 c2 c : Nat × Nat} {d1 : Nat}
    (h1 : inGrid w h c1) (h2 : inGrid w h c2) (hc : inGrid w h c)
    (hne1 : c ≠ c1) (hne2 : c ≠ c2) :
    tileAt w (connect w tiles c1.1 c1.2 c2.1 c2.2 d1) c = tileAt w tiles c := by
  unfold connect tileAt
  rw [getArr_setArr_other (idx_inj h2 hc (Ne.symm hne2)),
    getArr_setArr_other (idx_inj h1 hc (Ne.symm hne1))]

theorem connect_mem_lt {w h : Nat} {tiles : List Nat} {c1 c2 : Nat × Nat} {d1 : Nat}
    (hlt : ∀ t ∈ tiles, t < 16) (hd : d1 ∈ dirs) :
    ∀ t ∈ connect w tiles c1.1 c1.2 c2.1 c2.2 d1, t < 16 := by
  unfold connect setArr
  intro t ht
  rcases List.mem_or_eq_of_mem_set ht with ht1 | rfl
  · rcases List.mem_or_eq_of_mem_set ht1 with ht2 | rfl
    · exact hlt t ht2
    · exact or_dir_lt_16 _ (getArr_lt_16 hlt _ _) _ hd
  · apply or_dir_lt_16 _ _ _ (F_mem_dirs _ hd)
    apply getArr_lt_16
    intro t ht
    rcases List.mem_or_eq_of_mem_set ht with ht2 | rfl
    · exact hlt t ht2
    · exact or_dir_lt_16 _ (getArr_lt_16 hlt _ _) _ hd

end Net

namespace Net

theorem nodup_of_pairwise {l : List Xyd} (hp : l.Pairwise xydLt) : l.Nodup :=
  hp.imp (fun {a b} hab => by intro he; subst he; exact xydLt_irrefl a hab)

theorem mem_del234 {l : List Xyd} (hn : l.Nodup) {a k : Xyd} :
    a ∈ del234 k l ↔ a ∈ l ∧ a ≠ k := by
  unfold del234
  rw [List.Nodup.mem_erase_iff hn]
  tauto

theorem pairwise_del234 {l : List Xyd} (hp : l.Pairwise xydLt) (k : Xyd) :
    (del234 k l).Pairwise xydLt := hp.sublist (List.erase_sublist k l)

theorem genStep_of_ne (w h : Nat) (wrapping : Bool) (st : GenSt) (hne : ¬st.poss = []) :
    genStep w h wrapping st =
      ⟨connect w st.tiles (pickPoss st).1.x (pickPoss st).1.y
         (offs w h (pickPoss st).1.x (pickPoss st).1.y (pickPoss st).1.direction).1
         (offs w h (pickPoss st).1.x (pickPoss st).1.y (pickPoss st).1.direction).2
         (pickPoss st).1.direction,
       addOut w h wrapping
         (connect w st.tiles (pickPoss st).1.x (pickPoss st).1.y
           (offs w h (pickPoss st).1.x (pickPoss st).1.y (pickPoss st).1.direction).1
           (offs w h (pickPoss st).1.x (pickPoss st).1.y (pickPoss st).1.direction).2
           (pickPoss st).1.direction)
         (offs w h (pickPoss st).1.x (pickPoss st).1.y (pickPoss st).1.direction).1
         (offs w h (pickPoss st).1.x (pickPoss st).1.y (pickPoss st).1.direction).2
         (F (pickPoss st).1.direction)
         (pruneInto w h
           (offs w h (pickPoss st).1.x (pickPoss st).1.y (pickPoss st).1.direction).1
           (offs w h (pickPoss st).1.x (pickPoss st).1.y (pickPoss st).1.direction).2
           (pruneT w
             (connect w st.tiles (pickPoss st).1.x (pickPoss st).1.y
               (offs w h (pickPoss st).1.x (pickPoss st).1.y (pickPoss st).1.direction).1
               (offs w h (pickPoss st).1.x (pickPoss st).1.y (pickPoss st).1.direction).2
               (pickPoss st).1.direction)
             (pickPoss st).1.x (pickPoss st).1.y (pickPoss st).2.1)),
       (pickPoss st).2.2⟩ := by
  rw [genStep, if_neg hne]

theorem pick_lt {st : GenSt} (hne : st.poss ≠ []) :
    (random_upto st.rs st.poss.length).1 < st.poss.length := by
  unfold random_upto
  exact Nat.mod_lt _ (List.length_pos.mpr hne)

theorem pickPoss_mem {st : GenSt} (hne : st.poss ≠ []) : (pickPoss st).1 ∈ st.poss := by
  unfold pickPoss
  simp only
  rw [getD_eq_get (pick_lt hne)]
  exact List.get_mem _ _ _

theorem mem_pickPoss_rest {st : GenSt} (hn : st.poss.Nodup) (hne : st.poss ≠ []) {a : Xyd} :
    a ∈ (pickPoss st).2.1 ↔ a ∈ st.poss ∧ a ≠ (pickPoss st).1 := by
  unfold pickPoss
  simp only
  rw [mem_eraseIdx_iff_of_nodup hn (pick_lt hne), getD_eq_get (pick_lt hne)]

theorem pairwise_pickPoss_rest {st : GenSt} (hp : st.poss.Pairwise xydLt) :
    (pickPoss st).2.1.Pairwise xydLt :=
  hp.sublist (List.eraseIdx_sublist _ _)

end Net

namespace Net

theorem pairwise_pruneT {w : Nat} {tiles : List Nat} {x1 y1 : Nat} {p : List Xyd}
    (hp : p.Pairwise xydLt) : (pruneT w tiles x1 y1 p).Pairwise xydLt := by
  unfold pruneT
  split
  · exact pairwise_del234 hp _
  · exact hp

theorem mem_pruneT {w : Nat} {tiles : List Nat} {x1 y1 : Nat} {p : List Xyd}
    (hn : p.Nodup) {a : Xyd} :
    a ∈ pruneT w tiles x1 y1 p ↔ a ∈ p ∧
      (COUNT (getArr w tiles x1 y1) = 3 →
        a ≠ ⟨x1, y1, 0x0F ^^^ getArr w tiles x1 y1⟩) := by
  unfold pruneT
  split
  · next hcnt =>
      rw [mem_del234 hn]
      tauto
  · next hcnt => tauto

theorem pruneInto_eq (w h : Nat) (x2 y2 : Nat) (p : List Xyd) :
    pruneInto w h x2 y2 p =
      del234 ⟨(offs w h x2 y2 D).1, (offs w h x2 y2 D).2, F D⟩
        (del234 ⟨(offs w h x2 y2 L).1, (offs w h x2 y2 L).2, F L⟩
          (del234 ⟨(offs w h x2 y2 U).1, (offs w h x2 y2 U).2, F U⟩
            (del234 ⟨(offs w h x2 y2 R).1, (offs w h x2 y2 R).2, F R⟩ p))) := rfl

theorem pairwise_pruneInto {w h : Nat} {x2 y2 : Nat} {p : List Xyd}
    (hp : p.Pairwise xydLt) : (pruneInto w h x2 y2 p).Pairwise xydLt := by
  rw [pruneInto_eq]
  exact pairwise_del234 (pairwise_del234 (pairwise_del234 (pairwise_del234 hp _) _) _) _

theorem nodup_del234 {l : List Xyd} (hn : l.Nodup) (k : Xyd) : (del234 k l).Nodup :=
  (List.erase_sublist k l).nodup hn

theorem mem_pruneInto {w h : Nat} {x2 y2 : Nat} {p : List Xyd}
    (hn : p.Nodup) {a : Xyd} :
    a ∈ pruneInto w h x2 y2 p ↔ a ∈ p ∧ ∀ d ∈ dirs,
      a ≠ ⟨(offs w h x2 y2 d).1, (offs w h x2 y2 d).2, F d⟩ := by
  have n1 := nodup_del234 hn (⟨(offs w h x2 y2 R).1, (offs w h x2 y2 R).2, F R⟩ : Xyd)
  have n2 := nodup_del234 n1 (⟨(offs w h x2 y2 U).1, (offs w h x2 y2 U).2, F U⟩ : Xyd)
  have n3 := nodup_del234 n2 (⟨(offs w h x2 y2 L).1, (offs w h x2 y2 L).2, F L⟩ : Xyd)
  rw [pruneInto_eq, mem_del234 n3, mem_del234 n2, mem_del234 n1, mem_del234 hn]
  simp only [dirs, List.mem_cons, List.not_mem_nil]
  constructor
  · rintro ⟨⟨⟨⟨h1, h2⟩, h3⟩, h4⟩, h5⟩
    refine ⟨h1, ?_⟩
    rintro d (rfl | rfl | rfl | rfl | hf)
    · exact h2
    · exact h3
    · exact h4
    · exact h5
    · exact absurd hf (by simp)
  · rintro ⟨h1, h2⟩
    refine ⟨⟨⟨⟨h1, ?_⟩, ?_⟩, ?_⟩, ?_⟩
    · exact h2 R (by simp)
    · exact h2 U (by simp)
    · exact h2 L (by simp)
    · exact h2 D (by simp)

end Net

namespace Net

theorem mem_addStep {w h : Nat} {wrapping : Bool} {tiles : List Nat}
    {x2 y2 d2 d : Nat} {p : List Xyd} {a : Xyd} :
    a ∈ addStep w h wrapping tiles x2 y2 d2 p d ↔
      a ∈ p ∨ (addCond w h wrapping tiles x2 y2 d2 d ∧ a = ⟨x2, y2, d⟩) := by
  unfold addStep addCond
  split_ifs with h1 h2 h3
  · tauto
  · tauto
  · constructor
    · intro h; exact Or.inl h
    · rintro (h | ⟨⟨hc1, hc2, hc3⟩, rfl⟩)
      · exact h
      · exact absurd hc3 h3
  · rw [mem_insert234]
    constructor
    · rintro (rfl | h)
      · exact Or.inr ⟨⟨h1, h2, by simpa using h3⟩, rfl⟩
      · exact Or.inl h
    · rintro (h | ⟨-, rfl⟩)
      · exact Or.inr h
      · exact Or.inl rfl

theorem pairwise_addStep {w h : Nat} {wrapping : Bool} {tiles : List Nat}
    {x2 y2 d2 d : Nat} {p : List Xyd} (hp : p.Pairwise xydLt) :
    (addStep w h wrapping tiles x2 y2 d2 p d).Pairwise xydLt := by
  unfold addStep
  split_ifs
  · exact hp
  · exact hp
  · exact hp
  · exact pairwise_insert234 hp

theorem addOut_eq (w h : Nat) (wrapping : Bool) (tiles : List Nat) (x2 y2 d2 : Nat)
    (p : List Xyd) :
    addOut w h wrapping tiles x2 y2 d2 p =
      addStep w h wrapping tiles x2 y2 d2
        (addStep w h wrapping tiles x2 y2 d2
          (addStep w h wrapping tiles x2 y2 d2
            (addStep w h wrapping tiles x2 y2 d2 p R) U) L) D := rfl

theorem pairwise_addOut {w h : Nat} {wrapping : Bool} {tiles : List Nat}
    {x2 y2 d2 : Nat} {p : List Xyd} (hp : p.Pairwise xydLt) :
    (addOut w h wrapping tiles x2 y2 d2 p).Pairwise xydLt := by
  rw [addOut_eq]
  exact pairwise_addStep (pairwise_addStep (pairwise_addStep (pairwise_addStep hp)))

theorem mem_addOut {w h : Nat} {wrapping : Bool} {tiles : List Nat}
    {x2 y2 d2 : Nat} {p : List Xyd} {a : Xyd} :
    a ∈ addOut w h wrapping tiles x2 y2 d2 p ↔
      a ∈ p ∨ ∃ d ∈ dirs, addCond w h wrapping tiles x2 y2 d2 d ∧ a = ⟨x2, y2, d⟩ := by
  rw [addOut_eq, mem_addStep, mem_addStep, mem_addStep, mem_addStep]
  simp only [dirs, List.mem_cons, List.not_mem_nil]
  constructor
  · rintro ((((h | h) | h) | h) | h)
    · exact Or.inl h
    · exact Or.inr ⟨R, by simp, h⟩
    · exact Or.inr ⟨U, by simp, h⟩
    · exact Or.inr ⟨L, by simp, h⟩
    · exact Or.inr ⟨D, by simp, h⟩
  · rintro (h | ⟨d, (rfl | rfl | rfl | rfl | hf), hc⟩)
    · exact Or.inl (Or.inl (Or.inl (Or.inl h)))
    · exact Or.inl (Or.inl (Or.inl (Or.inr hc)))
    · exact Or.inl (Or.inl (Or.inr hc))
    · exact Or.inl (Or.inr hc)
    · exact Or.inr hc
    · exact absurd hf (by simp)

end Net

namespace Net

theorem dir_bit : ∀ d ∈ dirs, ∀ e ∈ dirs, (bitSet e d ↔ e = d) := by decide

theorem bit_ne_zero {d t : Nat} (h : bitSet d t) : t ≠ 0 := by
  intro he
  subst he
  exact h (Nat.zero_and d)

theorem birthsOk_entry {w h : Nat} : ∀ {bs : List ((Nat × Nat) × Nat)},
    birthsOk w h bs → ∀ e ∈ bs, isDir e.2 ∧ inGrid w h e.1 ∧
      nbr w h e.1 e.2 ≠ e.1 ∧ e.1 ≠ center w h := by
  intro bs
  induction bs with
  | nil => intro _ e he; simp at he
  | cons hd rest ih =>
    intro hb e he
    rcases List.mem_cons.mp he with rfl | hmem
    · exact ⟨hb.2.1, hb.2.2.1, hb.2.2.2.1, hb.2.2.2.2.1⟩
    · exact ih hb.1 e hmem

theorem birthsOk_parent_mem {w h : Nat} : ∀ {bs : List ((Nat × Nat) × Nat)},
    birthsOk w h bs → ∀ e ∈ bs,
      nbr w h e.1 e.2 = center w h ∨ nbr w h e.1 e.2 ∈ bs.map Prod.fst := by
  intro bs
  induction bs with
  | nil => intro _ e he; simp at he
  | cons hd rest ih =>
    intro hb e he
    rcases List.mem_cons.mp he with rfl | hmem
    · rcases hb.2.2.2.2.2.2 with hc | hm
      · exact Or.inl hc
      · exact Or.inr (by simp only [List.map_cons, List.mem_cons]; exact Or.inr hm)
    · rcases ih hb.1 e hmem with hc | hm
      · exact Or.inl hc
      · exact Or.inr (by simp only [List.map_cons, List.mem_cons]; exact Or.inr hm)

theorem birthsOk_cells_nodup {w h : Nat} : ∀ {bs : List ((Nat × Nat) × Nat)},
    birthsOk w h bs → (bs.map Prod.fst).Nodup := by
  intro bs
  induction bs with
  | nil => intro _; simp
  | cons hd rest ih =>
    intro hb
    simp only [List.map_cons, List.nodup_cons]
    exact ⟨hb.2.2.2.2.2.1, ih hb.1⟩

theorem birthsOk_center_not_mem {w h : Nat} : ∀ {bs : List ((Nat × Nat) × Nat)},
    birthsOk w h bs → center w h ∉ bs.map Prod.fst := by
  intro bs hb hmem
  rw [List.mem_map] at hmem
  obtain ⟨e, he, heq⟩ := hmem
  exact (birthsOk_entry hb e he).2.2.2 heq

theorem exists_center_parent {w h : Nat} : ∀ {bs : List ((Nat × Nat) × Nat)},
    birthsOk w h bs → bs ≠ [] → ∃ e ∈ bs, nbr w h e.1 e.2 = center w h := by
  intro bs
  induction bs with
  | nil => intro _ hne; exact absurd rfl hne
  | cons hd rest ih =>
    intro hb _
    cases rest with
    | nil =>
      rcases hb.2.2.2.2.2.2 with hc | hm
      · exact ⟨hd, List.mem_cons_self _ _, hc⟩
      · simp at hm
    | cons r2 rest2 =>
      obtain ⟨e, he, hc⟩ := ih hb.1 (by simp)
      exact ⟨e, List.mem_cons_of_mem _ he, hc⟩

/-- Consequences of a set connection bit: the two endpoints are distinct,
both in use, and carry reciprocal bits. -/
theorem conn_facts {w h : Nat} {tiles : List Nat} {bs : List ((Nat × Nat) × Nat)}
    (hw : 0 < w) (hh : 0 < h) (hBO : birthsOk w h bs) (hBC : bitChar w h tiles bs)
    (hPI : ∀ c, inGrid w h c →
      (placed w h tiles c ↔ (c = center w h ∨ c ∈ bs.map Prod.fst)))
    {c : Nat × Nat} {d : Nat} (hc : inGrid w h c) (hd : isDir d)
    (hbit : bitSet d (tileAt w tiles c)) :
    placed w h tiles (nbr w h c d) ∧ placed w h tiles c ∧
      bitSet (F d) (tileAt w tiles (nbr w h c d)) ∧ nbr w h c d ≠ c := by
  have hng : inGrid w h (nbr w h c d) := nbr_inGrid hw hh c d
  rcases (hBC c hc d hd).mp hbit with hm | hm
  · obtain ⟨-, -, hne, -⟩ := birthsOk_entry hBO _ hm
    have hpar := birthsOk_parent_mem hBO _ hm
    have hplc : placed w h tiles c := by
      rw [hPI c hc]
      exact Or.inr (List.mem_map.mpr ⟨_, hm, rfl⟩)
    have hpln : placed w h tiles (nbr w h c d) := by
      rw [hPI _ hng]
      rcases hpar with hcen | hmm
      · exact Or.inl hcen
      · exact Or.inr hmm
    refine ⟨hpln, hplc, ?_, hne⟩
    rw [hBC _ hng (F d) (isDir_F hd)]
    right
    rw [nbr_nbr_F hd hw hh hc, F_F hd]
    exact hm
  · obtain ⟨-, -, hne, -⟩ := birthsOk_entry hBO _ hm
    rw [nbr_nbr_F hd hw hh hc] at hne
    have hpar := birthsOk_parent_mem hBO _ hm
    rw [nbr_nbr_F hd hw hh hc] at hpar
    have hpln : placed w h tiles (nbr w h c d) := by
      rw [hPI _ hng]
      exact Or.inr (List.mem_map.mpr ⟨_, hm, rfl⟩)
    have hplc : placed w h tiles c := by
      rw [hPI c hc]
      rcases hpar with hcen | hmm
      · exact Or.inl hcen
      · exact Or.inr hmm
    refine ⟨hpln, hplc, ?_, Ne.symm hne⟩
    rw [hBC _ hng (F d) (isDir_F hd)]
    exact Or.inl hm

theorem center_inGrid {w h : Nat} (hw : 0 < w) (hh : 0 < h) : inGrid w h (center w h) :=
  ⟨Nat.div_lt_self hw (by omega), Nat.div_lt_self hh (by omega)⟩

/-- Once any non-centre cell is in use, the centre's own tile is non-zero. -/
theorem center_tile_ne_zero {w h : Nat} {tiles : List Nat} {bs : List ((Nat × Nat) × Nat)}
    (hw : 0 < w) (hh : 0 < h) (hBO : birthsOk w h bs) (hBC : bitChar w h tiles bs)
    (hne : bs ≠ []) : tileAt w tiles (center w h) ≠ 0 := by
  obtain ⟨e, he, hc⟩ := exists_center_parent hBO hne
  obtain ⟨hd, hg, -, -⟩ := birthsOk_entry hBO _ he
  have hbit : bitSet (F e.2) (tileAt w tiles (center w h)) := by
    rw [hBC _ (center_inGrid hw hh) (F e.2) (isDir_F hd)]
    right
    rw [← hc, nbr_nbr_F hd hw hh hg, F_F hd]
    exact he
  exact bit_ne_zero hbit

end Net

namespace Net

theorem nbr_R {w h : Nat} {c : Nat × Nat} (hc : inGrid w h c) (hs : c.1 + 1 < w) :
    nbr w h c R = (c.1 + 1, c.2) := by
  unfold nbr
  rw [offs_eq_wrapAdd]
  have hx : Xd R = 1 := by decide
  have hy : Yd R = 0 := by decide
  rw [hx, hy, wrapAdd_one hs, wrapAdd_zero (Nat.lt_of_le_of_lt (Nat.zero_le _) hc.2) hc.2]

theorem nbr_L {w h : Nat} {c : Nat × Nat} (hc : inGrid w h c) (hs : 1 ≤ c.1) :
    nbr w h c L = (c.1 - 1, c.2) := by
  unfold nbr
  rw [offs_eq_wrapAdd]
  have hx : Xd L = -1 := by decide
  have hy : Yd L = 0 := by decide
  rw [hx, hy, wrapAdd_neg_one hs hc.1, wrapAdd_zero (Nat.lt_of_le_of_lt (Nat.zero_le _) hc.2) hc.2]

theorem nbr_U {w h : Nat} {c : Nat × Nat} (hc : inGrid w h c) (hs : 1 ≤ c.2) :
    nbr w h c U = (c.1, c.2 - 1) := by
  unfold nbr
  rw [offs_eq_wrapAdd]
  have hx : Xd U = 0 := by decide
  have hy : Yd U = -1 := by decide
  rw [hx, hy, wrapAdd_neg_one hs hc.2, wrapAdd_zero (Nat.lt_of_le_of_lt (Nat.zero_le _) hc.1) hc.1]

theorem nbr_D {w h : Nat} {c : Nat × Nat} (hc : inGrid w h c) (hs : c.2 + 1 < h) :
    nbr w h c D = (c.1, c.2 + 1) := by
  unfold nbr
  rw [offs_eq_wrapAdd]
  have hx : Xd D = 0 := by decide
  have hy : Yd D = 1 := by decide
  rw [hx, hy, wrapAdd_one hs, wrapAdd_zero (Nat.lt_of_le_of_lt (Nat.zero_le _) hc.1) hc.1]

theorem stepOk_nbr_F {w h : Nat} {c : Nat × Nat} {d : Nat} (hd : isDir d)
    (hc : inGrid w h c) (hs : stepOk w h c d) : stepOk w h (nbr w h c d) (F d) := by
  rcases hd with rfl | rfl | rfl | rfl
  · rw [nbr_R hc (hs.1 rfl), show F R = L from by decide]
    unfold stepOk
    simp [R, U, L, D]
  · rw [nbr_U hc (hs.2.2.1 rfl), show F U = D from by decide]
    unfold stepOk
    simp only [R, U, L, D]
    have := hs.2.2.1 rfl
    have := hc.2
    refine ⟨by omega, by omega, by omega, by omega⟩
  · rw [nbr_L hc (hs.2.1 rfl), show F L = R from by decide]
    unfold stepOk
    simp only [R, U, L, D]
    have := hs.2.1 rfl
    have := hc.1
    refine ⟨by omega, by omega, by omega, by omega⟩
  · rw [nbr_D hc (hs.2.2.2 rfl), show F D = U from by decide]
    unfold stepOk
    simp [R, U, L, D]

theorem getArr_replicate {w n x y : Nat} : getArr w (List.replicate n 0) x y = 0 := by
  unfold getArr
  rw [getD_eq_get?]
  cases hg : (List.replicate n 0).get? (idx w x y) with
  | none => rfl
  | some t =>
    have := List.get?_mem hg
    rw [List.eq_of_mem_replicate this]
    rfl

theorem mem_initPoss {w h cx cy : Nat} {e : Xyd} :
    e ∈ initPoss w h cx cy ↔
      ((cx + 1 < w ∧ e = ⟨cx, cy, R⟩) ∨ (1 ≤ cy ∧ e = ⟨cx, cy, U⟩) ∨
       (1 ≤ cx ∧ e = ⟨cx, cy, L⟩) ∨ (cy + 1 < h ∧ e = ⟨cx, cy, D⟩)) := by
  unfold initPoss
  split_ifs <;> simp [mem_insert234] <;> tauto

theorem pairwise_initPoss {w h cx cy : Nat} : (initPoss w h cx cy).Pairwise xydLt := by
  unfold initPoss
  split_ifs <;>
    (repeat first
      | exact List.Pairwise.nil
      | apply pairwise_insert234)

end Net

namespace Net

/-- The initial construction state satisfies the loop invariant. -/
theorem genInv_init {w h : Nat} {wrapping : Bool} (hw : 0 < w) (hh : 0 < h)
    (rs : RandomState) :
    GenInv w h wrapping
      ⟨List.replicate (w * h) 0, initPoss w h (w / 2) (h / 2), rs⟩ := by
  have htile : ∀ c : Nat × Nat, tileAt w (List.replicate (w * h) 0) c = 0 := by
    intro c; exact getArr_replicate
  have hcg := center_inGrid (w := w) (h := h) hw hh
  have hplc : ∀ c : Nat × Nat, placed w h (List.replicate (w * h) 0) c ↔ c = center w h := by
    intro c
    unfold placed
    rw [htile]
    simp
  constructor
  case tlen => simp
  case tlt => intro t ht; rw [List.eq_of_mem_replicate ht]; omega
  case psort => exact pairwise_initPoss
  case pdir =>
    intro e he
    rcases mem_initPoss.mp he with ⟨-, rfl⟩ | ⟨-, rfl⟩ | ⟨-, rfl⟩ | ⟨-, rfl⟩
    · exact isDir_R
    · exact isDir_U
    · exact isDir_L
    · exact isDir_D
  case pgrid =>
    intro e he
    rcases mem_initPoss.mp he with ⟨-, rfl⟩ | ⟨-, rfl⟩ | ⟨-, rfl⟩ | ⟨-, rfl⟩ <;> exact hcg
  case pvalid =>
    intro e he
    rcases mem_initPoss.mp he with ⟨hb, rfl⟩ | ⟨hb, rfl⟩ | ⟨hb, rfl⟩ | ⟨hb, rfl⟩ <;>
      · right
        unfold stepOk
        simp only [R, U, L, D]
        refine ⟨by omega, by omega, by omega, by omega⟩
  case psrc =>
    intro e he
    rcases mem_initPoss.mp he with ⟨-, rfl⟩ | ⟨-, rfl⟩ | ⟨-, rfl⟩ | ⟨-, rfl⟩ <;>
      exact Or.inr rfl
  case ptgt =>
    intro e he
    rcases mem_initPoss.mp he with ⟨hb, rfl⟩ | ⟨hb, rfl⟩ | ⟨hb, rfl⟩ | ⟨hb, rfl⟩
    · rw [hplc, show ((⟨w / 2, h / 2, R⟩ : Xyd).x, (⟨w / 2, h / 2, R⟩ : Xyd).y) =
        center w h from rfl, nbr_R hcg hb]
      intro he2
      have := congrArg Prod.fst he2
      simp [center] at this
    · rw [hplc, show ((⟨w / 2, h / 2, U⟩ : Xyd).x, (⟨w / 2, h / 2, U⟩ : Xyd).y) =
        center w h from rfl, nbr_U hcg hb]
      intro he2
      have := congrArg Prod.snd he2
      simp [center] at this
      omega
    · rw [hplc, show ((⟨w / 2, h / 2, L⟩ : Xyd).x, (⟨w / 2, h / 2, L⟩ : Xyd).y) =
        center w h from rfl, nbr_L hcg hb]
      intro he2
      have := congrArg Prod.fst he2
      simp [center] at this
      omega
    · rw [hplc, show ((⟨w / 2, h / 2, D⟩ : Xyd).x, (⟨w / 2, h / 2, D⟩ : Xyd).y) =
        center w h from rfl, nbr_D hcg hb]
      intro he2
      have := congrArg Prod.snd he2
      simp [center] at this
  case offgrid =>
    intro _ c _ d _ hbit
    rw [show tileAt w (List.replicate (w * h) 0) c = 0 from getArr_replicate] at hbit
    exact absurd rfl (bit_ne_zero hbit)
  case cnt3 =>
    intro c _
    rw [htile]
    decide
  case t3np =>
    intro c _ hcnt
    rw [htile] at hcnt
    simp [COUNT] at hcnt
  case fence =>
    intro c hcin d hd hpl hvd hnp
    have hcc : c = center w h := (hplc c).mp hpl
    subst hcc
    rcases hd with rfl | rfl | rfl | rfl
    · by_cases hb : w / 2 + 1 < w
      · left
        rw [mem_initPoss]
        exact Or.inl ⟨hb, rfl⟩
      · right; right
        exact ⟨rfl, Or.inl ⟨rfl, hb⟩⟩
    · by_cases hb : 1 ≤ h / 2
      · left
        rw [mem_initPoss]
        exact Or.inr (Or.inl ⟨hb, rfl⟩)
      · right; right
        exact ⟨rfl, Or.inr (Or.inl ⟨rfl, hb⟩)⟩
    · by_cases hb : 1 ≤ w / 2
      · left
        rw [mem_initPoss]
        exact Or.inr (Or.inr (Or.inl ⟨hb, rfl⟩))
      · right; right
        exact ⟨rfl, Or.inr (Or.inr (Or.inl ⟨rfl, hb⟩))⟩
    · by_cases hb : h / 2 + 1 < h
      · left
        rw [mem_initPoss]
        exact Or.inr (Or.inr (Or.inr ⟨hb, rfl⟩))
      · right; right
        exact ⟨rfl, Or.inr (Or.inr (Or.inr ⟨rfl, hb⟩))⟩
  case births =>
    refine ⟨[], trivial, ?_, ?_, ?_⟩
    · intro c hc d hd
      rw [show tileAt w (List.replicate (w * h) 0) c = 0 from getArr_replicate]
      simp only [List.not_mem_nil, or_false, iff_false]
      intro hbit
      exact absurd rfl (bit_ne_zero hbit)
    · intro c hc
      rw [hplc]
      simp
    · simp [List.map_replicate]
      right
      rfl

end Net

namespace Net

theorem sum_map_set {g : Nat → Nat} : ∀ {l : List Nat} {i : Nat}, i < l.length → ∀ {v : Nat},
    ((l.set i v).map g).sum + g (l.getD i 0) = (l.map g).sum + g v := by
  intro l
  induction l with
  | nil => intro i hi; simp at hi
  | cons hd tl ih =>
    intro i hi v
    cases i with
    | zero => simp [List.set]; omega
    | succ j =>
      rw [List.length_cons] at hi
      have := ih (i := j) (by omega) (v := v)
      simp only [List.set, List.map_cons, List.sum_cons, List.getD_cons_succ]
      omega

theorem xor15_invol : ∀ t < 16, 0x0F ^^^ (0x0F ^^^ t) = t := by decide

theorem dir_ne_zero : ∀ d ∈ dirs, d ≠ 0 := by decide

theorem xyd_eta (e : Xyd) : (⟨e.x, e.y, e.direction⟩ : Xyd) = e := rfl

end Net

namespace Net

theorem count_dir : ∀ d ∈ dirs, COUNT d = 1 := by decide

theorem count_zero_or_dir : ∀ d ∈ dirs, COUNT (0 ||| d) = 1 := by decide

set_option maxHeartbeats 2000000 in
/-- One construction step preserves the invariant and brings exactly one new
cell into use. -/
theorem genStep_preserves {w h : Nat} {wrapping : Bool} {st : GenSt}
    (hw : 0 < w) (hh : 0 < h) (hI : GenInv w h wrapping st) (hne : ¬st.poss = []) :
    GenInv w h wrapping (genStep w h wrapping st) ∧
    placedCount w h (genStep w h wrapping st).tiles =
      placedCount w h st.tiles + 1 := by
  have h_mem := pickPoss_mem hne
  have h_rest := fun (a : Xyd) => mem_pickPoss_rest (nodup_of_pairwise hI.psort) hne (a := a)
  have h_restp := pairwise_pickPoss_rest hI.psort
  rw [genStep_of_ne w h wrapping st hne]
  obtain ⟨pk, hpkeq⟩ : ∃ p, pickPoss st = p := ⟨_, rfl⟩
  rw [hpkeq] at h_mem h_rest h_restp ⊢
  obtain ⟨⟨px, py, d1⟩, poss1, rs1⟩ := pk
  simp only [] at h_mem h_rest h_restp ⊢
  set c2 := offs w h px py d1 with hc2def
  set tiles2 := connect w st.tiles px py c2.1 c2.2 d1 with htiles2def
  set poss2 := pruneT w tiles2 px py poss1 with hposs2def
  set poss3 := pruneInto w h c2.1 c2.2 poss2 with hposs3def
  set poss4 := addOut w h wrapping tiles2 c2.1 c2.2 (F d1) poss3 with hposs4def
  -- facts about the picked possibility
  have h_d1 : isDir d1 := hI.pdir _ h_mem
  have h_d1m : d1 ∈ dirs := mem_dirs_iff.mpr h_d1
  have h_c1g : inGrid w h (px, py) := hI.pgrid _ h_mem
  have h_c1p : placed w h st.tiles (px, py) := hI.psrc _ h_mem
  have h_c2nbr : nbr w h (px, py) d1 = c2 := rfl
  have h_c2np : ¬placed w h st.tiles c2 := hI.ptgt _ h_mem
  have h_vd : wrapping = true ∨ stepOk w h (px, py) d1 := hI.pvalid _ h_mem
  have h_c2g : inGrid w h c2 := by
    rw [← h_c2nbr]
    exact nbr_inGrid hw hh _ _
  have h_ne12 : ((px, py) : Nat × Nat) ≠ c2 := fun he => h_c2np (he ▸ h_c1p)
  have h_t2z : tileAt w st.tiles c2 = 0 := by
    by_contra hz
    exact h_c2np (Or.inl hz)
  have h_c2nc : c2 ≠ center w h := fun he => h_c2np (Or.inr he)
  obtain ⟨bs, hBO, hBC, hPI, hSUM⟩ := hI.births
  have h_t1lt : tileAt w st.tiles (px, py) < 16 := tileAt_lt_16 (h := h) hI.tlt _
  have h_bit1 : ¬bitSet d1 (tileAt w st.tiles (px, py)) := by
    intro hbit
    exact h_c2np (conn_facts hw hh hBO hBC hPI h_c1g h_d1 hbit).1
  have h_cnt1 : COUNT (tileAt w st.tiles (px, py)) ≤ 2 := by
    by_contra hgt
    have h3 : COUNT (tileAt w st.tiles (px, py)) = 3 := by
      have := hI.cnt3 _ h_c1g
      omega
    have hxeq : tileAt w st.tiles (px, py) = 0x0F ^^^ d1 :=
      count3_eq_xor _ h_t1lt h3 d1 h_d1m h_bit1
    have hkey : (0x0F ^^^ tileAt w st.tiles (px, py) : Nat) = d1 := by
      rw [hxeq, xor15_invol d1 (dir_lt_16 d1 h_d1m)]
    have hnp := hI.t3np _ h_c1g h3
    apply hnp
    rw [hkey]
    exact h_mem
  -- the two tile updates
  have h_tc1 : tileAt w tiles2 (px, py) = tileAt w st.tiles (px, py) ||| d1 :=
    tileAt_connect_src hI.tlen h_c1g h_c2g h_ne12
  have h_tc2 : tileAt w tiles2 c2 = F d1 := by
    have h0 : tileAt w tiles2 c2 = tileAt w st.tiles c2 ||| F d1 :=
      tileAt_connect_tgt hI.tlen h_c1g h_c2g h_ne12
    rw [h0, h_t2z]
    exact Nat.zero_or _
  have h_tco : ∀ c : Nat × Nat, inGrid w h c → c ≠ (px, py) → c ≠ c2 →
      tileAt w tiles2 c = tileAt w st.tiles c :=
    fun c hcg hne1 hne2 => tileAt_connect_other h_c1g h_c2g hcg hne1 hne2
  have h_t2lt : ∀ t ∈ tiles2, t < 16 :=
    @connect_mem_lt w h st.tiles (px, py) c2 d1 hI.tlt h_d1m
  have h_fd1m : F d1 ∈ dirs := F_mem_dirs _ h_d1m
  have h_tc2nz : tileAt w tiles2 c2 ≠ 0 := by
    rw [h_tc2]
    exact dir_ne_zero _ h_fd1m
  have h_backc1 : nbr w h c2 (F d1) = ((px, py) : Nat × Nat) := by
    rw [← h_c2nbr, nbr_nbr_F h_d1 hw hh h_c1g]
  -- how placement changes
  have h_pl2 : ∀ c : Nat × Nat, inGrid w h c →
      (placed w h tiles2 c ↔ (placed w h st.tiles c ∨ c = c2)) := by
    intro c hcg
    constructor
    · intro hp
      have hp' : tileAt w tiles2 c ≠ 0 ∨ c = center w h := hp
      by_cases he2 : c = c2
      · exact Or.inr he2
      · rcases hp' with hz | hcen
        · by_cases he1 : c = (px, py)
          · exact Or.inl (he1 ▸ h_c1p)
          · rw [h_tco c hcg he1 he2] at hz
            exact Or.inl (Or.inl hz)
        · exact Or.inl (Or.inr hcen)
    · intro hp
      rcases hp with hp | rfl
      · have hp' : tileAt w st.tiles c ≠ 0 ∨ c = center w h := hp
        rcases hp' with hz | hcen
        · by_cases he1 : c = (px, py)
          · subst he1
            refine Or.inl ?_
            rw [h_tc1]
            exact or_dir_ne_zero _ h_t1lt _ h_d1m
          · by_cases he2 : c = c2
            · subst he2
              exact Or.inl h_tc2nz
            · refine Or.inl ?_
              rw [h_tco c hcg he1 he2]
              exact hz
        · exact Or.inr hcen
      · exact Or.inl h_tc2nz
  -- the extended construction ledger
  have hBO2 : birthsOk w h ((c2, F d1) :: bs) := by
    refine ⟨hBO, isDir_F h_d1, h_c2g, ?_, h_c2nc, ?_, ?_⟩
    · exact fun he => h_ne12 (h_backc1.symm.trans he)
    · intro hmem
      apply h_c2np
      rw [hPI c2 h_c2g]
      exact Or.inr hmem
    · rcases (hPI _ h_c1g).mp h_c1p with hcen | hmm
      · exact Or.inl (h_backc1.trans hcen)
      · refine Or.inr ?_
        show nbr w h c2 (F d1) ∈ bs.map Prod.fst
        rw [h_backc1]
        exact hmm
  have hBC2 : bitChar w h tiles2 ((c2, F d1) :: bs) := by
    intro c hcg d hd
    have hdm := mem_dirs_iff.mpr hd
    by_cases he1 : c = (px, py)
    · subst he1
      rw [h_tc1]
      by_cases hdd : d = d1
      · subst hdd
        have hL : bitSet d (tileAt w st.tiles (px, py) ||| d) :=
          bit_or_self _ h_t1lt _ hdm
        have hR : ((nbr w h ((px, py) : Nat × Nat) d, F d)) ∈ ((c2, F d) :: bs) := by
          rw [h_c2nbr]
          exact List.mem_cons_self _ _
        exact iff_of_true hL (Or.inr hR)
      · rw [bit_or_other _ h_t1lt _ h_d1m _ hdm hdd, hBC _ hcg d hd]
        constructor
        · rintro (hm | hm)
          · exact Or.inl (List.mem_cons_of_mem _ hm)
          · exact Or.inr (List.mem_cons_of_mem _ hm)
        · rintro (hm | hm)
          · rcases List.mem_cons.mp hm with heq | hm2
            · exact absurd (congrArg Prod.fst heq) h_ne12
            · exact Or.inl hm2
          · rcases List.mem_cons.mp hm with heq | hm2
            · exact absurd (F_inj_dirs _ hdm _ h_d1m (congrArg Prod.snd heq)) hdd
            · exact Or.inr hm2
    · by_cases he2 : c = c2
      · subst he2
        rw [h_tc2]
        by_cases hdd : d = F d1
        · subst hdd
          exact iff_of_true ((dir_bit _ h_fd1m _ h_fd1m).mpr rfl)
            (Or.inl (List.mem_cons_self _ _))
        · have hL : ¬bitSet d (F d1) := by
            rw [dir_bit _ h_fd1m _ hdm]
            exact hdd
          have hold := hBC c2 hcg d hd
          rw [h_t2z] at hold
          have holdF : ¬((c2, d) ∈ bs ∨ (nbr w h c2 d, F d) ∈ bs) := by
            rw [← hold]
            exact not_bitSet_zero _ hdm
          refine iff_of_false hL ?_
          rintro (hm | hm)
          · rcases List.mem_cons.mp hm with heq | hm2
            · exact hdd (congrArg Prod.snd heq)
            · exact holdF (Or.inl hm2)
          · rcases List.mem_cons.mp hm with heq | hm2
            · have hdd1 : d = d1 := F_inj_dirs _ hdm _ h_d1m (congrArg Prod.snd heq)
              have h0 : nbr w h c2 d = c2 := congrArg Prod.fst heq
              rw [hdd1] at h0
              have h1 : nbr w h (nbr w h c2 d1) (F d1) = nbr w h c2 (F d1) := by rw [h0]
              rw [nbr_nbr_F h_d1 hw hh hcg, h_backc1] at h1
              exact h_ne12 h1.symm
            · exact holdF (Or.inr hm2)
      · rw [h_tco c hcg he1 he2, hBC c hcg d hd]
        constructor
        · rintro (hm | hm)
          · exact Or.inl (List.mem_cons_of_mem _ hm)
          · exact Or.inr (List.mem_cons_of_mem _ hm)
        · rintro (hm | hm)
          · rcases List.mem_cons.mp hm with heq | hm2
            · exact absurd (congrArg Prod.fst heq) he2
            · exact Or.inl hm2
          · rcases List.mem_cons.mp hm with heq | hm2
            · have hdd1 : d = d1 := F_inj_dirs _ hdm _ h_d1m (congrArg Prod.snd heq)
              have h0 : nbr w h c d = c2 := congrArg Prod.fst heq
              rw [hdd1] at h0
              have h1 : nbr w h (nbr w h c d1) (F d1) = nbr w h c2 (F d1) := by rw [h0]
              rw [nbr_nbr_F h_d1 hw hh hcg, h_backc1] at h1
              exact (he1 h1).elim
            · exact Or.inr hm2
  have hPI2 : ∀ c, inGrid w h c →
      (placed w h tiles2 c ↔ (c = center w h ∨ c ∈ ((c2, F d1) :: bs).map Prod.fst)) := by
    intro c hcg
    rw [h_pl2 c hcg, hPI c hcg]
    simp only [List.map_cons, List.mem_cons]
    tauto
  have hSUM2 : (tiles2.map COUNT).sum = 2 * ((c2, F d1) :: bs).length := by
    have hi1 : idx w px py < st.tiles.length := by
      rw [hI.tlen]
      exact idx_lt_size h_c1g.1 h_c1g.2
    have hs1 := sum_map_set (g := COUNT) (l := st.tiles) hi1
      (v := st.tiles.getD (idx w px py) 0 ||| d1)
    have hlen1 : (st.tiles.set (idx w px py) (st.tiles.getD (idx w px py) 0 ||| d1)).length
        = st.tiles.length := by simp
    have hi2 : idx w c2.1 c2.2 <
        (st.tiles.set (idx w px py) (st.tiles.getD (idx w px py) 0 ||| d1)).length := by
      rw [hlen1, hI.tlen]
      exact idx_lt_size h_c2g.1 h_c2g.2
    have hs2 := sum_map_set (g := COUNT) hi2
      (v := (st.tiles.set (idx w px py) (st.tiles.getD (idx w px py) 0 ||| d1)).getD
        (idx w c2.1 c2.2) 0 ||| F d1)
    have hB : (st.tiles.set (idx w px py) (st.tiles.getD (idx w px py) 0 ||| d1)).getD
        (idx w c2.1 c2.2) 0 = 0 := by
      have hx : getArr w (setArr w st.tiles px py (getArr w st.tiles px py ||| d1))
          c2.1 c2.2 = 0 := by
        rw [getArr_setArr_other
          (show idx w px py ≠ idx w c2.1 c2.2 from idx_inj h_c1g h_c2g h_ne12)]
        exact h_t2z
      exact hx
    have hA : COUNT (st.tiles.getD (idx w px py) 0 ||| d1) =
        COUNT (st.tiles.getD (idx w px py) 0) + 1 :=
      count_or_succ _ h_t1lt _ h_d1m h_bit1
    have hC : COUNT ((st.tiles.set (idx w px py)
        (st.tiles.getD (idx w px py) 0 ||| d1)).getD (idx w c2.1 c2.2) 0 ||| F d1) = 1 := by
      rw [hB]
      exact count_zero_or_dir _ h_fd1m
    have hD : COUNT ((st.tiles.set (idx w px py)
        (st.tiles.getD (idx w px py) 0 ||| d1)).getD (idx w c2.1 c2.2) 0) = 0 := by
      rw [hB]
      exact count_zero
    have hgoal : tiles2 =
        (st.tiles.set (idx w px py) (st.tiles.getD (idx w px py) 0 ||| d1)).set
          (idx w c2.1 c2.2)
          ((st.tiles.set (idx w px py) (st.tiles.getD (idx w px py) 0 ||| d1)).getD
            (idx w c2.1 c2.2) 0 ||| F d1) := rfl
    rw [hgoal]
    simp only [List.length_cons]
    omega
  -- sortedness and membership plumbing for the new possibility list
  have hnodup1 : poss1.Nodup := nodup_of_pairwise h_restp
  have hpair2 : poss2.Pairwise xydLt := pairwise_pruneT h_restp
  have hnodup2 : poss2.Nodup := nodup_of_pairwise hpair2
  have hpair3 : poss3.Pairwise xydLt := pairwise_pruneInto hpair2
  have mem4_old : ∀ a : Xyd, a ∈ poss3 → a ∈ st.poss := fun a ha3 =>
    ((h_rest a).mp ((mem_pruneT hnodup1).mp ((mem_pruneInto hnodup2).mp ha3).1).1).1
  refine ⟨⟨?_, ?_, ?_, ?_, ?_, ?_, ?_, ?_, ?_, ?_, ?_, ?_, ?_⟩, ?_⟩
  · -- tlen
    show tiles2.length = w * h
    rw [htiles2def, connect_length, hI.tlen]
  · -- tlt
    exact h_t2lt
  · -- psort
    exact pairwise_addOut hpair3
  · -- pdir
    intro a ha
    rcases mem_addOut.mp ha with ha3 | ⟨d, hdm, hcond, rfl⟩
    · exact hI.pdir a (mem4_old a ha3)
    · exact mem_dirs_iff.mp hdm
  · -- pgrid
    intro a ha
    rcases mem_addOut.mp ha with ha3 | ⟨d, hdm, hcond, rfl⟩
    · exact hI.pgrid a (mem4_old a ha3)
    · exact h_c2g
  · -- pvalid
    intro a ha
    rcases mem_addOut.mp ha with ha3 | ⟨d, hdm, hcond, rfl⟩
    · exact hI.pvalid a (mem4_old a ha3)
    · by_cases hwrap : wrapping = true
      · exact Or.inl hwrap
      · have hwf : wrapping = false := by
          cases wrapping with
          | false => rfl
          | true => exact absurd rfl hwrap
        have hnb := hcond.2.1
        rw [hwf] at hnb
        push_neg at hnb
        have hb := hnb rfl
        have hg1 := h_c2g.1
        have hg2 := h_c2g.2
        exact Or.inr (show (d = R → c2.1 + 1 < w) ∧ (d = L → 1 ≤ c2.1) ∧
          (d = U → 1 ≤ c2.2) ∧ (d = D → c2.2 + 1 < h) from
          ⟨fun hdr => by have := hb.2.2.2 hdr; omega,
           fun hdl => by have := hb.2.2.1 hdl; omega,
           fun hdu => by have := hb.1 hdu; omega,
           fun hdd => by have := hb.2.1 hdd; omega⟩)
  · -- psrc
    intro a ha
    rcases mem_addOut.mp ha with ha3 | ⟨d, hdm, hcond, rfl⟩
    · have haP := mem4_old a ha3
      have hag := hI.pgrid a haP
      exact (h_pl2 _ hag).mpr (Or.inl (hI.psrc a haP))
    · exact Or.inl h_tc2nz
  · -- ptgt
    intro a ha
    rcases mem_addOut.mp ha with ha3 | ⟨d, hdm, hcond, rfl⟩
    · have ha2 := (mem_pruneInto hnodup2).mp ha3
      have haP := mem4_old a ha3
      have hag := hI.pgrid a haP
      have hadir := hI.pdir a haP
      have htgtg : inGrid w h (nbr w h (a.x, a.y) a.direction) := nbr_inGrid hw hh _ _
      intro hp
      rcases (h_pl2 _ htgtg).mp hp with hpold | htg2
      · exact hI.ptgt a haP hpold
      · have hback : nbr w h c2 (F a.direction) = ((a.x, a.y) : Nat × Nat) := by
          rw [← htg2]
          exact nbr_nbr_F hadir hw hh hag
        have hcontra := ha2.2 (F a.direction) (F_mem_dirs _ (mem_dirs_iff.mpr hadir))
        apply hcontra
        have h1 : (⟨(offs w h c2.1 c2.2 (F a.direction)).1,
            (offs w h c2.1 c2.2 (F a.direction)).2, F (F a.direction)⟩ : Xyd) =
            ⟨a.x, a.y, a.direction⟩ := by
          rw [F_F hadir]
          rw [show (offs w h c2.1 c2.2 (F a.direction)) = ((a.x, a.y) : Nat × Nat)
            from hback]
        exact (h1.trans (xyd_eta a)).symm
    · have hz := hcond.2.2
      intro hp
      have hp' : tileAt w tiles2 (nbr w h c2 d) ≠ 0 ∨ nbr w h c2 d = center w h := hp
      rcases hp' with hnz | hcen
      · exact hnz hz
      · have hcne : tileAt w tiles2 (center w h) ≠ 0 :=
          center_tile_ne_zero hw hh hBO2 hBC2 (by simp)
        rw [← hcen] at hcne
        exact hcne hz
  · -- offgrid
    intro hwr c hcg d hd hbit
    replace hbit : bitSet d (tileAt w tiles2 c) := hbit
    by_cases he1 : c = (px, py)
    · subst he1
      rw [h_tc1] at hbit
      by_cases hdd : d = d1
      · subst hdd
        rcases h_vd with hv | hv
        · rw [hwr] at hv
          exact absurd hv (by simp)
        · exact hv
      · rw [bit_or_other _ h_t1lt _ h_d1m _ (mem_dirs_iff.mpr hd) hdd] at hbit
        exact hI.offgrid hwr _ hcg d hd hbit
    · by_cases he2 : c = c2
      · subst he2
        rw [h_tc2] at hbit
        have hdd : d = F d1 := (dir_bit _ h_fd1m _ (mem_dirs_iff.mpr hd)).mp hbit
        subst hdd
        have hstep : stepOk w h (px, py) d1 := by
          rcases h_vd with hv | hv
          · rw [hwr] at hv
            exact absurd hv (by simp)
          · exact hv
        have hres := stepOk_nbr_F h_d1 h_c1g hstep
        rw [h_c2nbr] at hres
        exact hres
      · rw [h_tco c hcg he1 he2] at hbit
        exact hI.offgrid hwr _ hcg d hd hbit
  · -- cnt3
    intro c hcg
    show COUNT (tileAt w tiles2 c) ≤ 3
    by_cases he1 : c = (px, py)
    · subst he1
      rw [h_tc1, count_or_succ _ h_t1lt _ h_d1m h_bit1]
      omega
    · by_cases he2 : c = c2
      · subst he2
        rw [h_tc2]
        have := count_dir _ h_fd1m
        omega
      · rw [h_tco c hcg he1 he2]
        exact hI.cnt3 c hcg
  · -- t3np
    intro c hcg
    show COUNT (tileAt w tiles2 c) = 3 →
      (⟨c.1, c.2, 0x0F ^^^ tileAt w tiles2 c⟩ : Xyd) ∉ poss4
    intro hcnt hmem
    by_cases he1 : c = (px, py)
    · subst he1
      rcases mem_addOut.mp hmem with ha3 | ⟨d, hdm, hcond, heq⟩
      · have ha2 := (mem_pruneInto hnodup2).mp ha3
        have ha1 := (mem_pruneT hnodup1).mp ha2.1
        exact ha1.2 hcnt rfl
      · injection heq with hxx hyy hd3
        exact h_ne12 (Prod.ext_iff.mpr ⟨hxx, hyy⟩)
    · by_cases he2 : c = c2
      · subst he2
        rw [h_tc2] at hcnt
        have := count_dir _ h_fd1m
        omega
      · have htco := h_tco c hcg he1 he2
        rcases mem_addOut.mp hmem with ha3 | ⟨d, hdm, hcond, heq⟩
        · have hmem' := mem4_old _ ha3
          rw [htco] at hmem'
          have hcnt' : COUNT (tileAt w st.tiles c) = 3 := by
            rw [← htco]
            exact hcnt
          exact hI.t3np c hcg hcnt' hmem'
        · injection heq with hxx hyy hd3
          exact he2 (Prod.ext_iff.mpr ⟨hxx, hyy⟩)
  · -- fence
    intro c hcg d hd hp2 hv hn2
    replace hp2 : placed w h tiles2 c := hp2
    replace hn2 : ¬placed w h tiles2 (nbr w h c d) := hn2
    show (⟨c.1, c.2, d⟩ : Xyd) ∈ poss4 ∨ tileAt w tiles2 c = 0x0F ^^^ d ∨
      (c = center w h ∧ initSkip w h d)
    have hdm := mem_dirs_iff.mpr hd
    have hngg : inGrid w h (nbr w h c d) := nbr_inGrid hw hh _ _
    have hn2old : ¬placed w h st.tiles (nbr w h c d) :=
      fun hp => hn2 ((h_pl2 _ hngg).mpr (Or.inl hp))
    have hnc2 : nbr w h c d ≠ c2 :=
      fun he => hn2 ((h_pl2 _ hngg).mpr (Or.inr he))
    by_cases he2 : c = c2
    · subst he2
      by_cases hdd : d = F d1
      · exfalso
        apply hn2
        rw [hdd, h_backc1]
        exact (h_pl2 _ h_c1g).mpr (Or.inl h_c1p)
      · refine Or.inl ?_
        apply mem_addOut.mpr
        refine Or.inr ⟨d, hdm, ⟨hdd, ?_, ?_⟩, rfl⟩
        · rintro ⟨hwr, hb⟩
          have hv' : wrapping = true ∨ stepOk w h c2 d := hv
          have hstep : stepOk w h c2 d := by
            rcases hv' with hv2 | hv2
            · rw [hwr] at hv2
              exact absurd hv2 (by simp)
            · exact hv2
          rcases hb with ⟨rfl, hy⟩ | ⟨rfl, hy⟩ | ⟨rfl, hy⟩ | ⟨rfl, hy⟩
          · have := hstep.2.2.1 rfl
            omega
          · have := hstep.2.2.2 rfl
            have hgy := h_c2g.2
            omega
          · have := hstep.2.1 rfl
            omega
          · have := hstep.1 rfl
            have hgx := h_c2g.1
            omega
        · by_contra hz
          exact hn2 (Or.inl hz)
    · have hpT : placed w h st.tiles c := by
        rcases (h_pl2 c hcg).mp hp2 with hp | hrc2
        · exact hp
        · exact absurd hrc2 he2
      by_cases he1 : c = (px, py)
      · subst he1
        by_cases hdd : d = d1
        · exfalso
          apply hn2
          rw [hdd, h_c2nbr]
          exact (h_pl2 _ h_c2g).mpr (Or.inr rfl)
        · rcases hI.fence _ hcg d hd hpT hv hn2old with hmemP | htile | hskip
          · by_cases hbd : bitSet d (tileAt w tiles2 (px, py))
            · exact absurd (conn_facts hw hh hBO2 hBC2 hPI2 hcg hd hbd).1 hn2
            · by_cases hcnt2 : COUNT (tileAt w tiles2 (px, py)) = 3
              · exact Or.inr (Or.inl
                  (count3_eq_xor _ (tileAt_lt_16 (h := h) h_t2lt _) hcnt2 d hdm hbd))
              · refine Or.inl ?_
                apply mem_addOut.mpr
                refine Or.inl ((mem_pruneInto hnodup2).mpr ⟨(mem_pruneT hnodup1).mpr
                  ⟨(h_rest _).mpr ⟨hmemP, ?_⟩, fun h3 => absurd h3 hcnt2⟩, ?_⟩)
                · intro heq
                  injection heq with hxx hyy hd3
                  exact hdd hd3
                · intro δ hδ heq
                  injection heq with hxx hyy hd3
                  apply hnc2
                  have hcell : ((px, py) : Nat × Nat) = nbr w h c2 δ :=
                    Prod.ext_iff.mpr ⟨hxx, hyy⟩
                  rw [hd3, hcell]
                  exact nbr_nbr_F (mem_dirs_iff.mp hδ) hw hh h_c2g
          · exfalso
            apply h_bit1
            rw [htile]
            exact (fence_tile_bits _ hdm _ h_d1m).mpr (fun he => hdd he.symm)
          · exact Or.inr (Or.inr hskip)
      · rcases hI.fence _ hcg d hd hpT hv hn2old with hmemP | htile | hskip
        · refine Or.inl ?_
          apply mem_addOut.mpr
          refine Or.inl ((mem_pruneInto hnodup2).mpr ⟨(mem_pruneT hnodup1).mpr
            ⟨(h_rest _).mpr ⟨hmemP, ?_⟩, ?_⟩, ?_⟩)
          · intro heq
            injection heq with hxx hyy hd3
            exact he1 (Prod.ext_iff.mpr ⟨hxx, hyy⟩)
          · intro h3 heq
            injection heq with hxx hyy hd3
            exact he1 (Prod.ext_iff.mpr ⟨hxx, hyy⟩)
          · intro δ hδ heq
            injection heq with hxx hyy hd3
            apply hnc2
            have hcell : c = nbr w h c2 δ := Prod.ext_iff.mpr ⟨hxx, hyy⟩
            rw [hd3, hcell]
            exact nbr_nbr_F (mem_dirs_iff.mp hδ) hw hh h_c2g
        · exact Or.inr (Or.inl ((h_tco c hcg he1 he2).trans htile))
        · exact Or.inr (Or.inr hskip)
  · -- births
    exact ⟨(c2, F d1) :: bs, hBO2, hBC2, hPI2, hSUM2⟩
  · -- the count of cells in use grows by one
    show (gridCells w h).countP (fun c => decide (placed w h tiles2 c)) =
      (gridCells w h).countP (fun c => decide (placed w h st.tiles c)) + 1
    apply countP_flip_one gridCells_nodup (mem_gridCells.mpr h_c2g)
    · simp only [decide_eq_false_iff_not]
      exact h_c2np
    · simp only [decide_eq_true_eq]
      exact Or.inl h_tc2nz
    · intro b hb hbne
      have hbg := mem_gridCells.mp hb
      show decide (placed w h st.tiles b) = decide (placed w h tiles2 b)
      apply decide_eq_decide.mpr
      rw [h_pl2 b hbg]
      constructor
      · exact fun hp => Or.inl hp
      · rintro (hp | rfl)
        · exact hp
        · exact absurd rfl hbne

end Net

namespace Net

theorem tIdx_cons_self {e : (Nat × Nat) × Nat} {bs : List ((Nat × Nat) × Nat)} :
    tIdx (e :: bs) e.1 = 0 := by
  rw [show tIdx (e :: bs) e.1 = if e.1 = e.1 then 0 else tIdx bs e.1 + 1 from rfl,
    if_pos rfl]

theorem tIdx_cons_ne {e : (Nat × Nat) × Nat} {bs : List ((Nat × Nat) × Nat)}
    {c : Nat × Nat} (hne : c ≠ e.1) : tIdx (e :: bs) c = tIdx bs c + 1 := by
  rw [show tIdx (e :: bs) c = if e.1 = c then 0 else tIdx bs c + 1 from rfl,
    if_neg (fun he => hne he.symm)]

/-- Each cell is born at most once: two ledger entries with the same cell
have the same direction. -/
theorem entry_dir_unique {w h : Nat} : ∀ {bs : List ((Nat × Nat) × Nat)},
    birthsOk w h bs → ∀ {a : Nat × Nat} {u v : Nat},
    (a, u) ∈ bs → (a, v) ∈ bs → u = v := by
  intro bs
  induction bs with
  | nil => intro _ a u v hu; simp at hu
  | cons e rest ih =>
    intro hb a u v hu hv
    rcases List.mem_cons.mp hu with rfl | hu2
    · rcases List.mem_cons.mp hv with heq | hv2
      · exact (congrArg Prod.snd heq).symm
      · exact absurd (List.mem_map_of_mem Prod.fst hv2) hb.2.2.2.2.2.1
    · rcases List.mem_cons.mp hv with rfl | hv2
      · exact absurd (List.mem_map_of_mem Prod.fst hu2) hb.2.2.2.2.2.1
      · exact ih hb.1 hu2 hv2

/-- A cell is always born strictly later (nearer the front of the ledger)
than its parent. -/
theorem parent_tIdx_lt {w h : Nat} : ∀ {bs : List ((Nat × Nat) × Nat)},
    birthsOk w h bs → ∀ {x : Nat × Nat} {dx : Nat} {y : Nat × Nat} {dy : Nat},
    (x, dx) ∈ bs → (y, dy) ∈ bs → nbr w h x dx = y → tIdx bs x < tIdx bs y := by
  intro bs
  induction bs with
  | nil => intro _ x dx y dy hx; simp at hx
  | cons e rest ih =>
    intro hb x dx y dy hx hy hpar
    have hfresh : e.1 ∉ rest.map Prod.fst := hb.2.2.2.2.2.1
    rcases List.mem_cons.mp hx with rfl | hx2
    · -- x is the newest cell
      rcases List.mem_cons.mp hy with heq | hy2
      · -- y is also the newest entry: then x's parent is x itself
        exfalso
        have h1 : y = x := congrArg Prod.fst heq
        rw [h1] at hpar
        exact hb.2.2.2.1 hpar
      · have hyr : y ∈ rest.map Prod.fst := List.mem_map_of_mem Prod.fst hy2
        have hyx : y ≠ (x, dx).1 := fun he => hfresh (he ▸ hyr)
        rw [tIdx_cons_self, tIdx_cons_ne hyx]
        omega
    · rcases List.mem_cons.mp hy with rfl | hy2
      · -- the parent of an older cell cannot be the newest cell
        exfalso
        rcases birthsOk_parent_mem hb.1 _ hx2 with hc | hm
        · -- the parent would be the centre, but it equals the fresh head cell
          have hcent := (birthsOk_entry hb _ (List.mem_cons_self _ _)).2.2.2
          exact hcent (hpar.symm.trans hc)
        · -- the parent sits deeper in the ledger, but it equals the fresh head
          rw [hpar] at hm
          exact hfresh hm
      · have hxr : x ∈ rest.map Prod.fst := List.mem_map_of_mem Prod.fst hx2
        have hyr : y ∈ rest.map Prod.fst := List.mem_map_of_mem Prod.fst hy2
        have hxe : x ≠ e.1 := fun he => hfresh (he ▸ hxr)
        have hye : y ≠ e.1 := fun he => hfresh (he ▸ hyr)
        rw [tIdx_cons_ne hxe, tIdx_cons_ne hye]
        have := ih hb.1 hx2 hy2 hpar
        omega

theorem exists_min_on_range (f : Nat → Nat) :
    ∀ n : Nat, 0 < n → ∃ j, j < n ∧ ∀ i < n, f j ≤ f i := by
  intro n
  induction n with
  | zero => intro hn; omega
  | succ m ih =>
    intro _
    rcases Nat.eq_zero_or_pos m with rfl | hm
    · refine ⟨0, by omega, ?_⟩
      intro i hi
      have : i = 0 := by omega
      rw [this]
    · obtain ⟨j, hj, hmin⟩ := ih hm
      by_cases hle : f j ≤ f m
      · refine ⟨j, by omega, ?_⟩
        intro i hi
        rcases Nat.lt_succ_iff_lt_or_eq.mp hi with hlt | rfl
        · exact hmin i hlt
        · exact hle
      · refine ⟨m, by omega, ?_⟩
        intro i hi
        rcases Nat.lt_succ_iff_lt_or_eq.mp hi with hlt | rfl
        · have := hmin i hlt
          omega
        · exact Nat.le_refl _

/-- No cycle: a periodic non-backtracking walk along set connection bits is
impossible while the ledger invariant holds. -/
theorem walk_contra {w h : Nat} {tiles : List Nat} {bs : List ((Nat × Nat) × Nat)}
    (hw : 0 < w) (hh : 0 < h) (hBO : birthsOk w h bs) (hBC : bitChar w h tiles bs)
    {n : Nat} {E : Nat → (Nat × Nat) × Nat} (hCW : closedWalk w h tiles n E) :
    False := by
  obtain ⟨hn, hper, hdir, hbit, hchain, hnb⟩ := hCW
  have hsel : ∀ k : Nat, ∃ p : (Nat × Nat) × Nat, p ∈ bs ∧
      (p = ((E k).1, (E k).2) ∨ p = (nbr w h (E k).1 (E k).2, F (E k).2)) := by
    intro k
    have hb := hbit k
    rw [hBC _ (hdir k).1 _ (hdir k).2] at hb
    rcases hb with hm | hm
    · exact ⟨_, hm, Or.inl rfl⟩
    · exact ⟨_, hm, Or.inr rfl⟩
  choose sel hselmem hselcase using hsel
  obtain ⟨j, hjn, hjmin⟩ := exists_min_on_range (fun i => tIdx bs (sel i).1) n hn
  have hEwrap : E (j + n) = E j := by
    rw [hper (j + n), Nat.add_mod_right, Nat.mod_eq_of_lt hjn]
  rcases hselcase j with hcJ | hcJ
  · -- the entry for edge j is the edge's source cell; look at the previous edge
    have hj0 : E (j + n - 1) = E ((j + n - 1) % n) := hper _
    have hj0n : (j + n - 1) % n < n := Nat.mod_lt _ hn
    have hplus : j + n - 1 + 1 = j + n := by omega
    have hchain0 : (E j).1 = nbr w h (E ((j + n - 1) % n)).1 (E ((j + n - 1) % n)).2 := by
      have := hchain (j + n - 1)
      rw [hplus, hEwrap, hj0] at this
      exact this
    have hnb0 : (E j).2 ≠ F (E ((j + n - 1) % n)).2 := by
      have := hnb (j + n - 1)
      rw [hplus, hEwrap, hj0] at this
      exact this
    have hmemj := hselmem j
    rw [hcJ] at hmemj
    rcases hselcase ((j + n - 1) % n) with hc0 | hc0
    · have hmem0 := hselmem ((j + n - 1) % n)
      rw [hc0] at hmem0
      have hlt := parent_tIdx_lt hBO hmem0 hmemj hchain0.symm
      have hge := hjmin _ hj0n
      rw [hcJ, hc0] at hge
      simp only at hge hlt
      omega
    · have hmem0 := hselmem ((j + n - 1) % n)
      rw [hc0, ← hchain0] at hmem0
      have := entry_dir_unique hBO hmemj hmem0
      exact hnb0 this
  · -- the entry for edge j is the edge's target cell; look at the next edge
    have hj1 : E (j + 1) = E ((j + 1) % n) := hper _
    have hj1n : (j + 1) % n < n := Nat.mod_lt _ hn
    have hchainj : (E (j + 1)).1 = nbr w h (E j).1 (E j).2 := hchain j
    have hmemj := hselmem j
    rw [hcJ] at hmemj
    have hmemj' : ((E (j + 1)).1, F (E j).2) ∈ bs := by
      rw [hchainj]
      exact hmemj
    rcases hselcase ((j + 1) % n) with hc1 | hc1
    · have hmem1 := hselmem ((j + 1) % n)
      rw [hc1, ← hj1] at hmem1
      have := entry_dir_unique hBO hmem1 hmemj'
      exact hnb j this
    · have hmem1 := hselmem ((j + 1) % n)
      rw [hc1, ← hj1] at hmem1
      have hcancel : nbr w h (nbr w h (E (j + 1)).1 (E (j + 1)).2) (F (E (j + 1)).2) =
          (E (j + 1)).1 :=
        nbr_nbr_F (hdir (j + 1)).2 hw hh (hdir (j + 1)).1
      have hlt := parent_tIdx_lt hBO hmem1 hmemj' hcancel
      have hge := hjmin _ hj1n
      rw [hcJ, hc1, ← hj1] at hge
      simp only at hge hlt
      rw [← hchainj] at hge
      omega

end Net

namespace Net

theorem ne_F_A : ∀ d ∈ dirs, d ≠ F (A d) := by decide

theorem stepOk_R {w h : Nat} {c : Nat × Nat} : stepOk w h c R ↔ c.1 + 1 < w := by
  unfold stepOk
  constructor
  · intro hs
    exact hs.1 rfl
  · intro hx
    exact ⟨fun _ => hx, fun h2 => absurd h2 (by decide), fun h2 => absurd h2 (by decide),
      fun h2 => absurd h2 (by decide)⟩

theorem stepOk_L {w h : Nat} {c : Nat × Nat} : stepOk w h c L ↔ 1 ≤ c.1 := by
  unfold stepOk
  constructor
  · intro hs
    exact hs.2.1 rfl
  · intro hx
    exact ⟨fun h2 => absurd h2 (by decide), fun _ => hx, fun h2 => absurd h2 (by decide),
      fun h2 => absurd h2 (by decide)⟩

theorem stepOk_U {w h : Nat} {c : Nat × Nat} : stepOk w h c U ↔ 1 ≤ c.2 := by
  unfold stepOk
  constructor
  · intro hs
    exact hs.2.2.1 rfl
  · intro hx
    exact ⟨fun h2 => absurd h2 (by decide), fun h2 => absurd h2 (by decide), fun _ => hx,
      fun h2 => absurd h2 (by decide)⟩

theorem stepOk_D {w h : Nat} {c : Nat × Nat} : stepOk w h c D ↔ c.2 + 1 < h := by
  unfold stepOk
  constructor
  · intro hs
    exact hs.2.2.2 rfl
  · intro hx
    exact ⟨fun h2 => absurd h2 (by decide), fun h2 => absurd h2 (by decide),
      fun h2 => absurd h2 (by decide), fun _ => hx⟩

theorem nbr_fst_vert {w h : Nat} {c : Nat × Nat} {d : Nat} (hd : d = U ∨ d = D)
    (hx : c.1 < w) : (nbr w h c d).1 = c.1 := by
  have hw : 0 < w := Nat.lt_of_le_of_lt (Nat.zero_le _) hx
  unfold nbr
  rw [offs_eq_wrapAdd]
  rcases hd with rfl | rfl
  · show wrapAdd w c.1 (Xd U) = c.1
    rw [show Xd U = 0 from by decide, wrapAdd_zero hw hx]
  · show wrapAdd w c.1 (Xd D) = c.1
    rw [show Xd D = 0 from by decide, wrapAdd_zero hw hx]

theorem nbr_snd_horiz {w h : Nat} {c : Nat × Nat} {d : Nat} (hd : d = R ∨ d = L)
    (hy : c.2 < h) : (nbr w h c d).2 = c.2 := by
  have hh : 0 < h := Nat.lt_of_le_of_lt (Nat.zero_le _) hy
  unfold nbr
  rw [offs_eq_wrapAdd]
  rcases hd with rfl | rfl
  · show wrapAdd h c.2 (Yd R) = c.2
    rw [show Yd R = 0 from by decide, wrapAdd_zero hh hy]
  · show wrapAdd h c.2 (Yd L) = c.2
    rw [show Yd L = 0 from by decide, wrapAdd_zero hh hy]

/-- Moving perpendicular to a direction preserves the ability to step in
that direction without wrapping. -/
theorem stepOk_perp {w h : Nat} {c : Nat × Nat} {d e : Nat} (hd : isDir d)
    (he : isDir e) (h1 : e ≠ d) (h2 : e ≠ F d) (hc : inGrid w h c)
    (hs : stepOk w h c e) : stepOk w h (nbr w h c d) e := by
  rcases hd with rfl | rfl | rfl | rfl <;> rcases he with rfl | rfl | rfl | rfl <;>
    first
      | exact absurd rfl h1
      | exact absurd rfl h2
      | (rw [stepOk_R] at hs ⊢
         rw [nbr_fst_vert (by decide) hc.1]
         exact hs)
      | (rw [stepOk_L] at hs ⊢
         rw [nbr_fst_vert (by decide) hc.1]
         exact hs)
      | (rw [stepOk_U] at hs ⊢
         rw [nbr_snd_horiz (by decide) hc.2]
         exact hs)
      | (rw [stepOk_D] at hs ⊢
         rw [nbr_snd_horiz (by decide) hc.2]
         exact hs)

theorem minv_state {w h : Nat} {wrapping : Bool} {tiles : List Nat}
    {m : (Nat × Nat) × Nat × Bool} (hm : minv w h wrapping tiles m) :
    inGrid w h m.1 ∧ isDir m.2.1 := by
  obtain ⟨p, d, b⟩ := m
  cases b with
  | false =>
    have hBE : boundaryEdge w h wrapping tiles p d := hm
    exact ⟨hBE.1, hBE.2.1⟩
  | true =>
    have hmid : isDir d ∧ inGrid w h p ∧
        boundaryEdge w h wrapping tiles (nbr w h p d) (F (A d)) := hm
    exact ⟨hmid.2.1, hmid.1⟩

theorem minv_edir {w h : Nat} {wrapping : Bool} {tiles : List Nat}
    {m : (Nat × Nat) × Nat × Bool} (hm : minv w h wrapping tiles m) :
    inGrid w h (emitE m).1 ∧ isDir (emitE m).2 := by
  obtain ⟨p, d, b⟩ := m
  cases b with
  | false =>
    have hBE : boundaryEdge w h wrapping tiles p d := hm
    exact ⟨hBE.1, isDir_A hBE.2.1⟩
  | true =>
    have hmid : isDir d ∧ inGrid w h p ∧
        boundaryEdge w h wrapping tiles (nbr w h p d) (F (A d)) := hm
    exact ⟨hmid.2.1, hmid.1⟩

end Net

namespace Net

/-- The machine invariant is preserved by a transition. -/
theorem minv_step {w h : Nat} {wrapping : Bool} {tiles : List Nat}
    {bs : List ((Nat × Nat) × Nat)}
    (hw : 0 < w) (hh : 0 < h) (hBO : birthsOk w h bs) (hBC : bitChar w h tiles bs)
    (hPI : ∀ c, inGrid w h c →
      (placed w h tiles c ↔ (c = center w h ∨ c ∈ bs.map Prod.fst)))
    (hOG : wrapping = false → ∀ c, inGrid w h c → ∀ d, isDir d →
      bitSet d (tileAt w tiles c) → stepOk w h c d)
    (hfence : ∀ p d, boundaryEdge w h wrapping tiles p d →
      tileAt w tiles p = 0x0F ^^^ d)
    {m : (Nat × Nat) × Nat × Bool} (hm : minv w h wrapping tiles m) :
    minv w h wrapping tiles (mstep w h tiles m) := by
  obtain ⟨p, d, b⟩ := m
  cases b with
  | false =>
    have hBE : boundaryEdge w h wrapping tiles p d := hm
    obtain ⟨hpg, hd, hpp, hpv, hnp⟩ := hBE
    have hft : tileAt w tiles p = 0x0F ^^^ d := hfence p d hm
    have hdm : d ∈ dirs := mem_dirs_iff.mpr hd
    have hAd : isDir (A d) := isDir_A hd
    have hAdm : A d ∈ dirs := A_mem_dirs _ hdm
    have hbitA : bitSet (A d) (tileAt w tiles p) := by
      rw [hft]
      exact (fence_tile_bits _ hdm _ hAdm).mpr (A_ne_self _ hdm)
    have hcf := conn_facts hw hh hBO hBC hPI hpg hAd hbitA
    have hsg : inGrid w h (nbr w h p (A d)) := nbr_inGrid hw hh _ _
    have hsOk : wrapping = false → stepOk w h p (A d) :=
      fun hwf => hOG hwf _ hpg _ hAd hbitA
    rw [show mstep w h tiles (p, d, false) =
      if placed w h tiles (nbr w h (nbr w h p (A d)) d) then (nbr w h p (A d), d, true)
      else (nbr w h p (A d), d, false) from rfl]
    by_cases ht : placed w h tiles (nbr w h (nbr w h p (A d)) d)
    · rw [if_pos ht]
      show isDir d ∧ inGrid w h (nbr w h p (A d)) ∧
        boundaryEdge w h wrapping tiles (nbr w h (nbr w h p (A d)) d) (F (A d))
      refine ⟨hd, hsg, nbr_inGrid hw hh _ _, isDir_F hAd, ht, ?_, ?_⟩
      · by_cases hwr : wrapping = true
        · exact Or.inl hwr
        · have hwf : wrapping = false := by
            cases wrapping with
            | false => rfl
            | true => exact absurd rfl hwr
          refine Or.inr ?_
          have h1 : stepOk w h p (A d) := hsOk hwf
          have h2 : stepOk w h (nbr w h p (A d)) (F (A d)) := stepOk_nbr_F hAd hpg h1
          exact stepOk_perp hd (isDir_F hAd) (Ne.symm (ne_F_A _ hdm))
            (fun he => A_ne_self _ hdm (F_inj_dirs _ hAdm _ hdm he)) hsg h2
      · have hcomm : nbr w h (nbr w h p (A d)) d = nbr w h (nbr w h p d) (A d) :=
          nbr_comm hw hh p (A d) d
        have hcancel : nbr w h (nbr w h (nbr w h p (A d)) d) (F (A d)) = nbr w h p d := by
          rw [hcomm, nbr_nbr_F hAd hw hh (nbr_inGrid hw hh _ _)]
        rw [hcancel]
        exact hnp
    · rw [if_neg ht]
      show boundaryEdge w h wrapping tiles (nbr w h p (A d)) d
      refine ⟨hsg, hd, hcf.1, ?_, ht⟩
      by_cases hwr : wrapping = true
      · exact Or.inl hwr
      · have hwf : wrapping = false := by
          cases wrapping with
          | false => rfl
          | true => exact absurd rfl hwr
        refine Or.inr ?_
        have h1 : stepOk w h p d := by
          rcases hpv with hv | hv
          · rw [hwf] at hv
            exact absurd hv (by simp)
          · exact hv
        exact stepOk_perp hAd hd (Ne.symm (A_ne_self _ hdm)) (ne_F_A _ hdm) hpg h1
  | true =>
    have hmid : isDir d ∧ inGrid w h p ∧
        boundaryEdge w h wrapping tiles (nbr w h p d) (F (A d)) := hm
    rw [show mstep w h tiles (p, d, true) = (nbr w h p d, F (A d), false) from rfl]
    exact hmid.2.2

/-- The edge traversed on leaving a machine state carries a set bit. -/
theorem minv_ebit {w h : Nat} {wrapping : Bool} {tiles : List Nat}
    {bs : List ((Nat × Nat) × Nat)}
    (hw : 0 < w) (hh : 0 < h) (hBO : birthsOk w h bs) (hBC : bitChar w h tiles bs)
    (hPI : ∀ c, inGrid w h c →
      (placed w h tiles c ↔ (c = center w h ∨ c ∈ bs.map Prod.fst)))
    (hfence : ∀ p d, boundaryEdge w h wrapping tiles p d →
      tileAt w tiles p = 0x0F ^^^ d)
    {m : (Nat × Nat) × Nat × Bool} (hm : minv w h wrapping tiles m) :
    bitSet (emitE m).2 (tileAt w tiles (emitE m).1) := by
  obtain ⟨p, d, b⟩ := m
  cases b with
  | false =>
    have hBE : boundaryEdge w h wrapping tiles p d := hm
    show bitSet (A d) (tileAt w tiles p)
    have hdm : d ∈ dirs := mem_dirs_iff.mpr hBE.2.1
    rw [hfence p d hBE]
    exact (fence_tile_bits _ hdm _ (A_mem_dirs _ hdm)).mpr (A_ne_self _ hdm)
  | true =>
    have hmid : isDir d ∧ inGrid w h p ∧
        boundaryEdge w h wrapping tiles (nbr w h p d) (F (A d)) := hm
    show bitSet d (tileAt w tiles p)
    have hd := hmid.1
    have hpg := hmid.2.1
    have hBE := hmid.2.2
    have hdm : d ∈ dirs := mem_dirs_iff.mpr hd
    have htg : inGrid w h (nbr w h p d) := nbr_inGrid hw hh _ _
    have hbitFd : bitSet (F d) (tileAt w tiles (nbr w h p d)) := by
      rw [hfence _ _ hBE]
      refine (fence_tile_bits _ (F_mem_dirs _ (A_mem_dirs _ hdm)) _
        (F_mem_dirs _ hdm)).mpr ?_
      exact fun he => A_ne_self _ hdm ((F_inj_dirs _ hdm _ (A_mem_dirs _ hdm) he).symm)
    have hcf := conn_facts hw hh hBO hBC hPI htg (isDir_F hd) hbitFd
    have hcan : nbr w h (nbr w h p d) (F d) = p := nbr_nbr_F hd hw hh hpg
    have hres := hcf.2.2.1
    rw [hcan, F_F hd] at hres
    exact hres

theorem minv_echain {w h : Nat} {wrapping : Bool} {tiles : List Nat}
    {m : (Nat × Nat) × Nat × Bool} (hm : minv w h wrapping tiles m) :
    (emitE (mstep w h tiles m)).1 = nbr w h (emitE m).1 (emitE m).2 := by
  obtain ⟨p, d, b⟩ := m
  cases b with
  | false =>
    rw [show mstep w h tiles (p, d, false) =
      if placed w h tiles (nbr w h (nbr w h p (A d)) d) then (nbr w h p (A d), d, true)
      else (nbr w h p (A d), d, false) from rfl]
    by_cases ht : placed w h tiles (nbr w h (nbr w h p (A d)) d)
    · rw [if_pos ht]
      rfl
    · rw [if_neg ht]
      rfl
  | true => rfl

theorem minv_enb {w h : Nat} {wrapping : Bool} {tiles : List Nat}
    {m : (Nat × Nat) × Nat × Bool} (hm : minv w h wrapping tiles m) :
    (emitE (mstep w h tiles m)).2 ≠ F (emitE m).2 := by
  obtain ⟨p, d, b⟩ := m
  cases b with
  | false =>
    have hBE : boundaryEdge w h wrapping tiles p d := hm
    have hdm : d ∈ dirs := mem_dirs_iff.mpr hBE.2.1
    rw [show mstep w h tiles (p, d, false) =
      if placed w h tiles (nbr w h (nbr w h p (A d)) d) then (nbr w h p (A d), d, true)
      else (nbr w h p (A d), d, false) from rfl]
    by_cases ht : placed w h tiles (nbr w h (nbr w h p (A d)) d)
    · rw [if_pos ht]
      show d ≠ F (A d)
      exact ne_F_A _ hdm
    · rw [if_neg ht]
      show A d ≠ F (A d)
      exact Ne.symm (F_ne_self _ (A_mem_dirs _ hdm))
  | true =>
    have hmid : isDir d ∧ inGrid w h p ∧
        boundaryEdge w h wrapping tiles (nbr w h p d) (F (A d)) := hm
    have hdm : d ∈ dirs := mem_dirs_iff.mpr hmid.1
    show A (F (A d)) ≠ F d
    rw [A_F_A _ hdm]
    exact Ne.symm (F_ne_self _ hdm)

end Net

namespace Net

/-- From a repeated machine state, extract a closed walk and contradict the
ledger: the wall of the unreached region cannot close up. -/
theorem walk_from_period {w h : Nat} {wrapping : Bool} {tiles : List Nat}
    {bs : List ((Nat × Nat) × Nat)}
    (hw : 0 < w) (hh : 0 < h) (hBO : birthsOk w h bs) (hBC : bitChar w h tiles bs)
    (hPI : ∀ c, inGrid w h c →
      (placed w h tiles c ↔ (c = center w h ∨ c ∈ bs.map Prod.fst)))
    (hfence : ∀ p d, boundaryEdge w h wrapping tiles p d →
      tileAt w tiles p = 0x0F ^^^ d)
    {m0 : (Nat × Nat) × Nat × Bool}
    (hminv : ∀ k, minv w h wrapping tiles (mrun w h tiles m0 k))
    {i n : Nat} (hn : 0 < n)
    (hMper : mrun w h tiles m0 (i + n) = mrun w h tiles m0 i) : False := by
  have hidx : ∀ k, mrun w h tiles m0 (i + (k + 1) % n) =
      mstep w h tiles (mrun w h tiles m0 (i + k % n)) := by
    intro k
    have hrw : k + 1 = k % n + 1 + n * (k / n) := by
      have := Nat.mod_add_div k n
      omega
    by_cases hk : k % n + 1 = n
    · have h1 : (k + 1) % n = 0 := by
        rw [hrw, Nat.add_mul_mod_self_left, hk, Nat.mod_self]
      have h2 : i + k % n + 1 = i + n := by omega
      rw [h1, Nat.add_zero, ← hMper, ← h2]
      rfl
    · have h1 : (k + 1) % n = k % n + 1 := by
        rw [hrw, Nat.add_mul_mod_self_left]
        refine Nat.mod_eq_of_lt ?_
        have := Nat.mod_lt k hn
        omega
      rw [h1, ← Nat.add_assoc]
      rfl
  refine walk_contra hw hh hBO hBC
    (n := n) (E := fun k => emitE (mrun w h tiles m0 (i + k % n)))
    ⟨hn, ?_, ?_, ?_, ?_, ?_⟩
  · intro k
    have hmm : k % n % n = k % n := Nat.mod_eq_of_lt (Nat.mod_lt _ hn)
    simp only [hmm]
  · intro k
    exact minv_edir (hminv _)
  · intro k
    exact minv_ebit hw hh hBO hBC hPI hfence (hminv _)
  · intro k
    simp only
    rw [hidx k]
    exact minv_echain (hminv _)
  · intro k
    simp only
    rw [hidx k]
    exact minv_enb (hminv _)

/-- If every boundary edge is a fence, there is no boundary edge at all: the
wall-following walk would have to close into a cycle. -/
theorem no_boundaryEdge {w h : Nat} {wrapping : Bool} {tiles : List Nat}
    {bs : List ((Nat × Nat) × Nat)}
    (hw : 0 < w) (hh : 0 < h) (hBO : birthsOk w h bs) (hBC : bitChar w h tiles bs)
    (hPI : ∀ c, inGrid w h c →
      (placed w h tiles c ↔ (c = center w h ∨ c ∈ bs.map Prod.fst)))
    (hOG : wrapping = false → ∀ c, inGrid w h c → ∀ d, isDir d →
      bitSet d (tileAt w tiles c) → stepOk w h c d)
    (hfence : ∀ p d, boundaryEdge w h wrapping tiles p d →
      tileAt w tiles p = 0x0F ^^^ d)
    {p0 : Nat × Nat} {d0 : Nat}
    (hBE : boundaryEdge w h wrapping tiles p0 d0) : False := by
  have hminv : ∀ k, minv w h wrapping tiles (mrun w h tiles (p0, d0, false) k) := by
    intro k
    induction k with
    | zero => exact hBE
    | succ m ih => exact minv_step hw hh hBO hBC hPI hOG hfence ih
  have hstate : ∀ k, inGrid w h (mrun w h tiles (p0, d0, false) k).1 ∧
      isDir (mrun w h tiles (p0, d0, false) k).2.1 :=
    fun k => minv_state (hminv k)
  have hc4 : ({R, U, L, D} : Finset Nat).card = 4 := by decide
  have hc2 : (Finset.univ : Finset Bool).card = 2 := by decide
  have hcard : ((Finset.range w ×ˢ Finset.range h) ×ˢ
      (({R, U, L, D} : Finset Nat) ×ˢ (Finset.univ : Finset Bool))).card = w * h * 8 := by
    rw [Finset.card_product, Finset.card_product, Finset.card_product,
      Finset.card_range, Finset.card_range, hc4, hc2]
  have hmaps : ∀ k ∈ Finset.range (w * h * 8 + 1),
      mrun w h tiles (p0, d0, false) k ∈ (Finset.range w ×ˢ Finset.range h) ×ˢ
        (({R, U, L, D} : Finset Nat) ×ˢ (Finset.univ : Finset Bool)) := by
    intro k _
    have hs := hstate k
    simp only [Finset.mem_product, Finset.mem_range, Finset.mem_univ, and_true]
    refine ⟨⟨hs.1.1, hs.1.2⟩, ?_⟩
    rcases hs.2 with h2 | h2 | h2 | h2 <;> rw [h2] <;> decide
  have hlt : ((Finset.range w ×ˢ Finset.range h) ×ˢ
      (({R, U, L, D} : Finset Nat) ×ˢ (Finset.univ : Finset Bool))).card <
      (Finset.range (w * h * 8 + 1)).card := by
    rw [hcard, Finset.card_range]
    omega
  obtain ⟨i, hi, j, hj, hij, heq⟩ :=
    Finset.exists_ne_map_eq_of_card_lt_of_maps_to hlt hmaps
  rcases Nat.lt_or_ge i j with hij2 | hij2
  · refine walk_from_period hw hh hBO hBC hPI hfence hminv
      (i := i) (n := j - i) (by omega) ?_
    rw [show i + (j - i) = j from by omega]
    exact heq.symm
  · have hij3 : j < i := by
      rcases Nat.lt_or_ge j i with hlt2 | hge2
      · exact hlt2
      · omega
    refine walk_from_period hw hh hBO hBC hPI hfence hminv
      (i := j) (n := i - j) (by omega) ?_
    rw [show j + (i - j) = i from by omega]
    exact heq

end Net

namespace Net

theorem wrapAdd_w1 (x : Nat) (e : Int) : wrapAdd 1 x e = 0 := by
  unfold wrapAdd
  omega

theorem nbr_self_w1 {h : Nat} {c : Nat × Nat} {d : Nat} (hc : inGrid 1 h c)
    (hd : d = R ∨ d = L) : nbr 1 h c d = c := by
  have hh : 0 < h := Nat.lt_of_le_of_lt (Nat.zero_le _) hc.2
  have hx : c.1 = 0 := by have := hc.1; omega
  unfold nbr
  rw [offs_eq_wrapAdd]
  rcases hd with rfl | rfl
  · refine Prod.ext_iff.mpr ⟨?_, ?_⟩
    · show wrapAdd 1 c.1 (Xd R) = c.1
      rw [wrapAdd_w1, hx]
    · show wrapAdd h c.2 (Yd R) = c.2
      rw [show Yd R = 0 from by decide, wrapAdd_zero hh hc.2]
  · refine Prod.ext_iff.mpr ⟨?_, ?_⟩
    · show wrapAdd 1 c.1 (Xd L) = c.1
      rw [wrapAdd_w1, hx]
    · show wrapAdd h c.2 (Yd L) = c.2
      rw [show Yd L = 0 from by decide, wrapAdd_zero hh hc.2]

theorem wrapAdd_h1 (y : Nat) (e : Int) : wrapAdd 1 y e = 0 := wrapAdd_w1 y e

theorem nbr_self_h1 {w : Nat} {c : Nat × Nat} {d : Nat} (hc : inGrid w 1 c)
    (hd : d = U ∨ d = D) : nbr w 1 c d = c := by
  have hw : 0 < w := Nat.lt_of_le_of_lt (Nat.zero_le _) hc.1
  have hy : c.2 = 0 := by have := hc.2; omega
  unfold nbr
  rw [offs_eq_wrapAdd]
  rcases hd with rfl | rfl
  · refine Prod.ext_iff.mpr ⟨?_, ?_⟩
    · show wrapAdd w c.1 (Xd U) = c.1
      rw [show Xd U = 0 from by decide, wrapAdd_zero hw hc.1]
    · show wrapAdd 1 c.2 (Yd U) = c.2
      rw [wrapAdd_h1, hy]
  · refine Prod.ext_iff.mpr ⟨?_, ?_⟩
    · show wrapAdd w c.1 (Xd D) = c.1
      rw [show Xd D = 0 from by decide, wrapAdd_zero hw hc.1]
    · show wrapAdd 1 c.2 (Yd D) = c.2
      rw [wrapAdd_h1, hy]

theorem nbr_companion_w2 {h : Nat} {c : Nat × Nat} (hc : inGrid 2 h c) :
    nbr 2 h c R = nbr 2 h c L := by
  unfold nbr
  rw [offs_eq_wrapAdd, offs_eq_wrapAdd]
  refine Prod.ext_iff.mpr ⟨?_, ?_⟩
  · show wrapAdd 2 c.1 (Xd R) = wrapAdd 2 c.1 (Xd L)
    rw [show Xd R = 1 from by decide, show Xd L = -1 from by decide]
    unfold wrapAdd
    congr 1
    omega
  · show wrapAdd h c.2 (Yd R) = wrapAdd h c.2 (Yd L)
    rw [show Yd R = 0 from by decide, show Yd L = 0 from by decide]

theorem nbr_companion_h2 {w : Nat} {c : Nat × Nat} (hc : inGrid w 2 c) :
    nbr w 2 c U = nbr w 2 c D := by
  unfold nbr
  rw [offs_eq_wrapAdd, offs_eq_wrapAdd]
  refine Prod.ext_iff.mpr ⟨?_, ?_⟩
  · show wrapAdd w c.1 (Xd U) = wrapAdd w c.1 (Xd D)
    rw [show Xd U = 0 from by decide, show Xd D = 0 from by decide]
  · show wrapAdd 2 c.2 (Yd U) = wrapAdd 2 c.2 (Yd D)
    rw [show Yd U = -1 from by decide, show Yd D = 1 from by decide]
    unfold wrapAdd
    congr 1
    omega

theorem initSkip_R_le {w h : Nat} (hs : initSkip w h R) : w ≤ 2 := by
  have hs' : (R = R ∧ ¬(w / 2 + 1 < w)) ∨ (R = U ∧ ¬(1 ≤ h / 2)) ∨
      (R = L ∧ ¬(1 ≤ w / 2)) ∨ (R = D ∧ ¬(h / 2 + 1 < h)) := hs
  rcases hs' with ⟨-, hb⟩ | ⟨he, -⟩ | ⟨he, -⟩ | ⟨he, -⟩
  · omega
  · exact absurd he (by decide)
  · exact absurd he (by decide)
  · exact absurd he (by decide)

theorem initSkip_L_le {w h : Nat} (hs : initSkip w h L) : w ≤ 1 := by
  have hs' : (L = R ∧ ¬(w / 2 + 1 < w)) ∨ (L = U ∧ ¬(1 ≤ h / 2)) ∨
      (L = L ∧ ¬(1 ≤ w / 2)) ∨ (L = D ∧ ¬(h / 2 + 1 < h)) := hs
  rcases hs' with ⟨he, -⟩ | ⟨he, -⟩ | ⟨-, hb⟩ | ⟨he, -⟩
  · exact absurd he (by decide)
  · exact absurd he (by decide)
  · omega
  · exact absurd he (by decide)

theorem initSkip_U_le {w h : Nat} (hs : initSkip w h U) : h ≤ 1 := by
  have hs' : (U = R ∧ ¬(w / 2 + 1 < w)) ∨ (U = U ∧ ¬(1 ≤ h / 2)) ∨
      (U = L ∧ ¬(1 ≤ w / 2)) ∨ (U = D ∧ ¬(h / 2 + 1 < h)) := hs
  rcases hs' with ⟨he, -⟩ | ⟨-, hb⟩ | ⟨he, -⟩ | ⟨he, -⟩
  · exact absurd he (by decide)
  · omega
  · exact absurd he (by decide)
  · exact absurd he (by decide)

theorem initSkip_D_le {w h : Nat} (hs : initSkip w h D) : h ≤ 2 := by
  have hs' : (D = R ∧ ¬(w / 2 + 1 < w)) ∨ (D = U ∧ ¬(1 ≤ h / 2)) ∨
      (D = L ∧ ¬(1 ≤ w / 2)) ∨ (D = D ∧ ¬(h / 2 + 1 < h)) := hs
  rcases hs' with ⟨he, -⟩ | ⟨he, -⟩ | ⟨he, -⟩ | ⟨-, hb⟩
  · exact absurd he (by decide)
  · exact absurd he (by decide)
  · exact absurd he (by decide)
  · omega

end Net

namespace Net

theorem pathOk_append {w h : Nat} : ∀ {ds1 : List Nat} {c m u : Nat × Nat}
    {ds2 : List Nat}, pathOk w h c ds1 m → pathOk w h m ds2 u →
    pathOk w h c (ds1 ++ ds2) u := by
  intro ds1
  induction ds1 with
  | nil =>
    intro c m u ds2 h1 h2
    have hcm : c = m := h1
    rw [List.nil_append, hcm]
    exact h2
  | cons d rest ih =>
    intro c m u ds2 h1 h2
    have h1' : isDir d ∧ stepOk w h c d ∧ pathOk w h (nbr w h c d) rest m := h1
    exact show isDir d ∧ stepOk w h c d ∧ pathOk w h (nbr w h c d) (rest ++ ds2) u from
      ⟨h1'.1, h1'.2.1, ih h1'.2.2 h2⟩

theorem reach_R {w h : Nat} : ∀ k : Nat, ∀ {x y : Nat}, x + k < w → y < h →
    ∃ ds, pathOk w h (x, y) ds (x + k, y) := by
  intro k
  induction k with
  | zero => intro x y _ _; exact ⟨[], rfl⟩
  | succ n ih =>
    intro x y hxk hy
    have hx1 : x + 1 < w := by omega
    obtain ⟨ds, hds⟩ := ih (x := x + 1) (by omega) hy
    refine ⟨R :: ds, show isDir R ∧ stepOk w h (x, y) R ∧
      pathOk w h (nbr w h (x, y) R) ds (x + (n + 1), y) from ⟨isDir_R, ?_, ?_⟩⟩
    · exact stepOk_R.mpr hx1
    · rw [nbr_R ⟨by omega, hy⟩ hx1]
      rw [show x + (n + 1) = x + 1 + n from by omega]
      exact hds

theorem reach_L {w h : Nat} : ∀ k : Nat, ∀ {x y : Nat}, x < w → y < h → k ≤ x →
    ∃ ds, pathOk w h (x, y) ds (x - k, y) := by
  intro k
  induction k with
  | zero => intro x y _ _ _; exact ⟨[], rfl⟩
  | succ n ih =>
    intro x y hx hy hk
    have hx1 : 1 ≤ x := by omega
    obtain ⟨ds, hds⟩ := ih (x := x - 1) (by omega) hy (by omega)
    refine ⟨L :: ds, show isDir L ∧ stepOk w h (x, y) L ∧
      pathOk w h (nbr w h (x, y) L) ds (x - (n + 1), y) from ⟨isDir_L, ?_, ?_⟩⟩
    · exact stepOk_L.mpr hx1
    · rw [nbr_L ⟨hx, hy⟩ hx1]
      rw [show x - (n + 1) = x - 1 - n from by omega]
      exact hds

theorem reach_D {w h : Nat} : ∀ k : Nat, ∀ {x y : Nat}, x < w → y + k < h →
    ∃ ds, pathOk w h (x, y) ds (x, y + k) := by
  intro k
  induction k with
  | zero => intro x y _ _; exact ⟨[], rfl⟩
  | succ n ih =>
    intro x y hx hyk
    have hy1 : y + 1 < h := by omega
    obtain ⟨ds, hds⟩ := ih (y := y + 1) hx (by omega)
    refine ⟨D :: ds, show isDir D ∧ stepOk w h (x, y) D ∧
      pathOk w h (nbr w h (x, y) D) ds (x, y + (n + 1)) from ⟨isDir_D, ?_, ?_⟩⟩
    · exact stepOk_D.mpr hy1
    · rw [nbr_D ⟨hx, by omega⟩ hy1]
      rw [show y + (n + 1) = y + 1 + n from by omega]
      exact hds

theorem reach_U {w h : Nat} : ∀ k : Nat, ∀ {x y : Nat}, x < w → y < h → k ≤ y →
    ∃ ds, pathOk w h (x, y) ds (x, y - k) := by
  intro k
  induction k with
  | zero => intro x y _ _ _; exact ⟨[], rfl⟩
  | succ n ih =>
    intro x y hx hy hk
    have hy1 : 1 ≤ y := by omega
    obtain ⟨ds, hds⟩ := ih (y := y - 1) hx (by omega) (by omega)
    refine ⟨U :: ds, show isDir U ∧ stepOk w h (x, y) U ∧
      pathOk w h (nbr w h (x, y) U) ds (x, y - (n + 1)) from ⟨isDir_U, ?_, ?_⟩⟩
    · exact stepOk_U.mpr hy1
    · rw [nbr_U ⟨hx, hy⟩ hy1]
      rw [show y - (n + 1) = y - 1 - n from by omega]
      exact hds

theorem center_reaches {w h : Nat} (hw : 0 < w) (hh : 0 < h) (u : Nat × Nat)
    (hu : inGrid w h u) : ∃ ds, pathOk w h (center w h) ds u := by
  have hc2 : h / 2 < h := Nat.div_lt_self hh (by omega)
  have hc1 : w / 2 < w := Nat.div_lt_self hw (by omega)
  have hu1 : u.1 < w := hu.1
  have hu2 : u.2 < h := hu.2
  have hhoriz : ∃ ds, pathOk w h (w / 2, h / 2) ds (u.1, h / 2) := by
    rcases Nat.le_total (w / 2) u.1 with hle | hle
    · obtain ⟨ds, hds⟩ := reach_R (w := w) (h := h) (u.1 - w / 2) (x := w / 2)
        (y := h / 2) (by omega) hc2
      rw [show w / 2 + (u.1 - w / 2) = u.1 from by omega] at hds
      exact ⟨ds, hds⟩
    · obtain ⟨ds, hds⟩ := reach_L (w := w) (h := h) (w / 2 - u.1) (x := w / 2)
        (y := h / 2) hc1 hc2 (by omega)
      rw [show w / 2 - (w / 2 - u.1) = u.1 from by omega] at hds
      exact ⟨ds, hds⟩
  have hvert : ∃ ds, pathOk w h (u.1, h / 2) ds (u.1, u.2) := by
    rcases Nat.le_total (h / 2) u.2 with hle | hle
    · obtain ⟨ds, hds⟩ := reach_D (w := w) (h := h) (u.2 - h / 2) (x := u.1)
        (y := h / 2) hu.1 (by omega)
      rw [show h / 2 + (u.2 - h / 2) = u.2 from by omega] at hds
      exact ⟨ds, hds⟩
    · obtain ⟨ds, hds⟩ := reach_U (w := w) (h := h) (h / 2 - u.2) (x := u.1)
        (y := h / 2) hu.1 hc2 (by omega)
      rw [show h / 2 - (h / 2 - u.2) = u.2 from by omega] at hds
      exact ⟨ds, hds⟩
  obtain ⟨ds1, h1⟩ := hhoriz
  obtain ⟨ds2, h2⟩ := hvert
  refine ⟨ds1 ++ ds2, ?_⟩
  have := pathOk_append h1 h2
  rw [show ((u.1, u.2) : Nat × Nat) = u from rfl] at this
  exact this

theorem crossing {w h : Nat} {wrapping : Bool} {tiles : List Nat}
    (hw : 0 < w) (hh : 0 < h) :
    ∀ {ds : List Nat} {c u : Nat × Nat}, inGrid w h c → pathOk w h c ds u →
    placed w h tiles c → ¬placed w h tiles u →
    ∃ p d, boundaryEdge w h wrapping tiles p d := by
  intro ds
  induction ds with
  | nil =>
    intro c u hcg hp hpl hnp
    have hcu : c = u := hp
    rw [hcu] at hpl
    exact absurd hpl hnp
  | cons d rest ih =>
    intro c u hcg hp hpl hnp
    have hp' : isDir d ∧ stepOk w h c d ∧ pathOk w h (nbr w h c d) rest u := hp
    by_cases hnb : placed w h tiles (nbr w h c d)
    · exact ih (nbr_inGrid hw hh _ _) hp'.2.2 hnb hnp
    · exact ⟨c, d, hcg, hp'.1, hpl, Or.inr hp'.2.1, hnb⟩

end Net

namespace Net

/-- On a width-2 wrapping torus a tile cannot carry both horizontal bits:
the two parallel edges to the same neighbour would form a cycle. -/
theorem w2_no_RL {h : Nat} {tiles : List Nat} {bs : List ((Nat × Nat) × Nat)}
    (hh : 0 < h) (hBO : birthsOk 2 h bs) (hBC : bitChar 2 h tiles bs)
    {c : Nat × Nat} (hc : inGrid 2 h c)
    (hR : bitSet R (tileAt 2 tiles c)) (hL : bitSet L (tileAt 2 tiles c)) : False := by
  have hw : (0 : Nat) < 2 := by decide
  have hcomp : nbr 2 h c R = nbr 2 h c L := nbr_companion_w2 hc
  have h1 := (hBC c hc R isDir_R).mp hR
  have h2 := (hBC c hc L isDir_L).mp hL
  rw [← hcomp] at h2
  have hcanR : nbr 2 h (nbr 2 h c R) (F R) = c := nbr_nbr_F isDir_R hw hh hc
  have hcanL : nbr 2 h (nbr 2 h c R) (F L) = c := by
    have hx := nbr_nbr_F isDir_L hw hh hc
    rw [← hcomp] at hx
    exact hx
  rcases h1 with ha | ha <;> rcases h2 with hb | hb
  · exact absurd (entry_dir_unique hBO ha hb) (by decide)
  · have hlt1 := parent_tIdx_lt hBO ha hb rfl
    have hlt2 := parent_tIdx_lt hBO hb ha hcanL
    omega
  · have hlt1 := parent_tIdx_lt hBO ha hb hcanR
    have hlt2 := parent_tIdx_lt hBO hb ha hcomp.symm
    omega
  · exact absurd (entry_dir_unique hBO ha hb) (by decide)

/-- Mirror image: on a height-2 wrapping torus no tile carries both
vertical bits. -/
theorem h2_no_UD {w : Nat} {tiles : List Nat} {bs : List ((Nat × Nat) × Nat)}
    (hw : 0 < w) (hBO : birthsOk w 2 bs) (hBC : bitChar w 2 tiles bs)
    {c : Nat × Nat} (hc : inGrid w 2 c)
    (hU : bitSet U (tileAt w tiles c)) (hD : bitSet D (tileAt w tiles c)) : False := by
  have hh : (0 : Nat) < 2 := by decide
  have hcomp : nbr w 2 c U = nbr w 2 c D := nbr_companion_h2 hc
  have h1 := (hBC c hc U isDir_U).mp hU
  have h2 := (hBC c hc D isDir_D).mp hD
  rw [← hcomp] at h2
  have hcanU : nbr w 2 (nbr w 2 c U) (F U) = c := nbr_nbr_F isDir_U hw hh hc
  have hcanD : nbr w 2 (nbr w 2 c U) (F D) = c := by
    have hx := nbr_nbr_F isDir_D hw hh hc
    rw [← hcomp] at hx
    exact hx
  rcases h1 with ha | ha <;> rcases h2 with hb | hb
  · exact absurd (entry_dir_unique hBO ha hb) (by decide)
  · have hlt1 := parent_tIdx_lt hBO ha hb rfl
    have hlt2 := parent_tIdx_lt hBO hb ha hcanD
    omega
  · have hlt1 := parent_tIdx_lt hBO ha hb hcanU
    have hlt2 := parent_tIdx_lt hBO hb ha hcomp.symm
    omega
  · exact absurd (entry_dir_unique hBO ha hb) (by decide)

end Net

namespace Net

/-- On a grid at most two cells wide, a boundary edge is impossible. -/
theorem be_false_small_w {w h : Nat} {wrapping : Bool} {tiles : List Nat}
    {bs : List ((Nat × Nat) × Nat)}
    (hw : 0 < w) (hh : 0 < h) (hw3 : w < 3)
    (hBO : birthsOk w h bs) (hBC : bitChar w h tiles bs)
    (hPI : ∀ c, inGrid w h c →
      (placed w h tiles c ↔ (c = center w h ∨ c ∈ bs.map Prod.fst)))
    (hFOC : ∀ p d, boundaryEdge w h wrapping tiles p d →
      tileAt w tiles p = 0x0F ^^^ d ∨ (p = center w h ∧ initSkip w h d))
    {p : Nat × Nat} {d : Nat} (hBE : boundaryEdge w h wrapping tiles p d) : False := by
  obtain ⟨hpg, hd, hpp, hpv, hnt⟩ := hBE
  have hw12 : w = 1 ∨ w = 2 := by omega
  rcases hd with rfl | rfl | rfl | rfl
  · -- d = R
    rcases hw12 with rfl | rfl
    · rw [nbr_self_w1 hpg (Or.inl rfl)] at hnt
      exact hnt hpp
    · rcases hFOC p R ⟨hpg, isDir_R, hpp, hpv, hnt⟩ with hf | ⟨hpc, hskip⟩
      · have hbitL : bitSet L (tileAt 2 tiles p) := by
          rw [hf]
          decide
        have hplt := (conn_facts hw hh hBO hBC hPI hpg isDir_L hbitL).1
        rw [← nbr_companion_w2 hpg] at hplt
        exact hnt hplt
      · subst hpc
        have hwr : wrapping = true := by
          rcases hpv with hv | hv
          · exact hv
          · exfalso
            have hsR : (center 2 h).1 + 1 < 2 := stepOk_R.mp hv
            have hcx : (center 2 h).1 = 1 := rfl
            omega
        have hBEL : boundaryEdge 2 h wrapping tiles (center 2 h) L := by
          refine ⟨hpg, isDir_L, hpp, Or.inl hwr, ?_⟩
          rw [← nbr_companion_w2 hpg]
          exact hnt
        rcases hFOC _ L hBEL with hf2 | ⟨-, hskip2⟩
        · have hbitR : bitSet R (tileAt 2 tiles (center 2 h)) := by
            rw [hf2]
            decide
          exact hnt (conn_facts hw hh hBO hBC hPI hpg isDir_R hbitR).1
        · have := initSkip_L_le hskip2
          omega
  · -- d = U
    by_cases hone : h = 1
    · subst hone
      rw [nbr_self_h1 hpg (Or.inl rfl)] at hnt
      exact hnt hpp
    · rcases hFOC p U ⟨hpg, isDir_U, hpp, hpv, hnt⟩ with hf | ⟨hpc, hskip⟩
      · rcases hw12 with rfl | rfl
        · have hbitR : bitSet R (tileAt 1 tiles p) := by
            rw [hf]
            decide
          have hne := (conn_facts hw hh hBO hBC hPI hpg isDir_R hbitR).2.2.2
          exact hne (nbr_self_w1 hpg (Or.inl rfl))
        · have hbitR : bitSet R (tileAt 2 tiles p) := by
            rw [hf]
            decide
          have hbitL : bitSet L (tileAt 2 tiles p) := by
            rw [hf]
            decide
          exact w2_no_RL hh hBO hBC hpg hbitR hbitL
      · have := initSkip_U_le hskip
        omega
  · -- d = L
    rcases hw12 with rfl | rfl
    · rw [nbr_self_w1 hpg (Or.inr rfl)] at hnt
      exact hnt hpp
    · rcases hFOC p L ⟨hpg, isDir_L, hpp, hpv, hnt⟩ with hf | ⟨hpc, hskip⟩
      · have hbitR : bitSet R (tileAt 2 tiles p) := by
          rw [hf]
          decide
        have hplt := (conn_facts hw hh hBO hBC hPI hpg isDir_R hbitR).1
        rw [nbr_companion_w2 hpg] at hplt
        exact hnt hplt
      · have := initSkip_L_le hskip
        omega
  · -- d = D
    by_cases hone : h = 1
    · subst hone
      rw [nbr_self_h1 hpg (Or.inr rfl)] at hnt
      exact hnt hpp
    · rcases hFOC p D ⟨hpg, isDir_D, hpp, hpv, hnt⟩ with hf | ⟨hpc, hskip⟩
      · rcases hw12 with rfl | rfl
        · have hbitR : bitSet R (tileAt 1 tiles p) := by
            rw [hf]
            decide
          have hne := (conn_facts hw hh hBO hBC hPI hpg isDir_R hbitR).2.2.2
          exact hne (nbr_self_w1 hpg (Or.inl rfl))
        · have hbitR : bitSet R (tileAt 2 tiles p) := by
            rw [hf]
            decide
          have hbitL : bitSet L (tileAt 2 tiles p) := by
            rw [hf]
            decide
          exact w2_no_RL hh hBO hBC hpg hbitR hbitL
      · subst hpc
        have hle := initSkip_D_le hskip
        have h2eq : h = 2 := by omega
        subst h2eq
        have hwr : wrapping = true := by
          rcases hpv with hv | hv
          · exact hv
          · exfalso
            have hsD : (center w 2).2 + 1 < 2 := stepOk_D.mp hv
            have hcy : (center w 2).2 = 1 := rfl
            omega
        have hBEU : boundaryEdge w 2 wrapping tiles (center w 2) U := by
          refine ⟨hpg, isDir_U, hpp, Or.inl hwr, ?_⟩
          rw [nbr_companion_h2 hpg]
          exact hnt
        rcases hFOC _ U hBEU with hf2 | ⟨-, hskip2⟩
        · rcases hw12 with rfl | rfl
          · have hbitR : bitSet R (tileAt 1 tiles (center 1 2)) := by
              rw [hf2]
              decide
            have hne := (conn_facts hw hh hBO hBC hPI hpg isDir_R hbitR).2.2.2
            exact hne (nbr_self_w1 hpg (Or.inl rfl))
          · have hbitR : bitSet R (tileAt 2 tiles (center 2 2)) := by
              rw [hf2]
              decide
            have hbitL : bitSet L (tileAt 2 tiles (center 2 2)) := by
              rw [hf2]
              decide
            exact w2_no_RL hh hBO hBC hpg hbitR hbitL
        · have := initSkip_U_le hskip2
          omega

/-- On a grid at most two cells tall but at least three wide, a boundary
edge is impossible. -/
theorem be_false_small_h {w h : Nat} {wrapping : Bool} {tiles : List Nat}
    {bs : List ((Nat × Nat) × Nat)}
    (hw : 0 < w) (hh : 0 < h) (hh3 : h < 3) (hw3 : 3 ≤ w)
    (hBO : birthsOk w h bs) (hBC : bitChar w h tiles bs)
    (hPI : ∀ c, inGrid w h c →
      (placed w h tiles c ↔ (c = center w h ∨ c ∈ bs.map Prod.fst)))
    (hFOC : ∀ p d, boundaryEdge w h wrapping tiles p d →
      tileAt w tiles p = 0x0F ^^^ d ∨ (p = center w h ∧ initSkip w h d))
    {p : Nat × Nat} {d : Nat} (hBE : boundaryEdge w h wrapping tiles p d) : False := by
  obtain ⟨hpg, hd, hpp, hpv, hnt⟩ := hBE
  have hh12 : h = 1 ∨ h = 2 := by omega
  rcases hd with rfl | rfl | rfl | rfl
  · -- d = R
    rcases hh12 with rfl | rfl
    · rcases hFOC p R ⟨hpg, isDir_R, hpp, hpv, hnt⟩ with hf | ⟨hpc, hskip⟩
      · have hbitU : bitSet U (tileAt w tiles p) := by
          rw [hf]
          decide
        have hne := (conn_facts hw hh hBO hBC hPI hpg isDir_U hbitU).2.2.2
        exact hne (nbr_self_h1 hpg (Or.inl rfl))
      · have := initSkip_R_le hskip
        omega
    · rcases hFOC p R ⟨hpg, isDir_R, hpp, hpv, hnt⟩ with hf | ⟨hpc, hskip⟩
      · have hbitU : bitSet U (tileAt w tiles p) := by
          rw [hf]
          decide
        have hbitD : bitSet D (tileAt w tiles p) := by
          rw [hf]
          decide
        exact h2_no_UD hw hBO hBC hpg hbitU hbitD
      · have := initSkip_R_le hskip
        omega
  · -- d = U
    rcases hh12 with rfl | rfl
    · rw [nbr_self_h1 hpg (Or.inl rfl)] at hnt
      exact hnt hpp
    · rcases hFOC p U ⟨hpg, isDir_U, hpp, hpv, hnt⟩ with hf | ⟨hpc, hskip⟩
      · have hbitD : bitSet D (tileAt w tiles p) := by
          rw [hf]
          decide
        have hplt := (conn_facts hw hh hBO hBC hPI hpg isDir_D hbitD).1
        rw [← nbr_companion_h2 hpg] at hplt
        exact hnt hplt
      · have := initSkip_U_le hskip
        omega
  · -- d = L
    rcases hh12 with rfl | rfl
    · rcases hFOC p L ⟨hpg, isDir_L, hpp, hpv, hnt⟩ with hf | ⟨hpc, hskip⟩
      · have hbitU : bitSet U (tileAt w tiles p) := by
          rw [hf]
          decide
        have hne := (conn_facts hw hh hBO hBC hPI hpg isDir_U hbitU).2.2.2
        exact hne (nbr_self_h1 hpg (Or.inl rfl))
      · have := initSkip_L_le hskip
        omega
    · rcases hFOC p L ⟨hpg, isDir_L, hpp, hpv, hnt⟩ with hf | ⟨hpc, hskip⟩
      · have hbitU : bitSet U (tileAt w tiles p) := by
          rw [hf]
          decide
        have hbitD : bitSet D (tileAt w tiles p) := by
          rw [hf]
          decide
        exact h2_no_UD hw hBO hBC hpg hbitU hbitD
      · have := initSkip_L_le hskip
        omega
  · -- d = D
    rcases hh12 with rfl | rfl
    · rw [nbr_self_h1 hpg (Or.inr rfl)] at hnt
      exact hnt hpp
    · rcases hFOC p D ⟨hpg, isDir_D, hpp, hpv, hnt⟩ with hf | ⟨hpc, hskip⟩
      · have hbitU : bitSet U (tileAt w tiles p) := by
          rw [hf]
          decide
        have hplt := (conn_facts hw hh hBO hBC hPI hpg isDir_U hbitU).1
        rw [nbr_companion_h2 hpg] at hplt
        exact hnt hplt
      · subst hpc
        have hwr : wrapping = true := by
          rcases hpv with hv | hv
          · exact hv
          · exfalso
            have hsD : (center w 2).2 + 1 < 2 := stepOk_D.mp hv
            have hcy : (center w 2).2 = 1 := rfl
            omega
        have hBEU : boundaryEdge w 2 wrapping tiles (center w 2) U := by
          refine ⟨hpg, isDir_U, hpp, Or.inl hwr, ?_⟩
          rw [nbr_companion_h2 hpg]
          exact hnt
        rcases hFOC _ U hBEU with hf2 | ⟨-, hskip2⟩
        · have hbitD : bitSet D (tileAt w tiles (center w 2)) := by
            rw [hf2]
            decide
          have hplt := (conn_facts hw hh hBO hBC hPI hpg isDir_D hbitD).1
          exact hnt hplt
        · have := initSkip_U_le hskip2
          omega

/-- At the end of generation every cell of the grid is in use. -/
theorem all_placed_final {w h : Nat} {wrapping : Bool} {tiles : List Nat}
    {bs : List ((Nat × Nat) × Nat)}
    (hw : 0 < w) (hh : 0 < h) (hdim : 1 < w ∨ 1 < h)
    (hBO : birthsOk w h bs) (hBC : bitChar w h tiles bs)
    (hPI : ∀ c, inGrid w h c →
      (placed w h tiles c ↔ (c = center w h ∨ c ∈ bs.map Prod.fst)))
    (hOG : wrapping = false → ∀ c, inGrid w h c → ∀ d, isDir d →
      bitSet d (tileAt w tiles c) → stepOk w h c d)
    (hFOC : ∀ p d, boundaryEdge w h wrapping tiles p d →
      tileAt w tiles p = 0x0F ^^^ d ∨ (p = center w h ∧ initSkip w h d)) :
    ∀ c, inGrid w h c → placed w h tiles c := by
  intro u hu
  by_contra hnp
  have hcg : inGrid w h (center w h) := center_inGrid hw hh
  have hcp : placed w h tiles (center w h) := Or.inr rfl
  obtain ⟨ds, hds⟩ := center_reaches hw hh u hu
  obtain ⟨p, d, hBE⟩ :=
    @crossing w h wrapping tiles hw hh ds (center w h) u hcg hds hcp hnp
  rcases Nat.lt_or_ge w 3 with hwlt | hwge
  · exact be_false_small_w hw hh hwlt hBO hBC hPI hFOC hBE
  · rcases Nat.lt_or_ge h 3 with hhlt | hhge
    · exact be_false_small_h hw hh hhlt hwge hBO hBC hPI hFOC hBE
    · have hfence : ∀ q e, boundaryEdge w h wrapping tiles q e →
          tileAt w tiles q = 0x0F ^^^ e := by
        intro q e hbe
        rcases hFOC q e hbe with hf | ⟨-, hskip⟩
        · exact hf
        · exfalso
          obtain ⟨-, hde, -, -, -⟩ := hbe
          rcases hde with rfl | rfl | rfl | rfl
          · have := initSkip_R_le hskip
            omega
          · have := initSkip_U_le hskip
            omega
          · have := initSkip_L_le hskip
            omega
          · have := initSkip_D_le hskip
            omega
      exact no_boundaryEdge hw hh hBO hBC hPI hOG hfence hBE

end Net

namespace Net

theorem placedCount_le {w h : Nat} (tiles : List Nat) :
    placedCount w h tiles ≤ w * h := by
  unfold placedCount
  exact le_trans (List.countP_le_length _) (le_of_eq length_gridCells)

/-- With enough fuel the construction loop empties the possibility tree
while keeping its invariant. -/
theorem genLoop_complete {w h : Nat} {wrapping : Bool} (hw : 0 < w) (hh : 0 < h) :
    ∀ fuel (st : GenSt), GenInv w h wrapping st →
    w * h ≤ fuel + placedCount w h st.tiles →
    (genLoop w h wrapping fuel st).poss = [] ∧
      GenInv w h wrapping (genLoop w h wrapping fuel st) := by
  intro fuel
  induction fuel with
  | zero =>
    intro st hI hb
    refine ⟨?_, hI⟩
    by_contra hne
    have hstep := genStep_preserves hw hh hI hne
    have hle := placedCount_le (w := w) (h := h) (genStep w h wrapping st).tiles
    omega
  | succ fuel ih =>
    intro st hI hb
    rw [show genLoop w h wrapping (fuel + 1) st =
      if st.poss = [] then st else genLoop w h wrapping fuel (genStep w h wrapping st)
      from rfl]
    by_cases hne : st.poss = []
    · rw [if_pos hne]
      exact ⟨hne, hI⟩
    · rw [if_neg hne]
      have hstep := genStep_preserves hw hh hI hne
      exact ih _ hstep.1 (by omega)

theorem generate_complete (q : GameParams) (f : Nat → Nat)
    (hw : 0 < q.width) (hh : 0 < q.height) :
    (generate q f).poss = [] ∧
      GenInv q.width q.height q.wrapping (generate q f) := by
  have hinit := @genInv_init q.width q.height q.wrapping hw hh ⟨f, 0⟩
  exact genLoop_complete hw hh (q.width * q.height) _ hinit (Nat.le_add_right _ _)

/-- Every ledger cell is reachable from the centre along set bits. -/
theorem births_reachable_aux {w h : Nat} {tiles : List Nat}
    {bsAll : List ((Nat × Nat) × Nat)} (hw : 0 < w) (hh : 0 < h)
    (hBC : bitChar w h tiles bsAll) :
    ∀ bs : List ((Nat × Nat) × Nat), birthsOk w h bs → (∀ e ∈ bs, e ∈ bsAll) →
    ∀ e ∈ bs, reachable w h tiles (center w h) e.1 := by
  intro bs
  induction bs with
  | nil =>
    intro _ _ e he
    simp at he
  | cons hd rest ih =>
    intro hb hsub e he
    rcases List.mem_cons.mp he with rfl | hmem
    · have hdg : inGrid w h e.1 := hb.2.2.1
      have hdd : isDir e.2 := hb.2.1
      have hparR : reachable w h tiles (center w h) (nbr w h e.1 e.2) := by
        rcases hb.2.2.2.2.2.2 with hc | hm
        · rw [hc]
          exact Relation.ReflTransGen.refl
        · obtain ⟨e2, he2, heq⟩ := List.mem_map.mp hm
          rw [← heq]
          exact ih hb.1 (fun e3 he3 => hsub e3 (List.mem_cons_of_mem _ he3)) e2 he2
      have hng : inGrid w h (nbr w h e.1 e.2) := nbr_inGrid hw hh _ _
      have hcan : nbr w h (nbr w h e.1 e.2) (F e.2) = e.1 := nbr_nbr_F hdd hw hh hdg
      have hbit : bitSet (F e.2) (tileAt w tiles (nbr w h e.1 e.2)) := by
        rw [hBC _ hng _ (isDir_F hdd)]
        refine Or.inr ?_
        rw [hcan, F_F hdd]
        exact hsub e (List.mem_cons_self _ _)
      exact Relation.ReflTransGen.tail hparR ⟨F e.2, isDir_F hdd, hbit, hcan.symm⟩
    · exact ih hb.1 (fun e3 he3 => hsub e3 (List.mem_cons_of_mem _ he3)) e hmem

/-- The spanning-tree facts about the freshly generated (pre-shuffle)
tiles. -/
theorem generate_spanning (q : GameParams) (f : Nat → Nat)
    (hw : 0 < q.width) (hh : 0 < q.height) (hdim : 1 < q.width ∨ 1 < q.height) :
    (∀ c, inGrid q.width q.height c →
      reachable q.width q.height (generate q f).tiles (center q.width q.height) c) ∧
    (((generate q f).tiles.map COUNT).sum = 2 * (q.width * q.height - 1)) ∧
    (∀ n E, ¬closedWalk q.width q.height (generate q f).tiles n E) ∧
    (∀ c, inGrid q.width q.height c →
      tileAt q.width (generate q f).tiles c ≠ 0x0F) := by
  obtain ⟨hposs, hI⟩ := generate_complete q f hw hh
  obtain ⟨bs, hBO, hBC, hPI, hSUM⟩ := hI.births
  have hFOC : ∀ p d, boundaryEdge q.width q.height q.wrapping (generate q f).tiles p d →
      tileAt q.width (generate q f).tiles p = 0x0F ^^^ d ∨
      (p = center q.width q.height ∧ initSkip q.width q.height d) := by
    intro p d hbe
    obtain ⟨hpg, hd, hpp, hpv, hnt⟩ := hbe
    rcases hI.fence p hpg d hd hpp hpv hnt with hmem | hf | hsk
    · rw [hposs] at hmem
      exact absurd hmem (List.not_mem_nil _)
    · exact Or.inl hf
    · exact Or.inr hsk
  have hplaced := all_placed_final hw hh hdim hBO hBC hPI hI.offgrid hFOC
  have hmemiff : ∀ c : Nat × Nat, c ∈ bs.map Prod.fst ↔
      (c ∈ gridCells q.width q.height ∧ c ≠ center q.width q.height) := by
    intro c
    constructor
    · intro hm
      obtain ⟨e, he, rfl⟩ := List.mem_map.mp hm
      have hent := birthsOk_entry hBO e he
      exact ⟨mem_gridCells.mpr hent.2.1, hent.2.2.2⟩
    · intro hcc
      have hpl := hplaced c (mem_gridCells.mp hcc.1)
      rcases (hPI c (mem_gridCells.mp hcc.1)).mp hpl with hc | hm
      · exact absurd hc hcc.2
      · exact hm
  have hperm : (bs.map Prod.fst).Perm
      ((gridCells q.width q.height).erase (center q.width q.height)) := by
    refine (List.perm_ext_iff_of_nodup (birthsOk_cells_nodup hBO)
      (gridCells_nodup.erase _)).mpr ?_
    intro a
    rw [gridCells_nodup.mem_erase_iff, hmemiff a]
    tauto
  have hlen : bs.length = q.width * q.height - 1 := by
    have h1 := hperm.length_eq
    rw [List.length_map,
      List.length_erase_of_mem (mem_gridCells.mpr (center_inGrid hw hh)),
      length_gridCells] at h1
    exact h1
  refine ⟨?_, ?_, ?_, ?_⟩
  · intro c hcg
    rcases (hPI c hcg).mp (hplaced c hcg) with hc | hm
    · rw [hc]
      exact Relation.ReflTransGen.refl
    · obtain ⟨e, he, rfl⟩ := List.mem_map.mp hm
      exact births_reachable_aux hw hh hBC bs hBO (fun e2 he2 => he2) e he
  · rw [hSUM, hlen]
  · exact fun n E hcw => walk_contra hw hh hBO hBC hcw
  · intro c hcg
    exact ne_15_of_count_le_3 _ (tileAt_lt_16 (h := q.height) hI.tlt c) (hI.cnt3 c hcg)

/-- C1: for every generated Net puzzle (dimensions at least 1 with one
dimension above 1, any wrapping flag, any seed), the pre-shuffle
connection-mask array is a spanning tree of the grid: every cell is
reachable from the centre along set bits, the bit count equals twice
(cell count minus one), no non-backtracking cycle exists along set bits,
and no cell's mask is the full cross 0xF. -/
theorem claim_C1_spanning_tree (q : GameParams) (f : Nat → Nat)
    (hw : 0 < q.width) (hh : 0 < q.height) (hdim : 1 < q.width ∨ 1 < q.height) :
    (∀ c, inGrid q.width q.height c →
      reachable q.width q.height (pipeline q f).preTiles (center q.width q.height) c) ∧
    (((pipeline q f).preTiles.map COUNT).sum = 2 * (q.width * q.height - 1)) ∧
    (∀ n E, ¬closedWalk q.width q.height (pipeline q f).preTiles n E) ∧
    (∀ c, inGrid q.width q.height c →
      tileAt q.width (pipeline q f).preTiles c ≠ 0x0F) :=
  generate_spanning q f hw hh hdim

/-- Witness for C1 at a concrete parameter set. -/
theorem claim_C1_spanning_tree_witness :
    0 < (⟨2, 2, false, 0⟩ : GameParams).width ∧
    0 < (⟨2, 2, false, 0⟩ : GameParams).height ∧
    ((∀ c, inGrid 2 2 c →
      reachable 2 2 (pipeline ⟨2, 2, false, 0⟩ (fun _ => 0)).preTiles (center 2 2) c) ∧
    (((pipeline ⟨2, 2, false, 0⟩ (fun _ => 0)).preTiles.map COUNT).sum = 2 * (2 * 2 - 1)) ∧
    (∀ n E, ¬closedWalk 2 2 (pipeline ⟨2, 2, false, 0⟩ (fun _ => 0)).preTiles n E) ∧
    (∀ c, inGrid 2 2 c →
      tileAt 2 (pipeline ⟨2, 2, false, 0⟩ (fun _ => 0)).preTiles c ≠ 0x0F)) :=
  ⟨by decide, by decide,
    claim_C1_spanning_tree ⟨2, 2, false, 0⟩ (fun _ => 0) (by decide) (by decide)
      (Or.inl (by decide))⟩

end Net

namespace Net

/-- C2 counterexample: reciprocity does not hold in every game state.  In
the freshly dealt (post-shuffle) 1x2 game below, the cell (0,1) has its up
bit set while its upward neighbour (0,0) lacks the reciprocal down bit. -/
theorem claim_C2_not_every_state :
    bitSet U (tileAt 1 (new_game ⟨1, 2, false, 0⟩
      (fun i => if i = 1 then 1 else 0)).tiles (0, 1)) ∧
    ¬bitSet (F U) (tileAt 1 (new_game ⟨1, 2, false, 0⟩
      (fun i => if i = 1 then 1 else 0)).tiles (nbr 1 2 (0, 1) U)) := by
  decide

/-- C2 amended: on the pre-shuffle (just generated) tiles, reciprocity does
hold: a cell's bit towards a neighbour is set exactly when the neighbour's
reciprocal bit is. -/
theorem claim_C2_pre_shuffle_reciprocity (q : GameParams) (f : Nat → Nat)
    (hw : 0 < q.width) (hh : 0 < q.height) :
    ∀ c, inGrid q.width q.height c → ∀ d, isDir d →
      (bitSet d (tileAt q.width (pipeline q f).preTiles c) ↔
        bitSet (F d) (tileAt q.width (pipeline q f).preTiles
          (nbr q.width q.height c d))) := by
  obtain ⟨hposs, hI⟩ := generate_complete q f hw hh
  obtain ⟨bs, hBO, hBC, hPI, -⟩ := hI.births
  intro c hcg d hd
  constructor
  · intro hbit
    exact (conn_facts hw hh hBO hBC hPI hcg hd hbit).2.2.1
  · intro hbit
    have hng : inGrid q.width q.height (nbr q.width q.height c d) :=
      nbr_inGrid hw hh _ _
    have hres := (conn_facts hw hh hBO hBC hPI hng (isDir_F hd) hbit).2.2.1
    rw [nbr_nbr_F hd hw hh hcg, F_F hd] at hres
    exact hres

/-- Witness for the amended C2 at a concrete parameter set. -/
theorem claim_C2_pre_shuffle_reciprocity_witness :
    0 < (⟨1, 2, false, 0⟩ : GameParams).width ∧
    0 < (⟨1, 2, false, 0⟩ : GameParams).height ∧
    (∀ c, inGrid 1 2 c → ∀ d, isDir d →
      (bitSet d (tileAt 1 (pipeline ⟨1, 2, false, 0⟩ (fun _ => 0)).preTiles c) ↔
        bitSet (F d) (tileAt 1 (pipeline ⟨1, 2, false, 0⟩ (fun _ => 0)).preTiles
          (nbr 1 2 c d)))) :=
  ⟨by decide, by decide,
    claim_C2_pre_shuffle_reciprocity ⟨1, 2, false, 0⟩ (fun _ => 0)
      (by decide) (by decide)⟩

end Net

namespace Net

theorem or_dir_and_zero : ∀ a < 16, ∀ e ∈ dirs, ∀ d ∈ dirs,
    a &&& d = 0 → e ≠ d → (a ||| e) &&& d = 0 := by decide

theorem caStep_eq (st : GState) (x1 y1 : Nat) (acc : List Nat × List Xyd) (d : Nat) :
    caStep st x1 y1 acc d =
      if tile st x1 y1 &&& d ≠ 0 ∧
          tile st (offs st.width st.height x1 y1 d).1
            (offs st.width st.height x1 y1 d).2 &&& F d ≠ 0 ∧
          barrier st x1 y1 &&& d = 0 ∧
          getArr st.width acc.1 (offs st.width st.height x1 y1 d).1
            (offs st.width st.height x1 y1 d).2 = 0 then
        (setArr st.width acc.1 (offs st.width st.height x1 y1 d).1
          (offs st.width st.height x1 y1 d).2 ACTIVE,
         insert234 ⟨(offs st.width st.height x1 y1 d).1,
           (offs st.width st.height x1 y1 d).2, 0⟩ acc.2)
      else acc := rfl

theorem getArr_setA_keep {w : Nat} {a : List Nat} {x y p q : Nat}
    (h : getArr w a x y ≠ 0) : getArr w (setArr w a p q ACTIVE) x y ≠ 0 := by
  by_cases hij : idx w p q = idx w x y
  · rcases Nat.lt_or_ge (idx w p q) a.length with hlt | hge
    · unfold getArr setArr
      rw [← hij, getD_eq_get?, List.get?_set_eq_of_lt _ hlt]
      decide
    · unfold setArr
      rw [List.set_eq_of_length_le (by omega)]
      exact h
  · rw [getArr_setArr_other hij]
    exact h

theorem getArr_setA_src {w : Nat} {a : List Nat} {x y p q : Nat}
    (h : getArr w (setArr w a p q ACTIVE) x y ≠ 0) :
    getArr w a x y ≠ 0 ∨ idx w p q = idx w x y := by
  by_cases hij : idx w p q = idx w x y
  · exact Or.inr hij
  · rw [getArr_setArr_other hij] at h
    exact Or.inl h

theorem caStep_len {st : GState} {x1 y1 : Nat} {acc : List Nat × List Xyd} {d n : Nat}
    (h : acc.1.length = n) : (caStep st x1 y1 acc d).1.length = n := by
  rw [caStep_eq]
  split_ifs with hc
  · unfold setArr
    rw [List.length_set]
    exact h
  · exact h

theorem caStep_mono {st : GState} {x1 y1 : Nat} {acc : List Nat × List Xyd}
    {d a b : Nat} (h : getArr st.width acc.1 a b ≠ 0) :
    getArr st.width (caStep st x1 y1 acc d).1 a b ≠ 0 := by
  rw [caStep_eq]
  split_ifs with hc
  · exact getArr_setA_keep h
  · exact h

theorem caStep_todo_super {st : GState} {x1 y1 : Nat} {acc : List Nat × List Xyd}
    {d : Nat} {e : Xyd} (h : e ∈ acc.2) : e ∈ (caStep st x1 y1 acc d).2 := by
  rw [caStep_eq]
  split_ifs with hc
  · exact mem_insert234.mpr (Or.inr h)
  · exact h

theorem caStep_newmark {st : GState} {x1 y1 : Nat} {acc : List Nat × List Xyd}
    {d a b : Nat} (h : getArr st.width (caStep st x1 y1 acc d).1 a b ≠ 0) :
    getArr st.width acc.1 a b ≠ 0 ∨
      (idx st.width (offs st.width st.height x1 y1 d).1
        (offs st.width st.height x1 y1 d).2 = idx st.width a b ∧
       (⟨(offs st.width st.height x1 y1 d).1,
         (offs st.width st.height x1 y1 d).2, 0⟩ : Xyd) ∈ (caStep st x1 y1 acc d).2) := by
  rw [caStep_eq] at h ⊢
  split_ifs at h ⊢ with hc
  · rcases getArr_setA_src h with hold | hidx
    · exact Or.inl hold
    · exact Or.inr ⟨hidx, mem_insert234.mpr (Or.inl rfl)⟩
  · exact Or.inl h

theorem caStep_expand {st : GState} (hw : 0 < st.width) (hh : 0 < st.height)
    {x1 y1 : Nat} {acc : List Nat × List Xyd} {d : Nat}
    (hlen : acc.1.length = st.width * st.height)
    (h1 : tile st x1 y1 &&& d ≠ 0)
    (h2 : tile st (offs st.width st.height x1 y1 d).1
      (offs st.width st.height x1 y1 d).2 &&& F d ≠ 0)
    (h3 : barrier st x1 y1 &&& d = 0) :
    getArr st.width (caStep st x1 y1 acc d).1 (offs st.width st.height x1 y1 d).1
      (offs st.width st.height x1 y1 d).2 ≠ 0 := by
  rw [caStep_eq]
  split_ifs with hc
  · rw [getArr_setArr_self (by
      rw [hlen]
      exact idx_lt_size (offs_fst_lt hw) (offs_snd_lt hh))]
    decide
  · intro hz
    exact hc ⟨h1, h2, h3, hz⟩

theorem caStep_phi {st : GState} (hw : 0 < st.width) (hh : 0 < st.height)
    {x1 y1 : Nat} {acc : List Nat × List Xyd} {d : Nat}
    (hlen : acc.1.length = st.width * st.height) :
    (caStep st x1 y1 acc d).2.length +
      unmarked st.width st.height (caStep st x1 y1 acc d).1 ≤
    acc.2.length + unmarked st.width st.height acc.1 := by
  rw [caStep_eq]
  split_ifs with hc
  · have h1 := length_insert234_le (e := ⟨(offs st.width st.height x1 y1 d).1,
      (offs st.width st.height x1 y1 d).2, 0⟩) (l := acc.2)
    have hg : inGrid st.width st.height ((offs st.width st.height x1 y1 d).1,
        (offs st.width st.height x1 y1 d).2) := ⟨offs_fst_lt hw, offs_snd_lt hh⟩
    have h2 : unmarked st.width st.height acc.1 =
        unmarked st.width st.height (setArr st.width acc.1
          (offs st.width st.height x1 y1 d).1
          (offs st.width st.height x1 y1 d).2 ACTIVE) + 1 := by
      unfold unmarked
      apply countP_flip_one gridCells_nodup (mem_gridCells.mpr hg)
      · simp only [decide_eq_false_iff_not]
        rw [getArr_setArr_self (by
          rw [hlen]
          exact idx_lt_size hg.1 hg.2)]
        decide
      · simp only [decide_eq_true_eq]
        exact hc.2.2.2
      · intro b hb hbne
        have hbg := mem_gridCells.mp hb
        have hne : idx st.width (offs st.width st.height x1 y1 d).1
            (offs st.width st.height x1 y1 d).2 ≠ idx st.width b.1 b.2 :=
          idx_inj hg hbg (Ne.symm hbne)
        rw [getArr_setArr_other hne]
    simp only at h1 ⊢
    omega
  · exact Nat.le_refl _

end Net

namespace Net

theorem caChain_len {st : GState} {x1 y1 : Nat} {n : Nat} :
    ∀ (l : List Nat) (acc : List Nat × List Xyd), acc.1.length = n →
    (l.foldl (caStep st x1 y1) acc).1.length = n := by
  intro l
  induction l with
  | nil => intro acc h; exact h
  | cons d ds ih =>
    intro acc h
    rw [List.foldl_cons]
    exact ih _ (caStep_len h)

theorem caChain_mono {st : GState} {x1 y1 : Nat} :
    ∀ (l : List Nat) (acc : List Nat × List Xyd) {a b : Nat},
    getArr st.width acc.1 a b ≠ 0 →
    getArr st.width (l.foldl (caStep st x1 y1) acc).1 a b ≠ 0 := by
  intro l
  induction l with
  | nil => intro acc a b h; exact h
  | cons d ds ih =>
    intro acc a b h
    rw [List.foldl_cons]
    exact ih _ (caStep_mono h)

theorem caChain_super {st : GState} {x1 y1 : Nat} :
    ∀ (l : List Nat) (acc : List Nat × List Xyd) {e : Xyd},
    e ∈ acc.2 → e ∈ (l.foldl (caStep st x1 y1) acc).2 := by
  intro l
  induction l with
  | nil => intro acc e h; exact h
  | cons d ds ih =>
    intro acc e h
    rw [List.foldl_cons]
    exact ih _ (caStep_todo_super h)

theorem caChain_phi {st : GState} (hw : 0 < st.width) (hh : 0 < st.height)
    {x1 y1 : Nat} :
    ∀ (l : List Nat) (acc : List Nat × List Xyd),
    acc.1.length = st.width * st.height →
    (l.foldl (caStep st x1 y1) acc).2.length +
      unmarked st.width st.height (l.foldl (caStep st x1 y1) acc).1 ≤
    acc.2.length + unmarked st.width st.height acc.1 := by
  intro l
  induction l with
  | nil => intro acc _; exact Nat.le_refl _
  | cons d ds ih =>
    intro acc hlen
    rw [List.foldl_cons]
    exact le_trans (ih _ (caStep_len hlen)) (caStep_phi hw hh hlen)

theorem caChain_newmark {st : GState} {x1 y1 : Nat} :
    ∀ (l : List Nat) (acc : List Nat × List Xyd) {a b : Nat},
    getArr st.width (l.foldl (caStep st x1 y1) acc).1 a b ≠ 0 →
    getArr st.width acc.1 a b ≠ 0 ∨
      ∃ d, idx st.width (offs st.width st.height x1 y1 d).1
          (offs st.width st.height x1 y1 d).2 = idx st.width a b ∧
        (⟨(offs st.width st.height x1 y1 d).1,
          (offs st.width st.height x1 y1 d).2, 0⟩ : Xyd) ∈
          (l.foldl (caStep st x1 y1) acc).2 := by
  intro l
  induction l with
  | nil => intro acc a b h; exact Or.inl h
  | cons d ds ih =>
    intro acc a b h
    rw [List.foldl_cons] at h ⊢
    rcases ih _ h with h1 | ⟨e, hidx, hmem⟩
    · rcases caStep_newmark h1 with h2 | ⟨hidx, hmem⟩
      · exact Or.inl h2
      · exact Or.inr ⟨d, hidx, caChain_super ds _ hmem⟩
    · exact Or.inr ⟨e, hidx, hmem⟩

theorem caChain_expand {st : GState} (hw : 0 < st.width) (hh : 0 < st.height)
    {x1 y1 : Nat} :
    ∀ (l : List Nat) (acc : List Nat × List Xyd) {d : Nat},
    acc.1.length = st.width * st.height → d ∈ l →
    tile st x1 y1 &&& d ≠ 0 →
    tile st (offs st.width st.height x1 y1 d).1
      (offs st.width st.height x1 y1 d).2 &&& F d ≠ 0 →
    barrier st x1 y1 &&& d = 0 →
    getArr st.width (l.foldl (caStep st x1 y1) acc).1
      (offs st.width st.height x1 y1 d).1 (offs st.width st.height x1 y1 d).2 ≠ 0 := by
  intro l
  induction l with
  | nil =>
    intro acc d _ hmem
    exact absurd hmem (List.not_mem_nil _)
  | cons e ds ih =>
    intro acc d hlen hmem h1 h2 h3
    rw [List.foldl_cons]
    rcases List.mem_cons.mp hmem with rfl | hmem2
    · exact caChain_mono ds _ (caStep_expand hw hh hlen h1 h2 h3)
    · exact ih _ (caStep_len hlen) hmem2 h1 h2 h3

end Net

namespace Net

theorem caLoop_step_eq (st : GState) (fuel : Nat) (active : List Nat)
    (t : Xyd) (rest : List Xyd) :
    caLoop st (fuel + 1) active (t :: rest) =
      caLoop st fuel (dirs.foldl (caStep st t.x t.y) (active, rest)).1
        (dirs.foldl (caStep st t.x t.y) (active, rest)).2 := rfl

theorem caLoop_closed (st : GState) (hw : 0 < st.width) (hh : 0 < st.height) :
    ∀ (fuel : Nat) (active : List Nat) (todo : List Xyd),
    active.length = st.width * st.height →
    (∀ c : Nat × Nat, inGrid st.width st.height c →
      getArr st.width active c.1 c.2 ≠ 0 →
      ((⟨c.1, c.2, 0⟩ : Xyd) ∈ todo ∨
        ∀ d ∈ dirs, tile st c.1 c.2 &&& d ≠ 0 →
          tile st (offs st.width st.height c.1 c.2 d).1
            (offs st.width st.height c.1 c.2 d).2 &&& F d ≠ 0 →
          barrier st c.1 c.2 &&& d = 0 →
          getArr st.width active (offs st.width st.height c.1 c.2 d).1
            (offs st.width st.height c.1 c.2 d).2 ≠ 0)) →
    todo.length + unmarked st.width st.height active ≤ fuel →
    ∀ c : Nat × Nat, inGrid st.width st.height c →
      getArr st.width (caLoop st fuel active todo) c.1 c.2 ≠ 0 →
      ∀ d ∈ dirs, tile st c.1 c.2 &&& d ≠ 0 →
        tile st (offs st.width st.height c.1 c.2 d).1
          (offs st.width st.height c.1 c.2 d).2 &&& F d ≠ 0 →
        barrier st c.1 c.2 &&& d = 0 →
        getArr st.width (caLoop st fuel active todo)
          (offs st.width st.height c.1 c.2 d).1
          (offs st.width st.height c.1 c.2 d).2 ≠ 0 := by
  intro fuel
  induction fuel with
  | zero =>
    intro active todo hlen hI4 hphi c hcg hmk d hdm h1 h2 h3
    have htodo : todo = [] := List.eq_nil_of_length_eq_zero (by omega)
    subst htodo
    rcases hI4 c hcg hmk with hpend | hexp
    · exact absurd hpend (List.not_mem_nil _)
    · exact hexp d hdm h1 h2 h3
  | succ fuel ih =>
    intro active todo hlen hI4 hphi c hcg
    cases todo with
    | nil =>
      intro hmk d hdm h1 h2 h3
      rcases hI4 c hcg hmk with hpend | hexp
      · exact absurd hpend (List.not_mem_nil _)
      · exact hexp d hdm h1 h2 h3
    | cons t rest =>
      rw [caLoop_step_eq]
      have hlen1 : (dirs.foldl (caStep st t.x t.y) (active, rest)).1.length =
          st.width * st.height := caChain_len dirs _ hlen
      have hphi1 : (dirs.foldl (caStep st t.x t.y) (active, rest)).2.length +
          unmarked st.width st.height
            (dirs.foldl (caStep st t.x t.y) (active, rest)).1 ≤ fuel := by
        have := @caChain_phi st hw hh t.x t.y dirs (active, rest) hlen
        simp only [List.length_cons] at hphi
        have hsnd : ((active, rest) : List Nat × List Xyd).2.length = rest.length := rfl
        have hfst : ((active, rest) : List Nat × List Xyd).1 = active := rfl
        rw [hsnd, hfst] at this
        omega
      have hI4n : ∀ c2 : Nat × Nat, inGrid st.width st.height c2 →
          getArr st.width (dirs.foldl (caStep st t.x t.y) (active, rest)).1
            c2.1 c2.2 ≠ 0 →
          ((⟨c2.1, c2.2, 0⟩ : Xyd) ∈
              (dirs.foldl (caStep st t.x t.y) (active, rest)).2 ∨
            ∀ d ∈ dirs, tile st c2.1 c2.2 &&& d ≠ 0 →
              tile st (offs st.width st.height c2.1 c2.2 d).1
                (offs st.width st.height c2.1 c2.2 d).2 &&& F d ≠ 0 →
              barrier st c2.1 c2.2 &&& d = 0 →
              getArr st.width (dirs.foldl (caStep st t.x t.y) (active, rest)).1
                (offs st.width st.height c2.1 c2.2 d).1
                (offs st.width st.height c2.1 c2.2 d).2 ≠ 0) := by
        intro c2 hc2g hmk2
        by_cases hold : getArr st.width active c2.1 c2.2 ≠ 0
        · rcases hI4 c2 hc2g hold with hpend | hexp
          · rcases List.mem_cons.mp hpend with heq | hrest
            · refine Or.inr ?_
              intro d hdm h1 h2 h3
              have hcellx : c2.1 = t.x := congrArg Xyd.x heq
              have hcelly : c2.2 = t.y := congrArg Xyd.y heq
              rw [hcellx, hcelly] at h1 h2 h3 ⊢
              exact caChain_expand hw hh dirs (active, rest) hlen hdm h1 h2 h3
            · exact Or.inl (caChain_super dirs _ hrest)
          · refine Or.inr ?_
            intro d hdm h1 h2 h3
            exact caChain_mono dirs _ (hexp d hdm h1 h2 h3)
        · push_neg at hold
          rcases caChain_newmark dirs _ hmk2 with hcontra | ⟨e, hidx, hmem⟩
          · exact absurd hold hcontra
          · refine Or.inl ?_
            have hcell : ((offs st.width st.height t.x t.y e).1,
                (offs st.width st.height t.x t.y e).2) = c2 := by
              by_contra hne2
              exact idx_inj ⟨offs_fst_lt hw, offs_snd_lt hh⟩ hc2g hne2 hidx
            have hx := congrArg Prod.fst hcell
            have hy := congrArg Prod.snd hcell
            simp only [] at hx hy
            rw [hx, hy] at hmem
            exact hmem
      exact ih _ _ hlen1 hI4n hphi1 c hcg

end Net

namespace Net

theorem isDir_mem_dirs {d : Nat} (hd : isDir d) : d ∈ dirs := by
  rcases hd with rfl | rfl | rfl | rfl <;> decide

/-- Adding a wall bit for a direction that would leave the grid keeps every
in-grid step unblocked. -/
theorem bar_add_pres {w h : Nat} {b : List Nat} {p q e : Nat}
    (hlen : b.length = w * h) (hlt : ∀ t ∈ b, t < 16)
    (hinv : ∀ x y d, x < w → y < h → stepOk w h (x, y) d → d ∈ dirs →
      getArr w b x y &&& d = 0)
    (hp : p < w) (hq : q < h) (he : e ∈ dirs)
    (hns : ¬stepOk w h (p, q) e) :
    (setArr w b p q (getArr w b p q ||| e)).length = w * h ∧
    (∀ t ∈ setArr w b p q (getArr w b p q ||| e), t < 16) ∧
    (∀ x y d, x < w → y < h → stepOk w h (x, y) d → d ∈ dirs →
      getArr w (setArr w b p q (getArr w b p q ||| e)) x y &&& d = 0) := by
  refine ⟨by unfold setArr; rw [List.length_set, hlen], ?_, ?_⟩
  · intro t ht
    unfold setArr at ht
    rcases List.mem_or_eq_of_mem_set ht with h1 | h1
    · exact hlt t h1
    · rw [h1]
      exact or_dir_lt_16 _ (getArr_lt_16 hlt _ _) _ he
  · intro x y d hx hy hsd hdm
    by_cases hcell : ((x, y) : Nat × Nat) = (p, q)
    · have hxe : x = p := congrArg Prod.fst hcell
      have hye : y = q := congrArg Prod.snd hcell
      subst hxe; subst hye
      have hidx : idx w x y < b.length := by
        rw [hlen]; exact idx_lt_size hx hy
      rw [getArr_setArr_self hidx]
      have hne : e ≠ d := fun heq => hns (heq ▸ hsd)
      exact or_dir_and_zero _ (getArr_lt_16 hlt _ _) _ he _ hdm
        (hinv x y d hx hy hsd hdm) hne
    · rw [getArr_setArr_other (idx_inj (⟨hp, hq⟩ : inGrid w h (p, q))
        (⟨hx, hy⟩ : inGrid w h (x, y)) (fun hcc => hcell hcc.symm))]
      exact hinv x y d hx hy hsd hdm

theorem barFoldX {w h : Nat} (hh : 0 < h) :
    ∀ (l : List Nat) (b : List Nat), (∀ x ∈ l, x < w) →
    (b.length = w * h ∧ (∀ t ∈ b, t < 16) ∧
      (∀ x y d, x < w → y < h → stepOk w h (x, y) d → d ∈ dirs →
        getArr w b x y &&& d = 0)) →
    ((l.foldl (fun b x =>
        setArr w (setArr w b x 0 (getArr w b x 0 ||| U)) x (h - 1)
          (getArr w (setArr w b x 0 (getArr w b x 0 ||| U)) x (h - 1) ||| D)) b).length
        = w * h ∧
      (∀ t ∈ l.foldl (fun b x =>
        setArr w (setArr w b x 0 (getArr w b x 0 ||| U)) x (h - 1)
          (getArr w (setArr w b x 0 (getArr w b x 0 ||| U)) x (h - 1) ||| D)) b, t < 16) ∧
      (∀ x y d, x < w → y < h → stepOk w h (x, y) d → d ∈ dirs →
        getArr w (l.foldl (fun b x =>
          setArr w (setArr w b x 0 (getArr w b x 0 ||| U)) x (h - 1)
            (getArr w (setArr w b x 0 (getArr w b x 0 ||| U)) x (h - 1) ||| D)) b)
          x y &&& d = 0)) := by
  intro l
  induction l with
  | nil => intro b _ hI; exact hI
  | cons a l ih =>
    intro b hmem hI
    rw [List.foldl_cons]
    apply ih _ (fun x hx => hmem x (List.mem_cons_of_mem _ hx))
    have ha : a < w := hmem a (List.mem_cons_self _ _)
    have hnsU : ¬stepOk w h ((a, 0) : Nat × Nat) U := by
      intro hs
      exact Nat.not_succ_le_zero 0 (hs.2.2.1 rfl)
    have h1 := bar_add_pres hI.1 hI.2.1 hI.2.2 ha hh (by decide) hnsU
    have hnsD : ¬stepOk w h ((a, h - 1) : Nat × Nat) D := by
      intro hs
      have h2 := hs.2.2.2 rfl
      have h3 : ((a, h - 1) : Nat × Nat).2 = h - 1 := rfl
      rw [h3] at h2
      omega
    exact bar_add_pres h1.1 h1.2.1 h1.2.2 ha (Nat.sub_lt hh Nat.one_pos)
      (by decide) hnsD

theorem barFoldY {w h : Nat} (hw : 0 < w) :
    ∀ (l : List Nat) (b : List Nat), (∀ y ∈ l, y < h) →
    (b.length = w * h ∧ (∀ t ∈ b, t < 16) ∧
      (∀ x y d, x < w → y < h → stepOk w h (x, y) d → d ∈ dirs →
        getArr w b x y &&& d = 0)) →
    ((l.foldl (fun b y =>
        setArr w (setArr w b 0 y (getArr w b 0 y ||| L)) (w - 1) y
          (getArr w (setArr w b 0 y (getArr w b 0 y ||| L)) (w - 1) y ||| R)) b).length
        = w * h ∧
      (∀ t ∈ l.foldl (fun b y =>
        setArr w (setArr w b 0 y (getArr w b 0 y ||| L)) (w - 1) y
          (getArr w (setArr w b 0 y (getArr w b 0 y ||| L)) (w - 1) y ||| R)) b, t < 16) ∧
      (∀ x y d, x < w → y < h → stepOk w h (x, y) d → d ∈ dirs →
        getArr w (l.foldl (fun b y =>
          setArr w (setArr w b 0 y (getArr w b 0 y ||| L)) (w - 1) y
            (getArr w (setArr w b 0 y (getArr w b 0 y ||| L)) (w - 1) y ||| R)) b)
          x y &&& d = 0)) := by
  intro l
  induction l with
  | nil => intro b _ hI; exact hI
  | cons a l ih =>
    intro b hmem hI
    rw [List.foldl_cons]
    apply ih _ (fun y hy => hmem y (List.mem_cons_of_mem _ hy))
    have ha : a < h := hmem a (List.mem_cons_self _ _)
    have hnsL : ¬stepOk w h ((0, a) : Nat × Nat) L := by
      intro hs
      exact Nat.not_succ_le_zero 0 (hs.2.1 rfl)
    have h1 := bar_add_pres hI.1 hI.2.1 hI.2.2 (by omega) ha (by decide) hnsL
    have hnsR : ¬stepOk w h ((w - 1, a) : Nat × Nat) R := by
      intro hs
      have h2 := hs.1 rfl
      have h3 : ((w - 1, a) : Nat × Nat).1 = w - 1 := rfl
      rw [h3] at h2
      omega
    exact bar_add_pres h1.1 h1.2.1 h1.2.2 (Nat.sub_lt hw Nat.one_pos) ha
      (by decide) hnsR

/-- The border walls of a non-wrapping grid never block a step that stays
inside the grid; a wrapping grid has no walls at all. -/
theorem borderBarriers_ok {w h : Nat} (hw : 0 < w) (hh : 0 < h) (wrapping : Bool) :
    ∀ x y d, x < w → y < h → stepOk w h (x, y) d → d ∈ dirs →
      getArr w (borderBarriers w h wrapping) x y &&& d = 0 := by
  have hbase : (List.replicate (w * h) (0 : Nat)).length = w * h ∧
      (∀ t ∈ List.replicate (w * h) (0 : Nat), t < 16) ∧
      (∀ x y d, x < w → y < h → stepOk w h (x, y) d → d ∈ dirs →
        getArr w (List.replicate (w * h) (0 : Nat)) x y &&& d = 0) := by
    refine ⟨List.length_replicate _ _, ?_, ?_⟩
    · intro t ht
      rw [List.eq_of_mem_replicate ht]
      decide
    · intro x y d _ _ _ _
      rw [getArr_replicate]
      exact Nat.zero_and d
  cases wrapping with
  | true =>
    intro x y d _ _ _ _
    show getArr w (List.replicate (w * h) 0) x y &&& d = 0
    rw [getArr_replicate]
    exact Nat.zero_and d
  | false =>
    have hX := barFoldX (w := w) hh (List.range w) (List.replicate (w * h) 0)
      (fun x hx => List.mem_range.mp hx) hbase
    have hY := barFoldY (h := h) hw (List.range h) _
      (fun y hy => List.mem_range.mp hy) hX
    exact hY.2.2

end Net

namespace Net

theorem getArr_setA_cases {w : Nat} {a : List Nat} {x y p q : Nat} :
    getArr w (setArr w a p q ACTIVE) x y = getArr w a x y ∨
    getArr w (setArr w a p q ACTIVE) x y = ACTIVE := by
  by_cases hij : idx w p q = idx w x y
  · rcases Nat.lt_or_ge (idx w p q) a.length with hlt | hge
    · refine Or.inr ?_
      unfold getArr setArr
      rw [← hij, getD_eq_get?, List.get?_set_eq_of_lt _ hlt]
      rfl
    · refine Or.inl ?_
      unfold setArr
      rw [List.set_eq_of_length_le hge]
  · exact Or.inl (getArr_setArr_other hij)

theorem caStep_vals {st : GState} {x1 y1 : Nat} {acc : List Nat × List Xyd} {d : Nat}
    (h : ∀ a b, getArr st.width acc.1 a b = 0 ∨ getArr st.width acc.1 a b = ACTIVE) :
    ∀ a b, getArr st.width (caStep st x1 y1 acc d).1 a b = 0 ∨
      getArr st.width (caStep st x1 y1 acc d).1 a b = ACTIVE := by
  rw [caStep_eq]
  split_ifs with hc
  · intro a b
    simp only []
    rcases @getArr_setA_cases st.width acc.1 a b (offs st.width st.height x1 y1 d).1
        (offs st.width st.height x1 y1 d).2 with h1 | h1
    · rw [h1]
      exact h a b
    · exact Or.inr h1
  · exact h

theorem caChain_vals {st : GState} {x1 y1 : Nat} :
    ∀ (l : List Nat) (acc : List Nat × List Xyd),
    (∀ a b, getArr st.width acc.1 a b = 0 ∨ getArr st.width acc.1 a b = ACTIVE) →
    ∀ a b, getArr st.width (l.foldl (caStep st x1 y1) acc).1 a b = 0 ∨
      getArr st.width (l.foldl (caStep st x1 y1) acc).1 a b = ACTIVE := by
  intro l
  induction l with
  | nil => intro acc h; exact h
  | cons d ds ih =>
    intro acc h
    rw [List.foldl_cons]
    exact ih _ (caStep_vals h)

theorem caLoop_vals (st : GState) :
    ∀ (fuel : Nat) (active : List Nat) (todo : List Xyd),
    (∀ a b, getArr st.width active a b = 0 ∨ getArr st.width active a b = ACTIVE) →
    ∀ a b, getArr st.width (caLoop st fuel active todo) a b = 0 ∨
      getArr st.width (caLoop st fuel active todo) a b = ACTIVE := by
  intro fuel
  induction fuel with
  | zero => intro active todo h; exact h
  | succ n ih =>
    intro active todo h
    cases todo with
    | nil => exact h
    | cons t rest =>
      rw [caLoop_step_eq]
      exact ih _ _ (caChain_vals dirs _ h)

theorem countP_lt_of_mem_false {α : Type} {p : α → Bool} {a : α} :
    ∀ {l : List α}, a ∈ l → p a = false → l.countP p < l.length := by
  intro l
  induction l with
  | nil => intro ha; exact absurd ha (List.not_mem_nil _)
  | cons b l ih =>
    intro ha hpa
    rw [List.countP_cons, List.length_cons]
    rcases List.mem_cons.mp ha with rfl | hmem
    · rw [hpa, if_neg (by decide : ¬(false = true))]
      have := List.countP_le_length (p := p) (l := l)
      omega
    · have := ih hmem hpa
      by_cases hb : p b = true
      · rw [hb, if_pos rfl]; omega
      · rw [Bool.not_eq_true] at hb
        rw [hb, if_neg (by decide : ¬(false = true))]; omega

end Net

namespace Net

/-- On the freshly generated state (pre-shuffle tiles, border walls only)
the flood fill marks every cell that the connection graph reaches from the
centre. -/
theorem compute_active_all (q : GameParams) (f : Nat → Nat)
    (hw : 0 < q.width) (hh : 0 < q.height) :
    ∀ c : Nat × Nat, inGrid q.width q.height c →
    reachable q.width q.height (pipeline q f).preTiles (center q.width q.height) c →
    getArr q.width (compute_active (preState q f)) c.1 c.2 = ACTIVE := by
  obtain ⟨-, hI⟩ := generate_complete q f hw hh
  obtain ⟨bs, hBO, hBC, hPI, -⟩ := hI.births
  have hcg0 : inGrid q.width q.height (q.width / 2, q.height / 2) :=
    ⟨Nat.div_lt_self hw (by decide), Nat.div_lt_self hh (by decide)⟩
  set A1 := setArr q.width (List.replicate (q.width * q.height) 0)
    (q.width / 2) (q.height / 2) ACTIVE with hA1
  set T1 := insert234 ⟨q.width / 2, q.height / 2, 0⟩ ([] : List Xyd) with hT1
  have hlen1 : A1.length = q.width * q.height := by
    rw [hA1]
    unfold setArr
    rw [List.length_set, List.length_replicate]
  have hctr : getArr q.width A1 (q.width / 2) (q.height / 2) = ACTIVE := by
    rw [hA1]
    apply getArr_setArr_self
    rw [List.length_replicate]
    exact idx_lt_size hcg0.1 hcg0.2
  have hphiinit : T1.length + unmarked q.width q.height A1 ≤ q.width * q.height := by
    have ht1 : T1.length ≤ 1 := by
      rw [hT1]
      exact length_insert234_le
    have hfalse : (fun c : Nat × Nat =>
        decide (getArr q.width A1 c.1 c.2 = 0)) (q.width / 2, q.height / 2) = false := by
      simp only [decide_eq_false_iff_not]
      intro h0
      have hctrP : getArr q.width A1 ((q.width / 2, q.height / 2) : Nat × Nat).1
          ((q.width / 2, q.height / 2) : Nat × Nat).2 = ACTIVE := hctr
      rw [hctrP] at h0
      exact (by decide : ACTIVE ≠ 0) h0
    have hc1 : unmarked q.width q.height A1 < q.width * q.height := by
      unfold unmarked
      have hlt := @countP_lt_of_mem_false (Nat × Nat)
        (fun c : Nat × Nat => decide (getArr q.width A1 c.1 c.2 = 0))
        (q.width / 2, q.height / 2) (gridCells q.width q.height)
        (mem_gridCells.mpr hcg0) hfalse
      rw [length_gridCells] at hlt
      exact hlt
    omega
  have hI4init : ∀ c2 : Nat × Nat, inGrid q.width q.height c2 →
      getArr q.width A1 c2.1 c2.2 ≠ 0 → (⟨c2.1, c2.2, 0⟩ : Xyd) ∈ T1 := by
    intro c2 hc2 hm
    rw [hA1] at hm
    rcases getArr_setA_src hm with hbad | hidx
    · rw [getArr_replicate] at hbad
      exact absurd rfl hbad
    · have hcell : ((q.width / 2, q.height / 2) : Nat × Nat) = c2 := by
        by_contra hne
        exact idx_inj hcg0 hc2 hne hidx
      have hx : q.width / 2 = c2.1 := congrArg Prod.fst hcell
      have hy : q.height / 2 = c2.2 := congrArg Prod.snd hcell
      rw [hT1, ← hx, ← hy]
      exact mem_insert234.mpr (Or.inl rfl)
  have hclosed := caLoop_closed (preState q f) hw hh (q.width * q.height) A1 T1
    hlen1 (fun c2 hc2 hm => Or.inl (hI4init c2 hc2 hm)) hphiinit
  have hmark : ∀ c2 : Nat × Nat,
      reachable q.width q.height (pipeline q f).preTiles (center q.width q.height) c2 →
      getArr q.width (caLoop (preState q f) (q.width * q.height) A1 T1) c2.1 c2.2 ≠ 0 ∧
        inGrid q.width q.height c2 := by
    intro c2 hr
    induction hr with
    | refl =>
      constructor
      · have h0 : getArr q.width (caLoop (preState q f) (q.width * q.height) A1 T1)
            (q.width / 2) (q.height / 2) = ACTIVE :=
          caLoop_preserves (preState q f) (q.width * q.height) A1 T1 hctr (by decide)
        show getArr q.width (caLoop (preState q f) (q.width * q.height) A1 T1)
          (q.width / 2) (q.height / 2) ≠ 0
        rw [h0]
        decide
      · exact hcg0
    | @tail b c3 hab hbc ih =>
      obtain ⟨hmkb, hgb⟩ := ih
      obtain ⟨d, hd, hbit, hceq⟩ := hbc
      subst hceq
      refine ⟨?_, nbr_inGrid hw hh b d⟩
      have hdm : d ∈ dirs := isDir_mem_dirs hd
      have h1 : tile (preState q f) b.1 b.2 &&& d ≠ 0 := hbit
      have h2 : tile (preState q f) (offs q.width q.height b.1 b.2 d).1
          (offs q.width q.height b.1 b.2 d).2 &&& F d ≠ 0 :=
        (conn_facts hw hh hBO hBC hPI hgb hd hbit).2.2.1
      have h3 : barrier (preState q f) b.1 b.2 &&& d = 0 := by
        show getArr q.width (borderBarriers q.width q.height q.wrapping) b.1 b.2 &&& d = 0
        cases hq : q.wrapping with
        | true =>
          show getArr q.width (List.replicate (q.width * q.height) 0) b.1 b.2 &&& d = 0
          rw [getArr_replicate]
          exact Nat.zero_and d
        | false =>
          have hso : stepOk q.width q.height b d := hI.offgrid hq b hgb d hd hbit
          exact borderBarriers_ok hw hh false b.1 b.2 d hgb.1 hgb.2 hso hdm
      exact hclosed b hgb hmkb d hdm h1 h2 h3
  intro c hcg hreach
  rcases hmark c hreach with ⟨hne, -⟩
  have hv0 : ∀ a b : Nat, getArr q.width A1 a b = 0 ∨ getArr q.width A1 a b = ACTIVE := by
    intro a b
    rw [hA1]
    rcases @getArr_setA_cases q.width (List.replicate (q.width * q.height) 0) a b
        (q.width / 2) (q.height / 2) with h1 | h1
    · rw [h1, getArr_replicate]
      exact Or.inl rfl
    · exact Or.inr h1
  rcases caLoop_vals (preState q f) (q.width * q.height) A1 T1 hv0 c.1 c.2 with h0 | hA
  · exact absurd h0 hne
  · exact hA

end Net

namespace Net

/-- C6: on the generated grid before shuffling and with no barriers placed
(the state holds only the border walls of a non-wrapping grid), the
Connectivity Solver's flood fill from the centre marks 100% of the cells
active: every in-grid cell's entry in the `compute_active` array is
`ACTIVE`. -/
theorem claim_C6_flood_fill_marks_all (q : GameParams) (f : Nat → Nat)
    (hw : 0 < q.width) (hh : 0 < q.height) (hdim : 1 < q.width ∨ 1 < q.height) :
    ∀ c : Nat × Nat, inGrid q.width q.height c →
      getArr q.width (compute_active (preState q f)) c.1 c.2 = ACTIVE := by
  intro c hcg
  exact compute_active_all q f hw hh c hcg
    ((generate_spanning q f hw hh hdim).1 c hcg)

/-- Witness for C6 at a concrete parameter set. -/
theorem claim_C6_flood_fill_marks_all_witness :
    0 < (2 : Nat) ∧
    (∀ c : Nat × Nat, inGrid 2 2 c →
      getArr 2 (compute_active (preState ⟨2, 2, false, 0⟩ (fun _ => 0))) c.1 c.2
        = ACTIVE) :=
  ⟨by decide,
    claim_C6_flood_fill_marks_all ⟨2, 2, false, 0⟩ (fun _ => 0) (by decide) (by decide)
      (Or.inl (by decide))⟩

end Net
